import Mathlib

/-!
# Amlogic SPICC SPI master driver: `drivers/amlogic/spi/spicc.c`

A shallow embedding of the driver core (clock divider selection, mode and
chip-select programming, the polled FIFO transfer engine, per-message
processing and the message queue worker) together with theorems about it.

Conventions of the embedding

* C integers are `Nat`/`Int` with explicit wrap-around (`u32`, `s32`).  The
  driver is built for 32-bit ARM (it includes `mach/` headers), so
  `unsigned long` is 32 bits wide (`ULONG_MOD`).
* The memory-mapped register block `spicc->regs` is a record: a field reads
  back the value last written to it.  Bit-field widths are declared in
  `mach/spicc.h`, which is not part of the sources, so values are stored as
  written.
* The status flags and the data ports are hardware behaviour.  They are
  supplied by a hardware model `Hw σ` (a state machine over `σ`), so that a
  theorem can quantify over every hardware or fix one (loopback, stuck).
* Every externally visible action (register write, GPIO output, delay, flag
  read, data port access, completion callback) is appended to a trace, in
  program order.
* A C function that may fail to return (endless loop, division by zero)
  yields `Option`; `none` means "no return value".
-/

namespace Spicc

/-! ## Machine integers and constants -/

/-- Conversion to a 32-bit unsigned type (`unsigned int`, `u32`). -/
def u32 (n : Int) : Nat := (n % 4294967296).toNat

/-- Conversion to 32-bit `int`, two's complement wrap-around: the residue modulo
2^32, taken as negative from 2^31 on. -/
def s32 (n : Int) : Int :=
  if (n % 4294967296).toNat < 2147483648 then n % 4294967296 else n % 4294967296 - 4294967296

/-- Number of values of `unsigned long` on the 32-bit ARM target. -/
def ULONG_MOD : Nat := 4294967296

/-- Conversion to `unsigned long`. -/
def ulong (n : Int) : Nat := (n % (ULONG_MOD : Int)).toNat

/-- Errno value from `include/uapi/asm-generic/errno-base.h`. -/
def EINVAL : Int := 22

/-- Errno value from `include/uapi/asm-generic/errno.h`. -/
def ETIMEDOUT : Int := 110

/-- Errno value from `include/uapi/asm-generic/errno.h`. -/
def EINPROGRESS : Int := 115

/-- Mode bit from `include/linux/spi/spi.h`: clock phase. -/
def SPI_CPHA : Nat := 1

/-- Mode bit from `include/linux/spi/spi.h`: clock polarity. -/
def SPI_CPOL : Nat := 2

/-- Mode bit from `include/linux/spi/spi.h`: chip select is active high. -/
def SPI_CS_HIGH : Nat := 4

/-- Mode bit from `include/linux/spi/spi.h`: the device has no chip select. -/
def SPI_NO_CS : Nat := 64

/-- Mode value from `include/linux/spi/spi.h`: CPOL = 0, CPHA = 0. -/
def SPI_MODE_0 : Nat := 0

/-- Values the driver takes from its platform: the rate returned by
`clk_get_rate(clk_get_sys("clk81", NULL))`, and the constants
`SPICC_FIFO_SIZE` and `SPICC_PIO` of `mach/spicc.h` (not part of the sources). -/
structure Platform where
  sys_clk_rate : Nat
  fifo_size : Nat
  smc_pio : Nat
deriving DecidableEq, Repr

/-! ## Data model -/

/-- Fields of the control register `conreg` the driver writes. -/
inductive ConField where
  | enable | mode | xch | smc | bits_per_word | clk_pha | clk_pol | drctl
  | chip_select | ss_pol | ss_ctl | data_rate_div
deriving DecidableEq, Repr

/-- Pad pull registers touched by `spicc_set_mode`. -/
inductive PadReg where
  | PULL_UP_EN_REG4 | PULL_UP_REG4
deriving DecidableEq, Repr

/-- Externally visible actions, recorded in program order.  `xfer_return` is a
marker, not an action of the hardware: it records the value a `spicc_hw_xfer` call
of the transfer loop returned. -/
inductive Event where
  | clk_gate_on
  | clk_gate_off
  | udelay (usecs : Nat)
  | gpio_out (gpio : Int) (level : Bool)
  | conreg (f : ConField) (v : Nat)
  | testreg (v : Nat)
  | pad (reg : PadReg) (val start len : Nat)
  | tx_empty (v : Bool)
  | rx_ready (v : Bool)
  | txdata (dat : Nat)
  | rxdata (dat : Nat)
  | queue_work
  | xfer_return (ret : Int)
  | complete (context : Nat)
deriving DecidableEq, Repr

/-- The control register, one component per bit-field. -/
structure ConReg where
  enable : Nat
  mode : Nat
  xch : Nat
  smc : Nat
  bits_per_word : Nat
  clk_pha : Nat
  clk_pol : Nat
  drctl : Nat
  chip_select : Nat
  ss_pol : Nat
  ss_ctl : Nat
  data_rate_div : Nat
deriving DecidableEq, Repr

/-- The part of `struct spicc_regs` the driver core programs. -/
structure spicc_regs where
  conreg : ConReg
  testreg : Nat
deriving DecidableEq, Repr

/-- Fields of `struct spi_device` the driver reads. -/
structure spi_device where
  max_speed_hz : Nat
  chip_select : Nat
  mode : Nat
  bits_per_word : Nat
  cs_gpio : Int
deriving DecidableEq, Repr

/-- Fields of `struct spi_transfer` the driver reads.  A buffer pointer is
`none` when it is NULL and otherwise holds the bytes of the buffer. -/
structure spi_transfer where
  tx_buf : Option (List Nat)
  rx_buf : Option (List Nat)
  len : Nat
  speed_hz : Nat
  delay_usecs : Nat
deriving DecidableEq, Repr

/-- Fields of `struct spi_message` the driver uses.  `spi` is the address of
the target device, `context` the callback argument (0 is NULL). -/
structure spi_message where
  spi : Nat
  transfers : List spi_transfer
  actual_length : Nat
  status : Int
  context : Nat
deriving DecidableEq, Repr

/-- Fields of `struct spi_master` the driver reads. -/
structure spi_master where
  num_chipselect : Nat
  cs_gpios : List Int
deriving DecidableEq, Repr

/-- The driver state `struct spicc`.  `spi` is the address of the device the
controller last worked for (0 is NULL). -/
structure spicc where
  msg_queue : List spi_message
  master : spi_master
  spi : Nat
  regs : spicc_regs
  cur_speed : Int
  cur_mode : Nat
  cur_bits_per_word : Nat
deriving DecidableEq, Repr

/-- Behaviour of the controller hardware seen through the status flags and the
data ports: each access returns the value read and the next hardware state. -/
structure Hw (σ : Type) where
  tx_empty : σ → Bool × σ
  rx_ready : σ → Bool × σ
  txdata_wr : Nat → σ → σ
  rxdata_rd : σ → Nat × σ
  udelay : Nat → σ → σ

/-- Driver state, hardware state and the trace of actions so far. -/
structure Machine (σ : Type) where
  spicc : spicc
  hw : σ
  trace : List Event

/-! ## Primitive actions -/

/-- Append an action to the trace. -/
def emit {σ : Type} (e : Event) (m : Machine σ) : Machine σ :=
  { m with trace := m.trace ++ [e] }

/-- Update of one bit-field of the control register value. -/
def ConReg.write (f : ConField) (v : Nat) (c : ConReg) : ConReg :=
  match f with
  | .enable => { c with enable := v }
  | .mode => { c with mode := v }
  | .xch => { c with xch := v }
  | .smc => { c with smc := v }
  | .bits_per_word => { c with bits_per_word := v }
  | .clk_pha => { c with clk_pha := v }
  | .clk_pol => { c with clk_pol := v }
  | .drctl => { c with drctl := v }
  | .chip_select => { c with chip_select := v }
  | .ss_pol => { c with ss_pol := v }
  | .ss_ctl => { c with ss_ctl := v }
  | .data_rate_div => { c with data_rate_div := v }

/-- Assignment `spicc->regs->conreg.f = v`. -/
def wr_conreg {σ : Type} (f : ConField) (v : Nat) (m : Machine σ) : Machine σ :=
  emit (.conreg f v)
    { m with spicc := { m.spicc with
        regs := { m.spicc.regs with conreg := m.spicc.regs.conreg.write f v } } }

/-- Call `udelay(usecs)`: time passes for the hardware. -/
def udelay {σ : Type} (H : Hw σ) (usecs : Nat) (m : Machine σ) : Machine σ :=
  emit (.udelay usecs) { m with hw := H.udelay usecs m.hw }

/-- Read of `spicc->regs->statreg.tx_empty`. -/
def rd_tx_empty {σ : Type} (H : Hw σ) (m : Machine σ) : Bool × Machine σ :=
  ((H.tx_empty m.hw).1, emit (.tx_empty (H.tx_empty m.hw).1) { m with hw := (H.tx_empty m.hw).2 })

/-- Read of `spicc->regs->statreg.rx_ready`. -/
def rd_rx_ready {σ : Type} (H : Hw σ) (m : Machine σ) : Bool × Machine σ :=
  ((H.rx_ready m.hw).1, emit (.rx_ready (H.rx_ready m.hw).1) { m with hw := (H.rx_ready m.hw).2 })

/-- Assignment `spicc->regs->txdata = dat`. -/
def wr_txdata {σ : Type} (H : Hw σ) (dat : Nat) (m : Machine σ) : Machine σ :=
  emit (.txdata dat) { m with hw := H.txdata_wr dat m.hw }

/-- Read `dat = spicc->regs->rxdata`. -/
def rd_rxdata {σ : Type} (H : Hw σ) (m : Machine σ) : Nat × Machine σ :=
  ((H.rxdata_rd m.hw).1, emit (.rxdata (H.rxdata_rd m.hw).1) { m with hw := (H.rxdata_rd m.hw).2 })

/-! ## `spicc_chip_select` -/

/-- The function `spicc_chip_select(spicc, select)`; `mem` dereferences a device address. -/
def spicc_chip_select {σ : Type} (mem : Nat → spi_device) (select : Bool)
    (m : Machine σ) : Machine σ :=
  let chip_select := (mem m.spicc.spi).chip_select
  let cs_gpio := (mem m.spicc.spi).cs_gpio
  let ss_pol : Bool := (mem m.spicc.spi).mode &&& SPI_CS_HIGH ≠ 0
  if (mem m.spicc.spi).mode &&& SPI_NO_CS ≠ 0 then m
  else if cs_gpio > 0 then
    emit (.gpio_out cs_gpio (if ss_pol then select else !select)) m
  else if chip_select < m.spicc.master.num_chipselect then
    let cs_gpio := m.spicc.master.cs_gpios.getD chip_select 0
    if cs_gpio > 0 then
      emit (.gpio_out cs_gpio (if ss_pol then select else !select)) m
    else
      wr_conreg .ss_ctl ss_pol.toNat
        (wr_conreg .ss_pol ss_pol.toNat (wr_conreg .chip_select chip_select m))
  else m

/-! ## `spicc_set_mode` -/

/-- The function `spicc_set_mode(spicc, mode)`. -/
def spicc_set_mode {σ : Type} (mode : Nat) (m : Machine σ) : Machine σ :=
  let m1 := wr_conreg .clk_pha (if mode &&& SPI_CPHA ≠ 0 then 1 else 0) m
  let m2 := wr_conreg .clk_pol (if mode &&& SPI_CPOL ≠ 0 then 1 else 0) m1
  let m3 := wr_conreg .drctl 0 m2
  let m4 : Machine σ := { m3 with spicc := { m3.spicc with cur_mode := mode } }
  let m5 := emit (.pad .PULL_UP_EN_REG4 1 10 1) m4
  let m6 := emit (.pad .PULL_UP_REG4 0 10 1) m5
  let m7 := emit (.pad .PULL_UP_EN_REG4 1 8 1) m6
  if mode &&& SPI_CPOL ≠ 0 then emit (.pad .PULL_UP_REG4 1 8 1) m7
  else emit (.pad .PULL_UP_REG4 0 8 1) m7

/-! ## `spicc_set_clk` -/

/-- The loop `for (div = 0; div < 7; div++) { if (speed >= mid_speed) break; mid_speed >>= 1; }`
of `spicc_set_clk`.  The first argument counts the codes still to try (`7 - div`);
the result is the value of `div` after the loop. -/
def set_clk_loop (speed : Nat) : Nat → Nat → Nat → Nat
  | 0, div, _ => div
  | n + 1, div, mid_speed =>
    if speed ≥ mid_speed then div else set_clk_loop speed n (div + 1) (mid_speed >>> 1)

/-- The divider code `spicc_set_clk` computes: `mid_speed = (sys_clk_rate * 3) >> 4` in
`unsigned long`, and `speed` (an `int`) is converted to `unsigned long` by the comparison. -/
def spicc_clk_div (sys_clk_rate : Nat) (speed : Int) : Nat :=
  set_clk_loop (ulong speed) 7 0 (((sys_clk_rate * 3) % ULONG_MOD) >>> 4)

/-- The rate the source documents for a divider code
("actually, speed = sys_clk_rate / 2^(conreg.data_rate_div+2)"), printed by
`spicc_set_clk` as `sys_clk_rate >> div_val` with `div_val = div + 2`. -/
def actual_speed (sys_clk_rate div : Nat) : Nat := sys_clk_rate >>> (div + 2)

/-- The function `spicc_set_clk(spicc, speed)`. -/
def spicc_set_clk {σ : Type} (P : Platform) (speed : Int) (m : Machine σ) : Machine σ :=
  let m1 := wr_conreg .data_rate_div (spicc_clk_div P.sys_clk_rate speed) m
  { m1 with spicc := { m1.spicc with cur_speed := speed } }

/-! ## `spicc_hw_xfer` -/

/-- State of one `spicc_hw_xfer` call: the machine, the transmit pointer (`none` is
NULL, otherwise the bytes from `txp` on) and the receive pointer (`none` is NULL,
otherwise the bytes stored through `rxp` so far, in address order). -/
structure Xfer (σ : Type) where
  m : Machine σ
  txp : Option (List Nat)
  rxp : Option (List Nat)

/-- The operand `txp ? ((*txp++) << shift) : 0` together with the advanced pointer.
`*txp` is a `u8`; the shifted value is or-ed into the `unsigned int dat`.  A read
past the end of the buffer (undefined in C) yields 0. -/
def tx_byte (shift : Nat) : Option (List Nat) → Nat × Option (List Nat)
  | none => (0, none)
  | some [] => (0, some [])
  | some (b :: bs) => (((b % 256) <<< shift) % 4294967296, some bs)

/-- Switch label `case 8:` of the transmit switch. -/
def tx_case8 (dat : Nat) (txp : Option (List Nat)) : Nat × Option (List Nat) :=
  (dat ||| (tx_byte 0 txp).1, (tx_byte 0 txp).2)

/-- Switch label `case 16:` of the transmit switch, falling through to `case 8:`. -/
def tx_case16 (dat : Nat) (txp : Option (List Nat)) : Nat × Option (List Nat) :=
  tx_case8 (dat ||| (tx_byte 8 txp).1) (tx_byte 8 txp).2

/-- Switch label `case 32:` of the transmit switch, falling through to `case 16:`. -/
def tx_case32 (dat : Nat) (txp : Option (List Nat)) : Nat × Option (List Nat) :=
  tx_case16 ((dat ||| (tx_byte 24 txp).1) ||| (tx_byte 16 (tx_byte 24 txp).2).1)
    (tx_byte 16 (tx_byte 24 txp).2).2

/-- The transmit switch on `cur_bits_per_word` with `dat = 0`: the word to write and
the advanced pointer, or `none` for the `default:` label. -/
def tx_word (bits : Nat) (txp : Option (List Nat)) : Option (Nat × Option (List Nat)) :=
  if bits = 32 then some (tx_case32 0 txp)
  else if bits = 16 then some (tx_case16 0 txp)
  else if bits = 8 then some (tx_case8 0 txp)
  else none

/-- Switch label `case 8:` of the receive switch: `(*rxp++) = (dat) & 0xFF`. -/
def rx_case8 (dat : Nat) (rx : List Nat) : List Nat :=
  rx ++ [dat &&& 255]

/-- Switch label `case 16:` of the receive switch, falling through to `case 8:`. -/
def rx_case16 (dat : Nat) (rx : List Nat) : List Nat :=
  rx_case8 dat (rx ++ [(dat >>> 8) &&& 255])

/-- Switch label `case 32:` of the receive switch, falling through to `case 16:`. -/
def rx_case32 (dat : Nat) (rx : List Nat) : List Nat :=
  rx_case16 dat ((rx ++ [(dat >>> 24) &&& 255]) ++ [(dat >>> 16) &&& 255])

/-- The receive switch on `cur_bits_per_word`: the bytes stored so far, or `none`
for the `default:` label. -/
def rx_store (bits dat : Nat) (rx : List Nat) : Option (List Nat) :=
  if bits = 32 then some (rx_case32 dat rx)
  else if bits = 16 then some (rx_case16 dat rx)
  else if bits = 8 then some (rx_case8 dat rx)
  else none

/-- The polling loop `while (!flag && retry--) udelay(1);` started with the given
value of the `unsigned int retry`: the value of `retry` after the loop and the
machine.  `rd` reads the flag.  When the flag is clear and `retry` is 0 the
post-decrement leaves the loop and wraps `retry` to `UINT_MAX`. -/
def spicc_poll {σ : Type} (H : Hw σ) (rd : Machine σ → Bool × Machine σ) :
    Nat → Machine σ → Nat × Machine σ
  | 0, m => if (rd m).1 then (0, (rd m).2) else (4294967295, (rd m).2)
  | retry + 1, m =>
    if (rd m).1 then (retry + 1, (rd m).2) else spicc_poll H rd retry (udelay H 1 (rd m).2)

/-- The loop `for (i = 0; i < num; i++)` that packs and writes `num` words.  The
first component is `some r` when the loop executed `return r`. -/
def tx_loop {σ : Type} (H : Hw σ) : Nat → Xfer σ → Option Int × Xfer σ
  | 0, x => (none, x)
  | n + 1, x =>
    match tx_word x.m.spicc.cur_bits_per_word x.txp with
    | none => (some (-1), x)
    | some (dat, txp) => tx_loop H n { x with m := wr_txdata H dat x.m, txp := txp }

/-- The settling delay before `rxdata` is read:
`if (data_rate_div > 5 && cur_bits_per_word != 8) udelay(cur_bits_per_word * (data_rate_div - 5) + 10)`. -/
def rx_delay {σ : Type} (H : Hw σ) (m : Machine σ) : Machine σ :=
  if m.spicc.regs.conreg.data_rate_div > 5 ∧ m.spicc.cur_bits_per_word ≠ 8 then
    udelay H
      ((m.spicc.cur_bits_per_word * (m.spicc.regs.conreg.data_rate_div - 5) + 10) % 4294967296) m
  else m

/-- The loop `for (i = 0; i < num; i++)` that polls `rx_ready`, reads and unpacks
`num` words.  The first component is `some r` when the loop executed `return r`. -/
def rx_loop {σ : Type} (H : Hw σ) : Nat → Xfer σ → Option Int × Xfer σ
  | 0, x => (none, x)
  | n + 1, x =>
    let p := spicc_poll H (rd_rx_ready H) 100 x.m
    if p.1 = 0 then (some (-ETIMEDOUT), { x with m := p.2 })
    else
      let r := rd_rxdata H (rx_delay H p.2)
      match x.rxp with
      | none => rx_loop H n { x with m := r.2 }
      | some rx =>
        match rx_store r.2.spicc.cur_bits_per_word r.1 rx with
        | none => (some (-1), { x with m := r.2 })
        | some rx1 => rx_loop H n { x with m := r.2, rxp := some rx1 }

/-- The loop `while (count > 0)` of `spicc_hw_xfer` followed by `return 0`.  The
first argument bounds the number of bursts; `none` means the bound was reached. -/
def xfer_loop {σ : Type} (H : Hw σ) (P : Platform) :
    Nat → Nat → Xfer σ → Option (Int × Xfer σ)
  | _, 0, x => some (0, x)
  | 0, _ + 1, _ => none
  | fuel + 1, count + 1, x =>
    let num := if count + 1 > P.fifo_size then P.fifo_size else count + 1
    let p := spicc_poll H (rd_tx_empty H) 100 x.m
    if p.1 = 0 then some (-ETIMEDOUT, { x with m := p.2 })
    else
      match tx_loop H num { x with m := p.2 } with
      | (some r, x1) => some (r, x1)
      | (none, x1) =>
        match rx_loop H num x1 with
        | (some r, x2) => some (r, x2)
        | (none, x2) => xfer_loop H P fuel (count + 1 - num) x2

/-- The word count `count = len ? (len * 8) / cur_bits_per_word : 0`: `len * 8` is
computed in `int`, the quotient truncates and is converted to `unsigned int`. -/
def xfer_count (bits : Nat) (len : Int) : Nat :=
  if len ≠ 0 then u32 (Int.tdiv (s32 (len * 8)) (bits : Int)) else 0

/-- The function `spicc_hw_xfer(spicc, txp, rxp, len)`: the return value and the state
at the return.  `none` when the call does not return: the division by a zero word
size, or a burst loop that makes no progress.  Every burst moves at least one word
when `SPICC_FIFO_SIZE` is positive, so `count` bursts always suffice then. -/
def spicc_hw_xfer {σ : Type} (H : Hw σ) (P : Platform) (m : Machine σ)
    (txp rxp : Option (List Nat)) (len : Int) : Option (Int × Xfer σ) :=
  if len ≠ 0 ∧ m.spicc.cur_bits_per_word = 0 then none
  else
    xfer_loop H P (xfer_count m.spicc.cur_bits_per_word len)
      (xfer_count m.spicc.cur_bits_per_word len) ⟨m, txp, rxp⟩

/-! ## `spicc_hw_init` and `spicc_setup` -/

/-- The function `spicc_hw_init(spicc)`. -/
def spicc_hw_init {σ : Type} (H : Hw σ) (P : Platform) (m : Machine σ) : Machine σ :=
  let m1 := udelay H 10 (emit .clk_gate_on m)
  let t := m1.spicc.regs.testreg ||| (1 <<< 24)
  let m2 := emit (.testreg t)
    { m1 with spicc := { m1.spicc with regs := { m1.spicc.regs with testreg := t } } }
  let m3 := wr_conreg .smc P.smc_pio
    (wr_conreg .xch 0 (wr_conreg .mode 1 (wr_conreg .enable 0 m2)))
  let m4 : Machine σ := { m3 with spicc := { m3.spicc with cur_bits_per_word := 8 } }
  let m5 := wr_conreg .bits_per_word (m4.spicc.cur_bits_per_word - 1) m4
  let m6 := spicc_set_mode SPI_MODE_0 m5
  let m7 : Machine σ := { m6 with spicc := { m6.spicc with cur_mode := SPI_MODE_0 } }
  let m8 := spicc_set_clk P 3000000 m7
  let m9 : Machine σ := { m8 with spicc := { m8.spicc with cur_speed := 3000000 } }
  wr_conreg .ss_pol 0 (wr_conreg .ss_ctl 1 m9)

/-- The function `spicc_setup(spi)`.  `devdata` is the result of
`spi_master_get_devdata(spi->master)`: `none` when it is NULL, else the machine
holding the controller.  Returns the return value and the state after the call. -/
def spicc_setup {σ : Type} (H : Hw σ) (P : Platform) (devdata : Option (Machine σ))
    (spi : spi_device) : Int × Option (Machine σ) :=
  match devdata with
  | none => (0, none)
  | some m =>
    if spi.bits_per_word ≠ 8 ∧ spi.bits_per_word ≠ 16 ∧ spi.bits_per_word ≠ 32 then
      (-EINVAL, some m)
    else if m.spicc.cur_bits_per_word ≠ spi.bits_per_word ∨ m.spicc.cur_mode ≠ spi.mode
        ∨ u32 m.spicc.cur_speed ≠ spi.max_speed_hz then
      let m1 := udelay H 10 (emit .clk_gate_on m)
      let m2 := wr_conreg .enable 0 m1
      let m3 := spicc_set_clk P (s32 spi.max_speed_hz) m2
      let m4 := spicc_set_mode spi.mode m3
      let m5 : Machine σ :=
        { m4 with spicc := { m4.spicc with cur_bits_per_word := spi.bits_per_word } }
      let m6 := wr_conreg .bits_per_word (m5.spicc.cur_bits_per_word - 1) m5
      let m7 := wr_conreg .enable 1 m6
      (0, some (emit .clk_gate_off m7))
    else (0, some m)

/-! ## `spicc_handle_one_msg` -/

/-- Contents of a receive buffer after `written` was stored from its start. -/
def rx_result (buf written : Option (List Nat)) : Option (List Nat) :=
  match buf, written with
  | some b, some w => some (w ++ b.drop w.length)
  | b, _ => b

/-- The loop `list_for_each_entry(t, &m->transfers, transfer_list)` of
`spicc_handle_one_msg`, run on the transfers still to do.  `spi` is the target
device `*m->spi`.  A negative return value of `spicc_hw_xfer` leaves the loop
(`goto spicc_handle_end`); otherwise `m->actual_length += t->len`, the optional
delay, and the next iteration.  Returns the machine at the label
`spicc_handle_end`, the value of `m->actual_length` and the transfers with their
receive buffers as left by the loop; `none` when a `spicc_hw_xfer` call does not
return. -/
def transfers_loop {σ : Type} (H : Hw σ) (P : Platform) (spi : spi_device) :
    List spi_transfer → Machine σ → Nat → Option (Machine σ × Nat × List spi_transfer)
  | [], m, actual_length => some (m, actual_length, [])
  | t :: ts, m, actual_length =>
    let m1 := if spi.max_speed_hz ≠ t.speed_hz ∧ t.speed_hz ≠ 0
      then spicc_set_clk P (s32 t.speed_hz) m else m
    match spicc_hw_xfer H P m1 t.tx_buf (t.rx_buf.map (fun _ => [])) (s32 t.len) with
    | none => none
    | some (ret, x) =>
      let t1 := { t with rx_buf := rx_result t.rx_buf x.rxp }
      let mr := emit (.xfer_return ret) x.m
      if ret < 0 then some (mr, actual_length, t1 :: ts)
      else
        let m2 := if t.delay_usecs ≠ 0 then udelay H t.delay_usecs mr else mr
        match transfers_loop H P spi ts m2 ((actual_length + t.len) % 4294967296) with
        | none => none
        | some (m3, al, ts1) => some (m3, al, t1 :: ts1)

/-- The statements of `spicc_handle_one_msg` before the transfer loop: clock gate on,
reprogramming of clock and mode when the target device is not the one the
controller last worked for, chip select, enable. -/
def msg_begin {σ : Type} (P : Platform) (mem : Nat → spi_device)
    (m : Machine σ) (msg : spi_message) : Machine σ :=
  let spi := mem msg.spi
  let m0 := emit .clk_gate_on m
  let m1 :=
    if m0.spicc.spi ≠ msg.spi then
      spicc_set_mode spi.mode
        (spicc_set_clk P (s32 spi.max_speed_hz)
          { m0 with spicc := { m0.spicc with spi := msg.spi } })
    else m0
  wr_conreg .enable 1 (spicc_chip_select mem true m1)

/-- The statements of `spicc_handle_one_msg` from the label `spicc_handle_end` up to
`spicc_clk_gate_off()`: disable, deselect, clock gate off. -/
def msg_cleanup {σ : Type} (mem : Nat → spi_device) (m : Machine σ) : Machine σ :=
  emit .clk_gate_off (spicc_chip_select mem false (wr_conreg .enable 0 m))

/-- The statement `if (m->context) m->complete(m->context);`. -/
def msg_complete {σ : Type} (msg : spi_message) (m : Machine σ) : Machine σ :=
  if msg.context ≠ 0 then emit (.complete msg.context) m else m

/-- The function `spicc_handle_one_msg(spicc, m)`: the machine and the message after
the call.  The local `ret` is initialised to 0 and never assigned, so
`m->status = ret` stores 0. -/
def spicc_handle_one_msg {σ : Type} (H : Hw σ) (P : Platform) (mem : Nat → spi_device)
    (m : Machine σ) (msg : spi_message) : Option (Machine σ × spi_message) :=
  let ret : Int := 0
  match transfers_loop H P (mem msg.spi) msg.transfers (msg_begin P mem m msg)
      msg.actual_length with
  | none => none
  | some (m3, al, ts) =>
    let msg1 := { msg with transfers := ts, actual_length := al, status := ret }
    some (msg_complete msg (msg_cleanup mem m3), msg1)

/-! ## `spicc_transfer` and `spicc_work` -/

/-- The function `spicc_transfer(spi, m)`: the return value and the machine. -/
def spicc_transfer {σ : Type} (m : Machine σ) (msg : spi_message) : Int × Machine σ :=
  let msg1 := { msg with actual_length := 0, status := -EINPROGRESS }
  (0, emit .queue_work
    { m with spicc := { m.spicc with msg_queue := m.spicc.msg_queue ++ [msg1] } })

/-- Submissions made by other contexts, in order, through `spicc_transfer`. -/
def submit_all {σ : Type} (m : Machine σ) (msgs : List spi_message) : Machine σ :=
  msgs.foldl (fun acc msg => (spicc_transfer acc msg).2) m

/-- The loop `while (!list_empty(&spicc->msg_queue))` of `spicc_work`: the queue
head is unlinked (`list_del_init`), the lock is released, the message is handled
and the lock is taken again.  `arrivals` lists, per loop iteration, the messages
other contexts submit through `spicc_transfer` while the lock is released for that
iteration (none once the list is used up).  The first argument bounds the number
of iterations (`none` when it is reached).  Returns the machine and the handled
messages in the order in which they were handled. -/
def work_loop {σ : Type} (H : Hw σ) (P : Platform) (mem : Nat → spi_device) :
    Nat → List (List spi_message) → Machine σ → List spi_message →
      Option (Machine σ × List spi_message)
  | 0, _, m, done =>
    match m.spicc.msg_queue with
    | [] => some (m, done)
    | _ :: _ => none
  | fuel + 1, arrivals, m, done =>
    match m.spicc.msg_queue with
    | [] => some (m, done)
    | msg :: rest =>
      match spicc_handle_one_msg H P mem
          (submit_all { m with spicc := { m.spicc with msg_queue := rest } }
            (arrivals.headD [])) msg with
      | none => none
      | some (m2, msg1) => work_loop H P mem fuel arrivals.tail m2 (done ++ [msg1])

/-- The function `spicc_work(work)` with no submission from other contexts while it runs. -/
def spicc_work {σ : Type} (H : Hw σ) (P : Platform) (mem : Nat → spi_device)
    (m : Machine σ) : Option (Machine σ × List spi_message) :=
  work_loop H P mem m.spicc.msg_queue.length [] m []

/-- The function `spicc_work(work)` while other contexts submit the messages of `arrivals`. -/
def spicc_work_with {σ : Type} (H : Hw σ) (P : Platform) (mem : Nat → spi_device)
    (arrivals : List (List spi_message)) (m : Machine σ) :
    Option (Machine σ × List spi_message) :=
  work_loop H P mem (m.spicc.msg_queue.length + arrivals.flatten.length) arrivals m []

/-! ## Hardware models -/

/-- Loopback: the state is the FIFO content; both flags always read as set, a write to
the TX port enqueues the word and a read of the RX port dequeues the oldest word. -/
def loopback : Hw (List Nat) where
  tx_empty := fun q => (true, q)
  rx_ready := fun q => (true, q)
  txdata_wr := fun dat q => q ++ [dat]
  rxdata_rd := fun q => (q.headD 0, q.tail)
  udelay := fun _ q => q

/-- Stuck hardware: both flags always read as clear, the RX port reads as 0. -/
def stuck : Hw Unit where
  tx_empty := fun _ => (false, ())
  rx_ready := fun _ => (false, ())
  txdata_wr := fun _ _ => ()
  rxdata_rd := fun _ => (0, ())
  udelay := fun _ _ => ()

/-- Slow hardware: the state is the time in microseconds since the flags were last
found set; both flags read as set once `ready_after` microseconds have passed, and
finding a flag set starts the wait again.  The RX port reads as 0. -/
def slow (ready_after : Nat) : Hw Nat where
  tx_empty := fun t => if ready_after ≤ t then (true, 0) else (false, t)
  rx_ready := fun t => if ready_after ≤ t then (true, 0) else (false, t)
  txdata_wr := fun _ t => t
  rxdata_rd := fun t => (0, t)
  udelay := fun n t => t + n

/-- Initial driver state: `spi_alloc_master` returns zeroed memory. -/
def spicc_zero (master : spi_master) : spicc where
  msg_queue := []
  master := master
  spi := 0
  regs := ⟨⟨0, 0, 0, 0, 0, 0, 0, 0, 0, 0, 0, 0⟩, 0⟩
  cur_speed := 0
  cur_mode := 0
  cur_bits_per_word := 0

/-- The machine at the end of the hardware part of `spicc_probe`: zeroed driver
state, then `spicc_hw_init`. -/
def probe {σ : Type} (H : Hw σ) (P : Platform) (master : spi_master) (hw0 : σ) : Machine σ :=
  spicc_hw_init H P ⟨spicc_zero master, hw0, []⟩

/-- Words written to the TX data port, in order. -/
def tx_words : List Event → List Nat
  | [] => []
  | .txdata dat :: es => dat :: tx_words es
  | _ :: es => tx_words es

/-- Number of completion callback invocations in a trace. -/
def completions : List Event → Nat
  | [] => 0
  | .complete _ :: es => completions es + 1
  | _ :: es => completions es

/-- Actions `spicc_hw_xfer` performs: delays, flag reads and data port accesses. -/
def is_xfer : Event → Prop
  | .udelay _ => True
  | .tx_empty _ => True
  | .rx_ready _ => True
  | .txdata _ => True
  | .rxdata _ => True
  | _ => False

/-- The machine `b` is reached from `a` by actions that leave the driver state
`struct spicc` unchanged and append to the trace only actions satisfying `p`. -/
def Extends {σ : Type} (p : Event → Prop) (a b : Machine σ) : Prop :=
  b.spicc = a.spicc ∧ ∃ evs, b.trace = a.trace ++ evs ∧ ∀ e ∈ evs, p e

/-- The word sizes the transfer switches handle. -/
def supported (bits : Nat) : Prop := bits = 8 ∨ bits = 16 ∨ bits = 32

instance (bits : Nat) : Decidable (supported bits) := by
  unfold supported; infer_instance

/-- The words `n` successive runs of the transmit switch produce from `txp`, and the
pointer after them (the runs stop at a `default:` label). -/
def tx_stream (bits : Nat) : Nat → Option (List Nat) → List Nat × Option (List Nat)
  | 0, txp => ([], txp)
  | n + 1, txp =>
    match tx_word bits txp with
    | none => ([], txp)
    | some (dat, txp1) => (dat :: (tx_stream bits n txp1).1, (tx_stream bits n txp1).2)

/-- The bytes successive runs of the receive switch store for the words `ws` after
`rx` (the runs stop at a `default:` label). -/
def rx_stream (bits : Nat) : List Nat → List Nat → List Nat
  | [], rx => rx
  | dat :: ws, rx =>
    match rx_store bits dat rx with
    | none => rx
    | some rx1 => rx_stream bits ws rx1

/-- Value of a byte sequence read most significant byte first. -/
def be_value (bytes : List Nat) : Nat :=
  bytes.foldl (fun acc b => acc * 256 + b) 0

/-- The `k`-th group of `bits / 8` bytes of a buffer. -/
def chunk (bits : Nat) (buf : List Nat) (k : Nat) : List Nat :=
  (buf.drop (k * (bits / 8))).take (bits / 8)

/-- Actions of `spicc_hw_xfer` other than writes to the TX data port. -/
def is_rx_side : Event → Prop
  | .udelay _ => True
  | .tx_empty _ => True
  | .rx_ready _ => True
  | .rxdata _ => True
  | _ => False

/-- A sample platform: the 159.375 MHz `clk81` rate behind the rate table in the
comment above `spicc_set_clk`, a FIFO of 16 words and start mode control value 0. -/
def meson : Platform := ⟨159375000, 16, 0⟩

/-- A sample master with two chip selects and no chip-select GPIO. -/
def master2 : spi_master := ⟨2, [0, 0]⟩

/-- Number of reads of the two status flags that returned "not set". -/
def clear_reads : List Event → Nat
  | [] => 0
  | .tx_empty false :: es => clear_reads es + 1
  | .rx_ready false :: es => clear_reads es + 1
  | _ :: es => clear_reads es

/-- Number of `udelay(1)` waits in a trace. -/
def waits : List Event → Nat
  | [] => 0
  | .udelay 1 :: es => waits es + 1
  | _ :: es => waits es

/-- A sample device: nominal rate 1 MHz, chip select 0, mode 0, word size 8, no GPIO. -/
def dev8 : spi_device := ⟨1000000, 0, 0, 8, 0⟩

/-- A sample device: nominal rate 1 MHz, chip select 1, mode 0, word size 16, no GPIO. -/
def dev16 : spi_device := ⟨1000000, 1, 0, 16, 0⟩

/-- Sample device memory: `dev8` at address 1, `dev16` everywhere else. -/
def mem2 : Nat → spi_device := fun a => if a = 1 then dev8 else dev16

/-- The words written to the TX data port, each with the value of
`conreg.data_rate_div` in force when it was written; the first argument is the
value in force at the start of the trace. -/
def tx_with_div : Nat → List Event → List (Nat × Nat)
  | _, [] => []
  | _, .conreg .data_rate_div v :: es => tx_with_div v es
  | d, .txdata dat :: es => (d, dat) :: tx_with_div d es
  | d, _ :: es => tx_with_div d es

/-- A sample transfer: one byte 0x01 out, one byte in, no rate override, no delay. -/
def xfer_byte : spi_transfer := ⟨some [1], some [0], 1, 0, 0⟩

/-- A sample message for the device at address 1: two one-byte transfers, as queued
by `spicc_transfer`, with a non-NULL context. -/
def msg_two_bytes : spi_message := ⟨1, [xfer_byte, xfer_byte], 0, -EINPROGRESS, 7⟩

/-- A sample message for the device at address 1 (nominal rate 1 MHz): a transfer
without override, a transfer with a 10 MHz override, a transfer without override
(`speed_hz = 0`) and a transfer whose `speed_hz` is the nominal rate. -/
def msg_override : spi_message :=
  ⟨1, [⟨some [2], none, 1, 0, 0⟩, ⟨some [1], none, 1, 10000000, 0⟩,
       ⟨some [2], none, 1, 0, 0⟩, ⟨some [3], none, 1, 1000000, 0⟩], 0, -EINPROGRESS, 7⟩

/-- A sample message for the device at address 1 (word size 8): one transfer of the
two bytes 0x12 0x34. -/
def msg_two_words : spi_message :=
  ⟨1, [⟨some [18, 52], none, 2, 0, 0⟩], 0, -EINPROGRESS, 7⟩

/-- The loopback machine after `spicc_probe`, `spicc_setup` of the 8-bit device at
address 1 and then `spicc_setup` of the 16-bit device at address 2. -/
def after_two_setups : Option (Machine (List Nat)) :=
  (spicc_setup loopback meson
    (spicc_setup loopback meson (some (probe loopback meson master2 [])) (mem2 1)).2 (mem2 2)).2

/-- The `i`-th word a transfer sends: the most-significant-byte-first value of the
`i`-th group of `bits / 8` bytes of the transmit buffer, or 0 without a buffer. -/
def tx_expected (bits : Nat) (txp : Option (List Nat)) (i : Nat) : Nat :=
  match txp with
  | none => 0
  | some tx => be_value (chunk bits tx i)

/-- Actions inside the processing of one message: everything except the clock gate
calls that bracket it, the completion callback and `queue_work`. -/
def is_body : Event → Prop
  | .clk_gate_on => False
  | .clk_gate_off => False
  | .queue_work => False
  | .complete _ => False
  | _ => True

/-- Actions `spicc_chip_select` may perform: a GPIO output or a write to the
chip-select fields of the control register. -/
def is_cs : Event → Prop
  | .gpio_out _ _ => True
  | .conreg .chip_select _ => True
  | .conreg .ss_pol _ => True
  | .conreg .ss_ctl _ => True
  | _ => False

/-- The machine `b` is reached from `a` by steps that keep the message queue, the
current word size, the master data and the active device, and append to the
trace only actions satisfying `p`. -/
def Runs {σ : Type} (p : Event → Prop) (a b : Machine σ) : Prop :=
  b.spicc.msg_queue = a.spicc.msg_queue ∧
  b.spicc.cur_bits_per_word = a.spicc.cur_bits_per_word ∧
  b.spicc.master = a.spicc.master ∧
  b.spicc.spi = a.spicc.spi ∧
  ∃ evs, b.trace = a.trace ++ evs ∧ ∀ e ∈ evs, p e

/-- Actions of `spicc_set_clk` and `spicc_set_mode`: writes to the divider, phase,
polarity and data-ready fields, and the pad pull settings. -/
def is_reprog : Event → Prop
  | .conreg .data_rate_div _ => True
  | .conreg .clk_pha _ => True
  | .conreg .clk_pol _ => True
  | .conreg .drctl _ => True
  | .pad _ _ _ _ => True
  | _ => False

/-- Actions of the transfer loop of `spicc_handle_one_msg`: those of `spicc_hw_xfer`,
the delay after a transfer, the divider write of a rate override, and the
return markers. -/
def is_loop : Event → Prop
  | .conreg .data_rate_div _ => True
  | .xfer_return _ => True
  | .udelay _ => True
  | .tx_empty _ => True
  | .rx_ready _ => True
  | .txdata _ => True
  | .rxdata _ => True
  | _ => False

/-- The actions `spicc_chip_select(spicc, select)` performs when the active device is
the one at address `spi` and the master data are `master`; they depend on nothing
else. -/
def chip_select_actions (mem : Nat → spi_device) (select : Bool) (spi : Nat)
    (master : spi_master) : List Event :=
  (spicc_chip_select mem select
    (⟨{ spicc_zero master with spi := spi }, (), []⟩ : Machine Unit)).trace

/-- The callback actions of `if (m->context) m->complete(m->context);`. -/
def callback_actions (msg : spi_message) : List Event :=
  if msg.context ≠ 0 then [.complete msg.context] else []

/-- A sample message for the device at address 1 with a NULL context: one one-byte
transfer. -/
def msg_no_context : spi_message := ⟨1, [xfer_byte], 0, -EINPROGRESS, 0⟩

/-- A message as `spicc_transfer` puts it on the queue: `actual_length` reset to 0 and
`status` set to `-EINPROGRESS`. -/
def queued (msg : spi_message) : spi_message :=
  { msg with actual_length := 0, status := -EINPROGRESS }

/-- The message `d` is the result of one `spicc_handle_one_msg` call on the submitted
message `sub` (in some machine state), for the same device and context. -/
def handled_from {σ : Type} (H : Hw σ) (P : Platform) (mem : Nat → spi_device)
    (sub d : spi_message) : Prop :=
  d.spi = sub.spi ∧ d.context = sub.context ∧
  ∃ ma mb : Machine σ, spicc_handle_one_msg H P mem ma sub = some (mb, d)

/-- Check that messages are processed one at a time.  The flag says whether a
message is being processed.  `clk_gate_on` opens the processing of a message and is
refused while one is open; `clk_gate_off` closes it; register, GPIO, delay, flag
and data port actions are accepted only while one is open; the callback only while
none is open; `queue_work` (a submission) at any time.  The result is the flag at
the end of the trace, or `none` when an action was refused. -/
def serial : Bool → List Event → Option Bool
  | b, [] => some b
  | false, .clk_gate_on :: es => serial true es
  | true, .clk_gate_on :: _ => none
  | true, .clk_gate_off :: es => serial false es
  | false, .clk_gate_off :: _ => none
  | b, .queue_work :: es => serial b es
  | false, .complete _ :: es => serial false es
  | true, .complete _ :: _ => none
  | true, _ :: es => serial true es
  | false, _ :: _ => none

/-- Number of `spicc_clk_gate_on()` calls in a trace. -/
def gate_ons : List Event → Nat
  | [] => 0
  | .clk_gate_on :: es => gate_ons es + 1
  | _ :: es => gate_ons es

/-- The loopback machine after `spicc_probe` and two submissions. -/
def two_queued : Machine (List Nat) :=
  submit_all (probe loopback meson master2 []) [msg_two_bytes, msg_no_context]

/-- The values returned by the `spicc_hw_xfer` calls of the transfer loop, in order. -/
def returns : List Event → List Int
  | [] => []
  | .xfer_return ret :: es => ret :: returns es
  | _ :: es => returns es

/-- Number of leading non-negative return values: the transfers completed before
the first failure. -/
def successes : List Int → Nat
  | [] => 0
  | r :: rs => if r < 0 then 0 else successes rs + 1

/-- The chip-select actions of a trace, in order. -/
def cs_part : List Event → List Event
  | [] => []
  | .gpio_out g l :: es => .gpio_out g l :: cs_part es
  | .conreg .chip_select v :: es => .conreg .chip_select v :: cs_part es
  | .conreg .ss_pol v :: es => .conreg .ss_pol v :: cs_part es
  | .conreg .ss_ctl v :: es => .conreg .ss_ctl v :: cs_part es
  | _ :: es => cs_part es

/-- Sum of the lengths of the first `k` transfers. -/
def len_sum (ts : List spi_transfer) (k : Nat) : Nat :=
  ((ts.take k).map (fun t => t.len)).sum

/-- The scenario message: for the device at address 1 (1 MHz, mode 0, word size 8),
transfers of 4 bytes 0x01..0x04 and of 8 bytes 0xAA, as queued by `spicc_transfer`. -/
def msg_scenario : spi_message :=
  queued ⟨1, [⟨some [1, 2, 3, 4], some [0, 0, 0, 0], 4, 0, 0⟩,
    ⟨some [170, 170, 170, 170, 170, 170, 170, 170], some [0, 0, 0, 0, 0, 0, 0, 0], 8, 0, 0⟩],
    55, 0, 7⟩

/-- A message of two transfers of 2^31 bytes each, without buffers, as queued by
`spicc_transfer`. -/
def msg_huge : spi_message :=
  queued ⟨1, [⟨none, none, 2147483648, 0, 0⟩, ⟨none, none, 2147483648, 0, 0⟩], 0, 0, 7⟩

/-- Whether a list of actions drives an external select line. -/
def drives_line : List Event → Bool
  | [] => false
  | .gpio_out _ _ :: _ => true
  | _ :: es => drives_line es

/-- Whether a list of actions writes one of the chip-select fields of the control
register (index, polarity, control). -/
def programs_select : List Event → Bool
  | [] => false
  | .conreg .chip_select _ :: _ => true
  | .conreg .ss_pol _ :: _ => true
  | .conreg .ss_ctl _ :: _ => true
  | _ :: es => programs_select es

/-- A sample device with its own select line: GPIO 17, active low, chip select 0. -/
def dev_gpio : spi_device := ⟨1000000, 0, 0, 8, 17⟩

/-- A sample device with `SPI_NO_CS` set (and a GPIO number, which is ignored). -/
def dev_nocs : spi_device := ⟨1000000, 0, 64, 8, 17⟩

/-- A sample master whose channel 0 has the select GPIO 5 in `cs_gpios`. -/
def master_gpio : spi_master := ⟨2, [5, 0]⟩

/-- The machine states reachable once `spicc_hw_init` has run (on any state), by
calls of `spicc_setup`, `spicc_transfer`, `spicc_handle_one_msg` and `spicc_work`
(with any schedule of submissions arriving while it runs) that return. -/
inductive Reachable {σ : Type} (H : Hw σ) (P : Platform) (mem : Nat → spi_device) :
    Machine σ → Prop where
  | hw_init (m : Machine σ) : Reachable H P mem (spicc_hw_init H P m)
  | setup (m m1 : Machine σ) (spi : spi_device) (r : Int) :
      Reachable H P mem m → spicc_setup H P (some m) spi = (r, some m1) → Reachable H P mem m1
  | transfer (m : Machine σ) (msg : spi_message) :
      Reachable H P mem m → Reachable H P mem (spicc_transfer m msg).2
  | handle_one_msg (m m1 : Machine σ) (msg msg1 : spi_message) :
      Reachable H P mem m → spicc_handle_one_msg H P mem m msg = some (m1, msg1) →
      Reachable H P mem m1
  | work (m m1 : Machine σ) (arrivals : List (List spi_message)) (handled : List spi_message) :
      Reachable H P mem m → spicc_work_with H P mem arrivals m = some (m1, handled) →
      Reachable H P mem m1

/-- The control register fields that hold the bit rate, the clock phase and
polarity, and the word size. -/
def guarded_field : ConField → Bool
  | .data_rate_div => true
  | .clk_pha => true
  | .clk_pol => true
  | .bits_per_word => true
  | _ => false

/-- The writes to a rate, phase, polarity or word-size field that a trace performs
while the enable bit is not 0.  The first argument is the value of the enable bit
at the start of the trace; a write to the enable field changes it. -/
def unguarded : Nat → List Event → List Event
  | _, [] => []
  | en, .conreg f v :: es =>
    if f = .enable then unguarded v es
    else if en ≠ 0 ∧ guarded_field f = true then .conreg f v :: unguarded en es
    else unguarded en es
  | en, _ :: es => unguarded en es

/-- Whether an action is not a write to the enable field. -/
def keeps_enable : Event → Prop
  | .conreg .enable _ => False
  | _ => True

/-- Scan of the actions of a `spicc_hw_xfer` call for a poll in which the flag read
as not set on the first 100 reads and as set on the 101st.  The first argument is
the number of reads of the current poll that found the flag not set; a poll ends
with the next access to a data port.  `none` when such a poll was found, else the
count at the end of the trace. -/
def late_scan : Nat → List Event → Option Nat
  | c, [] => some c
  | c, .tx_empty v :: es =>
    if v then (if c = 100 then none else late_scan 0 es) else late_scan (c + 1) es
  | c, .rx_ready v :: es =>
    if v then (if c = 100 then none else late_scan 0 es) else late_scan (c + 1) es
  | c, .udelay _ :: es => late_scan c es
  | _, _ :: es => late_scan 0 es

/-- Whether in some poll of the trace the flag read as not set on the first 100
reads and as set on the 101st read. -/
def late_ready (evs : List Event) : Bool := (late_scan 0 evs).isNone

/-- The actions of a poll that finds the flag not set on `n` reads, waiting one
microsecond after each, and set on the next read; `ev` is the flag read. -/
def late_poll (ev : Bool → Event) (n : Nat) : List Event :=
  (List.replicate n [ev false, .udelay 1]).flatten ++ [ev true]

/-- The loopback machine after `spicc_probe` and one `spicc_setup` of the 8-bit device
at address 1. -/
def after_one_setup : Option (Machine (List Nat)) :=
  (spicc_setup loopback meson (some (probe loopback meson master2 [])) (mem2 1)).2

/-- A sample device without a select line of its own whose chip select index 5 is
not below the channel count of the sample masters. -/
def dev_far : spi_device := ⟨1000000, 5, 0, 8, 0⟩

/-! # Theorems -/

/-! ## Clock divider selection -/

theorem set_clk_loop_spec (speed : Nat) :
    ∀ (n div mid : Nat),
      div ≤ set_clk_loop speed n div mid ∧ set_clk_loop speed n div mid ≤ div + n ∧
      (∀ k, div + k < set_clk_loop speed n div mid → speed < mid >>> k) ∧
      (set_clk_loop speed n div mid < div + n →
        mid >>> (set_clk_loop speed n div mid - div) ≤ speed) := by
  intro n
  induction n with
  | zero =>
    intro div mid
    simp [set_clk_loop]
  | succ n ih =>
    intro div mid
    unfold set_clk_loop
    by_cases h : speed ≥ mid
    · simp only [h, if_true]
      refine ⟨le_refl _, by omega, ?_, ?_⟩
      · intro k hk; omega
      · intro _; simpa using h
    · simp only [h, if_false]
      obtain ⟨h1, h2, h3, h4⟩ := ih (div + 1) (mid >>> 1)
      refine ⟨by omega, by omega, ?_, ?_⟩
      · intro k hk
        cases k with
        | zero => simpa using h
        | succ k =>
          have := h3 k (by omega)
          rw [← Nat.shiftRight_add] at this
          rwa [Nat.add_comm k 1]
      · intro hlt
        have := h4 (by omega)
        rw [← Nat.shiftRight_add] at this
        have e : 1 + (set_clk_loop speed n (div + 1) (mid >>> 1) - (div + 1))
            = set_clk_loop speed n (div + 1) (mid >>> 1) - div := by omega
        rwa [e] at this

theorem actual_speed_anti (S : Nat) {a b : Nat} (h : a ≤ b) :
    actual_speed S b ≤ actual_speed S a := by
  unfold actual_speed
  rw [Nat.shiftRight_eq_div_pow, Nat.shiftRight_eq_div_pow]
  exact Nat.div_le_div_left (Nat.pow_le_pow_right (by norm_num) (by omega)) (Nat.pow_pos (by norm_num))

@[simp] theorem emit_spicc {σ : Type} (e : Event) (m : Machine σ) :
    (emit e m).spicc = m.spicc := rfl

@[simp] theorem emit_trace {σ : Type} (e : Event) (m : Machine σ) :
    (emit e m).trace = m.trace ++ [e] := rfl

@[simp] theorem emit_hw {σ : Type} (e : Event) (m : Machine σ) :
    (emit e m).hw = m.hw := rfl

@[simp] theorem udelay_spicc {σ : Type} (H : Hw σ) (n : Nat) (m : Machine σ) :
    (udelay H n m).spicc = m.spicc := rfl

@[simp] theorem udelay_trace {σ : Type} (H : Hw σ) (n : Nat) (m : Machine σ) :
    (udelay H n m).trace = m.trace ++ [.udelay n] := rfl

@[simp] theorem udelay_hw {σ : Type} (H : Hw σ) (n : Nat) (m : Machine σ) :
    (udelay H n m).hw = H.udelay n m.hw := rfl

@[simp] theorem rd_tx_empty_spicc {σ : Type} (H : Hw σ) (m : Machine σ) :
    (rd_tx_empty H m).2.spicc = m.spicc := rfl

@[simp] theorem rd_rx_ready_spicc {σ : Type} (H : Hw σ) (m : Machine σ) :
    (rd_rx_ready H m).2.spicc = m.spicc := rfl

@[simp] theorem wr_txdata_spicc {σ : Type} (H : Hw σ) (d : Nat) (m : Machine σ) :
    (wr_txdata H d m).spicc = m.spicc := rfl

@[simp] theorem wr_txdata_trace {σ : Type} (H : Hw σ) (d : Nat) (m : Machine σ) :
    (wr_txdata H d m).trace = m.trace ++ [.txdata d] := rfl

@[simp] theorem wr_txdata_hw {σ : Type} (H : Hw σ) (d : Nat) (m : Machine σ) :
    (wr_txdata H d m).hw = H.txdata_wr d m.hw := rfl

@[simp] theorem rd_rxdata_spicc {σ : Type} (H : Hw σ) (m : Machine σ) :
    (rd_rxdata H m).2.spicc = m.spicc := rfl

@[simp] theorem rx_delay_spicc {σ : Type} (H : Hw σ) (m : Machine σ) :
    (rx_delay H m).spicc = m.spicc := by
  unfold rx_delay; split <;> rfl

theorem extends_refl {σ : Type} (p : Event → Prop) (m : Machine σ) : Extends p m m :=
  ⟨rfl, [], by simp, by simp⟩

theorem extends_trans {σ : Type} {p : Event → Prop} {a b c : Machine σ}
    (h1 : Extends p a b) (h2 : Extends p b c) : Extends p a c := by
  obtain ⟨s1, e1, t1, q1⟩ := h1
  obtain ⟨s2, e2, t2, q2⟩ := h2
  refine ⟨s2.trans s1, e1 ++ e2, by rw [t2, t1, List.append_assoc], ?_⟩
  intro e he
  rcases List.mem_append.mp he with h | h
  · exact q1 e h
  · exact q2 e h

theorem extends_step {σ : Type} {p : Event → Prop} {a b : Machine σ} (e : Event)
    (hs : b.spicc = a.spicc) (ht : b.trace = a.trace ++ [e]) (hp : p e) : Extends p a b :=
  ⟨hs, [e], ht, by simpa using hp⟩

theorem extends_mono {σ : Type} {p q : Event → Prop} {a b : Machine σ}
    (h : ∀ e, p e → q e) (h1 : Extends p a b) : Extends q a b := by
  obtain ⟨s1, e1, t1, q1⟩ := h1
  exact ⟨s1, e1, t1, fun e he => h e (q1 e he)⟩

theorem poll_extends {σ : Type} (H : Hw σ) (rd : Machine σ → Bool × Machine σ)
    (hrd : ∀ m, Extends is_xfer m (rd m).2) :
    ∀ (retry : Nat) (m : Machine σ), Extends is_xfer m (spicc_poll H rd retry m).2 := by
  intro retry
  induction retry with
  | zero =>
    intro m
    unfold spicc_poll
    split <;> exact hrd m
  | succ r ih =>
    intro m
    unfold spicc_poll
    split
    · exact hrd m
    · refine extends_trans (hrd m) (extends_trans ?_ (ih _))
      exact extends_step (.udelay 1) rfl rfl (by simp [is_xfer])

theorem rd_tx_empty_extends {σ : Type} (H : Hw σ) (m : Machine σ) :
    Extends is_xfer m (rd_tx_empty H m).2 :=
  extends_step (.tx_empty (H.tx_empty m.hw).1) rfl rfl (by simp [is_xfer])

theorem rd_rx_ready_extends {σ : Type} (H : Hw σ) (m : Machine σ) :
    Extends is_xfer m (rd_rx_ready H m).2 :=
  extends_step (.rx_ready (H.rx_ready m.hw).1) rfl rfl (by simp [is_xfer])

theorem rx_delay_extends {σ : Type} (H : Hw σ) (m : Machine σ) :
    Extends is_xfer m (rx_delay H m) := by
  unfold rx_delay
  split
  · exact extends_step (.udelay _) rfl rfl (by simp [is_xfer])
  · exact extends_refl _ _

theorem rd_rxdata_extends {σ : Type} (H : Hw σ) (m : Machine σ) :
    Extends is_xfer m (rd_rxdata H m).2 :=
  extends_step (.rxdata (H.rxdata_rd m.hw).1) rfl rfl (by simp [is_xfer])

theorem tx_loop_extends {σ : Type} (H : Hw σ) :
    ∀ (n : Nat) (x : Xfer σ), Extends is_xfer x.m (tx_loop H n x).2.m := by
  intro n
  induction n with
  | zero => intro x; exact extends_refl _ _
  | succ n ih =>
    intro x
    unfold tx_loop
    split
    · exact extends_refl _ _
    · refine extends_trans ?_ (ih _)
      exact extends_step (.txdata _) rfl rfl (by simp [is_xfer])

theorem rx_loop_extends {σ : Type} (H : Hw σ) :
    ∀ (n : Nat) (x : Xfer σ), Extends is_xfer x.m (rx_loop H n x).2.m := by
  intro n
  induction n with
  | zero => intro x; exact extends_refl _ _
  | succ n ih =>
    intro x
    have hp := poll_extends H (rd_rx_ready H) (rd_rx_ready_extends H) 100 x.m
    have hd := extends_trans hp
      (extends_trans (rx_delay_extends H _) (rd_rxdata_extends H _))
    unfold rx_loop
    simp only
    split
    · exact hp
    · split
      · exact extends_trans hd (ih _)
      · split
        · exact hd
        · exact extends_trans hd (ih _)

theorem xfer_loop_returns {σ : Type} (H : Hw σ) (P : Platform) (hf : 0 < P.fifo_size) :
    ∀ (fuel count : Nat) (x : Xfer σ), count ≤ fuel →
      ∃ r x1, xfer_loop H P fuel count x = some (r, x1) ∧ Extends is_xfer x.m x1.m := by
  intro fuel
  induction fuel with
  | zero =>
    intro count x hc
    have : count = 0 := by omega
    subst this
    exact ⟨0, x, by simp [xfer_loop], extends_refl _ _⟩
  | succ fuel ih =>
    intro count x hc
    cases count with
    | zero => exact ⟨0, x, by simp [xfer_loop], extends_refl _ _⟩
    | succ count =>
      have hp := poll_extends H (rd_tx_empty H) (rd_tx_empty_extends H) 100 x.m
      unfold xfer_loop
      simp only
      split
      · exact ⟨_, _, rfl, hp⟩
      · generalize hnum : (if count + 1 > P.fifo_size then P.fifo_size else count + 1) = num
        have hn : 0 < num ∧ num ≤ count + 1 := by
          rw [← hnum]; split <;> omega
        have ht := tx_loop_extends H num { x with m := (spicc_poll H (rd_tx_empty H) 100 x.m).2 }
        split
        · rename_i r x1 heq
          rw [heq] at ht
          exact ⟨_, _, rfl, extends_trans hp ht⟩
        · rename_i x1 heq
          rw [heq] at ht
          have hr := rx_loop_extends H num x1
          split
          · rename_i r x2 heq2
            rw [heq2] at hr
            exact ⟨_, _, rfl, extends_trans hp (extends_trans ht hr)⟩
          · rename_i x2 heq2
            rw [heq2] at hr
            obtain ⟨r, x3, h3, e3⟩ := ih (count + 1 - num) x2 (by omega)
            exact ⟨r, x3, h3, extends_trans hp (extends_trans ht (extends_trans hr e3))⟩
/-! ## Word packing -/

theorem tx_word_isSome (bits : Nat) (h : supported bits) (txp : Option (List Nat)) :
    ∃ d t, tx_word bits txp = some (d, t) := by
  rcases h with h | h | h <;> subst h
  · exact ⟨(tx_case8 0 txp).1, (tx_case8 0 txp).2, by simp [tx_word]⟩
  · exact ⟨(tx_case16 0 txp).1, (tx_case16 0 txp).2, by simp [tx_word]⟩
  · exact ⟨(tx_case32 0 txp).1, (tx_case32 0 txp).2, by simp [tx_word]⟩

theorem rx_store_isSome (bits : Nat) (h : supported bits) (dat : Nat) (rx : List Nat) :
    ∃ r, rx_store bits dat rx = some r := by
  rcases h with h | h | h <;> subst h <;> simp [rx_store]

theorem or_shift_eq_add (a b k : Nat) (hb : b < 2 ^ k) : (a * 2 ^ k) ||| b = a * 2 ^ k + b := by
  rw [Nat.mul_comm, ← Nat.mul_add_lt_is_or hb]

theorem pack8 (b0 : Nat) (h0 : b0 < 256) (rest : List Nat) :
    tx_word 8 (some (b0 :: rest)) = some (b0, some rest) := by
  simp [tx_word, tx_case8, tx_byte, Nat.mod_eq_of_lt h0]
  omega

theorem pack16 (b0 b1 : Nat) (h0 : b0 < 256) (h1 : b1 < 256) (rest : List Nat) :
    tx_word 16 (some (b0 :: b1 :: rest)) = some (b0 * 256 + b1, some rest) := by
  simp only [tx_word, tx_case16, tx_case8, tx_byte, Nat.mod_eq_of_lt h0, Nat.mod_eq_of_lt h1,
    Nat.shiftLeft_eq, Nat.zero_or]
  have e0 : b0 * 2 ^ 8 % 4294967296 = b0 * 2 ^ 8 := Nat.mod_eq_of_lt (by omega)
  have e1 : b1 * 2 ^ 0 % 4294967296 = b1 := by simp; omega
  rw [e0, e1, or_shift_eq_add _ _ _ (by omega)]
  simp

theorem pack32 (b0 b1 b2 b3 : Nat) (h0 : b0 < 256) (h1 : b1 < 256) (h2 : b2 < 256)
    (h3 : b3 < 256) (rest : List Nat) :
    tx_word 32 (some (b0 :: b1 :: b2 :: b3 :: rest))
      = some (((b0 * 256 + b1) * 256 + b2) * 256 + b3, some rest) := by
  simp only [tx_word, tx_case32, tx_case16, tx_case8, tx_byte, Nat.mod_eq_of_lt h0,
    Nat.mod_eq_of_lt h1, Nat.mod_eq_of_lt h2, Nat.mod_eq_of_lt h3, Nat.shiftLeft_eq, Nat.zero_or]
  have e0 : b0 * 2 ^ 24 % 4294967296 = (b0 * 2 ^ 8) * 2 ^ 16 := by
    rw [Nat.mod_eq_of_lt (by omega)]; ring
  have e1 : b1 * 2 ^ 16 % 4294967296 = b1 * 2 ^ 16 := Nat.mod_eq_of_lt (by omega)
  have e2 : b2 * 2 ^ 8 % 4294967296 = b2 * 2 ^ 8 := Nat.mod_eq_of_lt (by omega)
  have e3 : b3 * 2 ^ 0 % 4294967296 = b3 := by simp; omega
  rw [e0, e1, e2, e3]
  have s1 : (b0 * 2 ^ 8) * 2 ^ 16 ||| b1 * 2 ^ 16 = (b0 * 2 ^ 8 + b1) * 2 ^ 16 := by
    have : b1 * 2 ^ 16 < 2 ^ 24 := by omega
    have e : (b0 * 2 ^ 8) * 2 ^ 16 = b0 * 2 ^ 24 := by ring
    rw [e, or_shift_eq_add _ _ _ this]; ring
  have s2 : (b0 * 2 ^ 8 + b1) * 2 ^ 16 ||| b2 * 2 ^ 8 = ((b0 * 2 ^ 8 + b1) * 2 ^ 8 + b2) * 2 ^ 8 := by
    have : b2 * 2 ^ 8 < 2 ^ 16 := by omega
    rw [or_shift_eq_add _ _ _ this]; ring
  have s3 : ((b0 * 2 ^ 8 + b1) * 2 ^ 8 + b2) * 2 ^ 8 ||| b3
      = ((b0 * 2 ^ 8 + b1) * 2 ^ 8 + b2) * 2 ^ 8 + b3 :=
    or_shift_eq_add _ _ _ (by omega)
  rw [s1, s2, s3]
  norm_num

theorem unpack8 (b0 : Nat) (h0 : b0 < 256) (rx : List Nat) :
    rx_store 8 b0 rx = some (rx ++ [b0]) := by
  simp only [rx_store, rx_case8]
  have : b0 &&& 255 = b0 := by
    have := Nat.and_pow_two_sub_one_eq_mod b0 8
    simp at this; rw [this]; omega
  simp [this]

theorem unpack16 (b0 b1 : Nat) (h0 : b0 < 256) (h1 : b1 < 256) (rx : List Nat) :
    rx_store 16 (b0 * 256 + b1) rx = some (rx ++ [b0, b1]) := by
  simp only [rx_store, rx_case16, rx_case8, Nat.shiftRight_eq_div_pow]
  have m : ∀ x, x &&& 255 = x % 256 := by
    intro x
    have := Nat.and_pow_two_sub_one_eq_mod x 8
    simpa using this
  simp only [m]
  have a0 : (b0 * 256 + b1) / 256 % 256 = b0 := by omega
  have a1 : (b0 * 256 + b1) % 256 = b1 := by omega
  simp [a0, a1]

theorem unpack32 (b0 b1 b2 b3 : Nat) (h0 : b0 < 256) (h1 : b1 < 256) (h2 : b2 < 256)
    (h3 : b3 < 256) (rx : List Nat) :
    rx_store 32 (((b0 * 256 + b1) * 256 + b2) * 256 + b3) rx = some (rx ++ [b0, b1, b2, b3]) := by
  simp only [rx_store, rx_case32, rx_case16, rx_case8, Nat.shiftRight_eq_div_pow]
  have m : ∀ x, x &&& 255 = x % 256 := by
    intro x
    have := Nat.and_pow_two_sub_one_eq_mod x 8
    simpa using this
  simp only [m]
  have a0 : (((b0 * 256 + b1) * 256 + b2) * 256 + b3) / 16777216 % 256 = b0 := by omega
  have a1 : (((b0 * 256 + b1) * 256 + b2) * 256 + b3) / 65536 % 256 = b1 := by omega
  have a2 : (((b0 * 256 + b1) * 256 + b2) * 256 + b3) / 256 % 256 = b2 := by omega
  have a3 : (((b0 * 256 + b1) * 256 + b2) * 256 + b3) % 256 = b3 := by omega
  simp [a0, a1, a2, a3]

/-! ## The transmit and receive loops -/

theorem tx_loop_eq {σ : Type} (H : Hw σ) :
    ∀ (n : Nat) (x : Xfer σ), supported x.m.spicc.cur_bits_per_word →
      tx_loop H n x =
        (none,
          { m :=
              { spicc := x.m.spicc
                hw := (tx_stream x.m.spicc.cur_bits_per_word n x.txp).1.foldl
                  (fun h d => H.txdata_wr d h) x.m.hw
                trace := x.m.trace ++
                  (tx_stream x.m.spicc.cur_bits_per_word n x.txp).1.map Event.txdata }
            txp := (tx_stream x.m.spicc.cur_bits_per_word n x.txp).2
            rxp := x.rxp }) := by
  intro n
  induction n with
  | zero => intro x _; simp [tx_loop, tx_stream]
  | succ n ih =>
    intro x hs
    obtain ⟨d, t, hw⟩ := tx_word_isSome _ hs x.txp
    unfold tx_loop tx_stream
    rw [hw]
    simp only
    rw [ih _ (by simpa using hs)]
    simp [wr_txdata, emit]

theorem poll_ready {σ : Type} (H : Hw σ) (rd : Machine σ → Bool × Machine σ)
    (retry : Nat) (m : Machine σ) (h : (rd m).1 = true) :
    spicc_poll H rd retry m = (retry, (rd m).2) := by
  cases retry <;> simp [spicc_poll, h]

theorem poll_never {σ : Type} (H : Hw σ) (rd : Machine σ → Bool × Machine σ)
    (h : ∀ m, (rd m).1 = false) :
    ∀ (retry : Nat) (m : Machine σ), (spicc_poll H rd retry m).1 = 4294967295 := by
  intro retry
  induction retry with
  | zero => intro m; simp [spicc_poll, h]
  | succ r ih => intro m; simp [spicc_poll, h, ih]

theorem tx_words_append (a b : List Event) : tx_words (a ++ b) = tx_words a ++ tx_words b := by
  induction a with
  | nil => rfl
  | cons e a ih => cases e <;> simp [tx_words, ih]

theorem tx_words_map (ws : List Nat) : tx_words (ws.map Event.txdata) = ws := by
  induction ws with
  | nil => rfl
  | cons w ws ih => simp [tx_words, ih]

theorem tx_words_rx_side (evs : List Event) (h : ∀ e ∈ evs, is_rx_side e) : tx_words evs = [] := by
  induction evs with
  | nil => rfl
  | cons e evs ih =>
    have he := h e (by simp)
    have ht := ih (fun e he => h e (by simp [he]))
    cases e <;> simp [tx_words, is_rx_side, ht] at he ⊢

theorem tx_words_extends {σ : Type} {a b : Machine σ} (h : Extends is_rx_side a b) :
    tx_words b.trace = tx_words a.trace := by
  obtain ⟨_, evs, ht, hp⟩ := h
  rw [ht, tx_words_append, tx_words_rx_side evs hp, List.append_nil]

theorem poll_rx_side {σ : Type} (H : Hw σ) (rd : Machine σ → Bool × Machine σ)
    (hrd : ∀ m, Extends is_rx_side m (rd m).2) :
    ∀ (retry : Nat) (m : Machine σ), Extends is_rx_side m (spicc_poll H rd retry m).2 := by
  intro retry
  induction retry with
  | zero =>
    intro m
    unfold spicc_poll
    split <;> exact hrd m
  | succ r ih =>
    intro m
    unfold spicc_poll
    split
    · exact hrd m
    · refine extends_trans (hrd m) (extends_trans ?_ (ih _))
      exact extends_step (.udelay 1) rfl rfl (by simp [is_rx_side])

theorem rd_tx_empty_rx_side {σ : Type} (H : Hw σ) (m : Machine σ) :
    Extends is_rx_side m (rd_tx_empty H m).2 :=
  extends_step (.tx_empty (H.tx_empty m.hw).1) rfl rfl (by simp [is_rx_side])

theorem rd_rx_ready_rx_side {σ : Type} (H : Hw σ) (m : Machine σ) :
    Extends is_rx_side m (rd_rx_ready H m).2 :=
  extends_step (.rx_ready (H.rx_ready m.hw).1) rfl rfl (by simp [is_rx_side])

theorem rx_delay_rx_side {σ : Type} (H : Hw σ) (m : Machine σ) :
    Extends is_rx_side m (rx_delay H m) := by
  unfold rx_delay
  split
  · exact extends_step (.udelay _) rfl rfl (by simp [is_rx_side])
  · exact extends_refl _ _

theorem rd_rxdata_rx_side {σ : Type} (H : Hw σ) (m : Machine σ) :
    Extends is_rx_side m (rd_rxdata H m).2 :=
  extends_step (.rxdata (H.rxdata_rd m.hw).1) rfl rfl (by simp [is_rx_side])

theorem rx_loop_rx_side {σ : Type} (H : Hw σ) :
    ∀ (n : Nat) (x : Xfer σ),
      Extends is_rx_side x.m (rx_loop H n x).2.m ∧ (rx_loop H n x).2.txp = x.txp := by
  intro n
  induction n with
  | zero => intro x; exact ⟨extends_refl _ _, rfl⟩
  | succ n ih =>
    intro x
    have hp := poll_rx_side H (rd_rx_ready H) (rd_rx_ready_rx_side H) 100 x.m
    have hd : Extends is_rx_side x.m
        (rd_rxdata H (rx_delay H (spicc_poll H (rd_rx_ready H) 100 x.m).2)).2 :=
      extends_trans hp (extends_trans (rx_delay_rx_side H _) (rd_rxdata_rx_side H _))
    unfold rx_loop
    simp only
    split
    · exact ⟨hp, rfl⟩
    · split
      · exact ⟨extends_trans hd (ih _).1, (ih _).2⟩
      · split
        · exact ⟨hd, rfl⟩
        · exact ⟨extends_trans hd (ih _).1, (ih _).2⟩

theorem rx_loop_code {σ : Type} (H : Hw σ) :
    ∀ (n : Nat) (x : Xfer σ), supported x.m.spicc.cur_bits_per_word →
      (rx_loop H n x).1 = none ∨ (rx_loop H n x).1 = some (-ETIMEDOUT) := by
  intro n
  induction n with
  | zero => intro x _; exact Or.inl rfl
  | succ n ih =>
    intro x hs
    have hsp : (rd_rxdata H (rx_delay H (spicc_poll H (rd_rx_ready H) 100 x.m).2)).2.spicc
        = x.m.spicc :=
      (extends_trans (poll_rx_side H (rd_rx_ready H) (rd_rx_ready_rx_side H) 100 x.m)
        (extends_trans (rx_delay_rx_side H _) (rd_rxdata_rx_side H _))).1
    unfold rx_loop
    simp only
    split
    · exact Or.inr rfl
    · split
      · exact ih _ (by show supported (rd_rxdata H _).2.spicc.cur_bits_per_word; rw [hsp]; exact hs)
      · rename_i rx _
        obtain ⟨r1, h1⟩ := rx_store_isSome _ hs
          (rd_rxdata H (rx_delay H (spicc_poll H (rd_rx_ready H) 100 x.m).2)).1 rx
        rw [hsp, h1]
        exact ih _ (by show supported (rd_rxdata H _).2.spicc.cur_bits_per_word; rw [hsp]; exact hs)

theorem tx_loop_facts {σ : Type} (H : Hw σ) (n : Nat) (x : Xfer σ)
    (hs : supported x.m.spicc.cur_bits_per_word) :
    (tx_loop H n x).1 = none ∧ (tx_loop H n x).2.m.spicc = x.m.spicc ∧
    (tx_loop H n x).2.m.trace
      = x.m.trace ++ (tx_stream x.m.spicc.cur_bits_per_word n x.txp).1.map Event.txdata ∧
    (tx_loop H n x).2.m.hw
      = (tx_stream x.m.spicc.cur_bits_per_word n x.txp).1.foldl (fun h d => H.txdata_wr d h) x.m.hw ∧
    (tx_loop H n x).2.txp = (tx_stream x.m.spicc.cur_bits_per_word n x.txp).2 ∧
    (tx_loop H n x).2.rxp = x.rxp := by
  rw [tx_loop_eq H n x hs]
  exact ⟨rfl, rfl, rfl, rfl, rfl, rfl⟩

theorem tx_stream_add (bits : Nat) (hs : supported bits) :
    ∀ (a b : Nat) (t : Option (List Nat)),
      (tx_stream bits (a + b) t).1
          = (tx_stream bits a t).1 ++ (tx_stream bits b (tx_stream bits a t).2).1 ∧
      (tx_stream bits (a + b) t).2 = (tx_stream bits b (tx_stream bits a t).2).2 := by
  intro a
  induction a with
  | zero => intro b t; simp [tx_stream]
  | succ a ih =>
    intro b t
    obtain ⟨d, t1, hw⟩ := tx_word_isSome bits hs t
    rw [show a + 1 + b = (a + b) + 1 by omega]
    simp only [tx_stream, hw]
    obtain ⟨h1, h2⟩ := ih b t1
    simp [h1, h2]

theorem tx_stream_length (bits : Nat) (hs : supported bits) :
    ∀ (n : Nat) (t : Option (List Nat)), (tx_stream bits n t).1.length = n := by
  intro n
  induction n with
  | zero => intro t; rfl
  | succ n ih =>
    intro t
    obtain ⟨d, t1, hw⟩ := tx_word_isSome bits hs t
    simp [tx_stream, hw, ih]

theorem xfer_loop_tx_words {σ : Type} (H : Hw σ) (P : Platform) :
    ∀ (fuel count : Nat) (x : Xfer σ) (r : Int) (x1 : Xfer σ),
      supported x.m.spicc.cur_bits_per_word →
      xfer_loop H P fuel count x = some (r, x1) →
      x1.m.spicc = x.m.spicc ∧ (r = 0 ∨ r = -ETIMEDOUT) ∧
      ∃ k, k ≤ count ∧ (r = 0 → k = count) ∧
        tx_words x1.m.trace
          = tx_words x.m.trace ++ (tx_stream x.m.spicc.cur_bits_per_word k x.txp).1 := by
  intro fuel
  induction fuel with
  | zero =>
    intro count x r x1 _ h
    cases count with
    | zero =>
      simp [xfer_loop] at h
      obtain ⟨rfl, rfl⟩ := h
      exact ⟨rfl, Or.inl rfl, 0, le_refl _, fun _ => rfl, by simp [tx_stream]⟩
    | succ c => simp [xfer_loop] at h
  | succ fuel ih =>
    intro count x r x1 hs h
    cases count with
    | zero =>
      simp [xfer_loop] at h
      obtain ⟨rfl, rfl⟩ := h
      exact ⟨rfl, Or.inl rfl, 0, le_refl _, fun _ => rfl, by simp [tx_stream]⟩
    | succ count =>
      have hp := poll_rx_side H (rd_tx_empty H) (rd_tx_empty_rx_side H) 100 x.m
      unfold xfer_loop at h
      simp only at h
      generalize hnum : (if count + 1 > P.fifo_size then P.fifo_size else count + 1) = num at h
      have hn : num ≤ count + 1 := by
        rw [← hnum]; split <;> omega
      split at h
      · simp only [Option.some.injEq, Prod.mk.injEq] at h
        obtain ⟨rfl, rfl⟩ := h
        refine ⟨hp.1, Or.inr rfl, 0, by omega, ?_, ?_⟩
        · intro hh; simp [ETIMEDOUT] at hh
        · simp [tx_stream, tx_words_extends hp]
      · have hs1 : supported (Xfer.mk (spicc_poll H (rd_tx_empty H) 100 x.m).2 x.txp
            x.rxp).m.spicc.cur_bits_per_word := by
          show supported (spicc_poll H (rd_tx_empty H) 100 x.m).2.spicc.cur_bits_per_word
          rw [hp.1]; exact hs
        have ht := tx_loop_facts H num _ hs1
        split at h
        · rename_i r2 x2 heq
          rw [heq] at ht
          simp at ht
        · rename_i xt heq
          rw [heq] at ht
          simp only [hp.1] at ht
          obtain ⟨-, t2, t3, -, t5, -⟩ := ht
          have hst : supported xt.m.spicc.cur_bits_per_word := by rw [t2]; exact hs
          have hc := rx_loop_code H num xt hst
          have hr := rx_loop_rx_side H num xt
          have hwt : tx_words xt.m.trace
              = tx_words x.m.trace ++ (tx_stream x.m.spicc.cur_bits_per_word num x.txp).1 := by
            rw [t3, tx_words_append, tx_words_map, tx_words_extends hp]
          split at h
          · rename_i r2 x2 heq2
            simp only [Option.some.injEq, Prod.mk.injEq] at h
            obtain ⟨rfl, rfl⟩ := h
            rw [heq2] at hc hr
            simp only [Option.some.injEq, false_or, reduceCtorEq] at hc
            refine ⟨hr.1.1.trans t2, Or.inr hc, num, hn, ?_, ?_⟩
            · intro hh; rw [hh] at hc; simp [ETIMEDOUT] at hc
            · rw [tx_words_extends hr.1, hwt]
          · rename_i x2 heq2
            rw [heq2] at hr
            have hsp : x2.m.spicc = x.m.spicc := hr.1.1.trans t2
            obtain ⟨h1, h2, k, hk, hk0, hw⟩ := ih _ x2 r x1 (by rw [hsp]; exact hs) h
            refine ⟨h1.trans hsp, h2, num + k, by omega, fun hh => by have := hk0 hh; omega, ?_⟩
            rw [hw, tx_words_extends hr.1, hwt, hsp, (tx_stream_add _ hs num k x.txp).1,
              hr.2, t5, List.append_assoc]

/-! ## Polling on hardware whose flags never read as set -/

theorem rx_loop_never {σ : Type} (H : Hw σ) (hrx : ∀ s, (H.rx_ready s).1 = false) :
    ∀ (n : Nat) (x : Xfer σ), supported x.m.spicc.cur_bits_per_word →
      (rx_loop H n x).1 = none := by
  intro n
  induction n with
  | zero => intro x _; rfl
  | succ n ih =>
    intro x hs
    have hsp : (rd_rxdata H (rx_delay H (spicc_poll H (rd_rx_ready H) 100 x.m).2)).2.spicc
        = x.m.spicc :=
      (extends_trans (poll_rx_side H (rd_rx_ready H) (rd_rx_ready_rx_side H) 100 x.m)
        (extends_trans (rx_delay_rx_side H _) (rd_rxdata_rx_side H _))).1
    have hp : (spicc_poll H (rd_rx_ready H) 100 x.m).1 = 4294967295 :=
      poll_never H (rd_rx_ready H) (fun m => hrx m.hw) 100 x.m
    unfold rx_loop
    simp only [hp]
    split
    · rename_i h; simp at h
    · split
      · exact ih _ (by show supported (rd_rxdata H _).2.spicc.cur_bits_per_word; rw [hsp]; exact hs)
      · rename_i rx _
        obtain ⟨r1, h1⟩ := rx_store_isSome _ hs
          (rd_rxdata H (rx_delay H (spicc_poll H (rd_rx_ready H) 100 x.m).2)).1 rx
        rw [hsp, h1]
        exact ih _ (by show supported (rd_rxdata H _).2.spicc.cur_bits_per_word; rw [hsp]; exact hs)

theorem xfer_loop_never {σ : Type} (H : Hw σ) (P : Platform) (hf : 0 < P.fifo_size)
    (htx : ∀ s, (H.tx_empty s).1 = false) (hrx : ∀ s, (H.rx_ready s).1 = false) :
    ∀ (fuel count : Nat) (x : Xfer σ), count ≤ fuel →
      supported x.m.spicc.cur_bits_per_word →
      ∃ x1, xfer_loop H P fuel count x = some (0, x1) := by
  intro fuel
  induction fuel with
  | zero =>
    intro count x hc _
    have : count = 0 := by omega
    subst this
    exact ⟨x, by simp [xfer_loop]⟩
  | succ fuel ih =>
    intro count x hc hs
    cases count with
    | zero => exact ⟨x, by simp [xfer_loop]⟩
    | succ count =>
      have hp := poll_rx_side H (rd_tx_empty H) (rd_tx_empty_rx_side H) 100 x.m
      have hv : (spicc_poll H (rd_tx_empty H) 100 x.m).1 = 4294967295 :=
        poll_never H (rd_tx_empty H) (fun m => htx m.hw) 100 x.m
      unfold xfer_loop
      simp only [hv]
      generalize hnum : (if count + 1 > P.fifo_size then P.fifo_size else count + 1) = num
      have hn : 0 < num ∧ num ≤ count + 1 := by
        rw [← hnum]; split <;> omega
      have hs1 : supported (Xfer.mk (spicc_poll H (rd_tx_empty H) 100 x.m).2 x.txp
          x.rxp).m.spicc.cur_bits_per_word := by
        show supported (spicc_poll H (rd_tx_empty H) 100 x.m).2.spicc.cur_bits_per_word
        rw [hp.1]; exact hs
      have ht := tx_loop_facts H num _ hs1
      split
      · rename_i h; simp at h
      · split
        · rename_i r2 x2 heq
          rw [heq] at ht
          simp at ht
        · rename_i xt heq
          rw [heq] at ht
          simp only [hp.1] at ht
          have hst : supported xt.m.spicc.cur_bits_per_word := by rw [ht.2.1]; exact hs
          have hc2 := rx_loop_never H hrx num xt hst
          have hr := rx_loop_rx_side H num xt
          split
          · rename_i r2 x2 heq2
            rw [heq2] at hc2
            simp at hc2
          · rename_i x2 heq2
            rw [heq2] at hr
            exact ih _ x2 (by omega) (by rw [hr.1.1, ht.2.1]; exact hs)

theorem hw_xfer_never_times_out {σ : Type} (H : Hw σ) (P : Platform) (hf : 0 < P.fifo_size)
    (htx : ∀ s, (H.tx_empty s).1 = false) (hrx : ∀ s, (H.rx_ready s).1 = false)
    (m : Machine σ) (hs : supported m.spicc.cur_bits_per_word)
    (txp rxp : Option (List Nat)) (len : Int) :
    ∃ x1, spicc_hw_xfer H P m txp rxp len = some (0, x1) := by
  unfold spicc_hw_xfer
  have hb : m.spicc.cur_bits_per_word ≠ 0 := by
    rcases hs with h | h | h <;> omega
  simp only [hb, and_false, if_false]
  exact xfer_loop_never H P hf htx hrx _ _ _ (le_refl _) hs

set_option maxRecDepth 100000 in
/-- C2 (code at the failing input): on the stuck hardware model, whose flags never
read as set, a one-byte transfer at word size 8 is not aborted: `spicc_hw_xfer`
returns 0 after 202 flag reads that all found the flag clear and 200 waits of one
microsecond, having written the word to the TX port and stored a received byte. -/
theorem C2_stuck_transfer_returns_success :
    (spicc_hw_xfer stuck meson (probe stuck meson master2 ()) (some [18]) (some []) 1).map
      (fun r => (r.1, r.2.rxp, tx_words r.2.m.trace, clear_reads r.2.m.trace, waits r.2.m.trace))
      = some (0, some [0], [18], 202, 200) := by
  decide

/-! ## Message processing at concrete inputs -/

set_option maxRecDepth 100000 in
/-- C3 (code at the failing input): on hardware whose TX-empty flag is found set only
by the 101st read, the first transfer of a two-transfer message fails with
`-ETIMEDOUT`; `spicc_handle_one_msg` then runs no further transfer (no word reaches
the TX port, `actual_length` stays 0) and stores status 0, the value of a successful
message. -/
theorem C3_failed_message_has_status_zero :
    (spicc_hw_xfer (slow 110) meson
        (msg_begin meson mem2 (probe (slow 110) meson master2 0) msg_two_bytes)
        xfer_byte.tx_buf (some []) 1).map (fun r => r.1) = some (-ETIMEDOUT) ∧
    (spicc_handle_one_msg (slow 110) meson mem2 (probe (slow 110) meson master2 0)
        msg_two_bytes).map (fun r => (r.2.status, r.2.actual_length, tx_words r.1.trace))
      = some (0, 0, []) := by
  decide

set_option maxRecDepth 100000 in
/-- C6 (code at the failing input): for a device with nominal rate 1 MHz (divider
code 5), after a transfer with a 10 MHz override (code 2) the later transfers
without override, and with `speed_hz` equal to the nominal rate, are still sent
with divider code 2. -/
theorem C6_override_persists :
    spicc_clk_div meson.sys_clk_rate (s32 (mem2 1).max_speed_hz) = 5 ∧
    (spicc_handle_one_msg loopback meson mem2 (probe loopback meson master2 [])
        msg_override).map (fun r => (tx_with_div 0 r.1.trace, r.1.spicc.regs.conreg.data_rate_div))
      = some ([(5, 2), (2, 1), (2, 2), (2, 3)], 2) := by
  decide

set_option maxRecDepth 100000 in
/-- C7 (code at the failing input): after `spicc_setup` of an 8-bit device and then of
a 16-bit device, a message for the 8-bit device (not the device the controller last
worked for) is processed with word size 16: its two bytes 0x12 0x34 leave as the
single word 0x1234, and `cur_bits_per_word` is 16 although the target device asks
for 8; bit rate and mode are the target device's. -/
theorem C7_word_size_not_reprogrammed :
    (mem2 1).bits_per_word = 8 ∧
    after_two_setups.bind (fun m => (spicc_handle_one_msg loopback meson mem2 m
        msg_two_words).map (fun r => (tx_words r.1.trace, r.1.spicc.cur_bits_per_word,
          r.1.spicc.regs.conreg.bits_per_word, r.1.spicc.cur_speed, r.1.spicc.cur_mode)))
      = some ([4660], 16, 15, 1000000, 0) := by
  decide

/-! ## Words sent and bytes stored -/

theorem tx_word_take (bits : Nat) (hs : supported bits) (tx : List Nat)
    (hb : ∀ b ∈ tx, b < 256) (hl : bits / 8 ≤ tx.length) :
    tx_word bits (some tx) = some (be_value (tx.take (bits / 8)), some (tx.drop (bits / 8))) := by
  rcases hs with h | h | h <;> subst h
  · match tx, hl, hb with
    | b0 :: rest, _, hb =>
      rw [pack8 b0 (hb b0 (by simp)) rest]
      simp [be_value]
  · match tx, hl, hb with
    | b0 :: b1 :: rest, _, hb =>
      rw [pack16 b0 b1 (hb b0 (by simp)) (hb b1 (by simp)) rest]
      simp [be_value]
  · match tx, hl, hb with
    | b0 :: b1 :: b2 :: b3 :: rest, _, hb =>
      rw [pack32 b0 b1 b2 b3 (hb b0 (by simp)) (hb b1 (by simp)) (hb b2 (by simp))
        (hb b3 (by simp)) rest]
      simp [be_value]

theorem rx_store_take (bits : Nat) (hs : supported bits) (tx : List Nat)
    (hb : ∀ b ∈ tx, b < 256) (hl : bits / 8 ≤ tx.length) (rx : List Nat) :
    rx_store bits (be_value (tx.take (bits / 8))) rx = some (rx ++ tx.take (bits / 8)) := by
  rcases hs with h | h | h <;> subst h
  · match tx, hl, hb with
    | b0 :: rest, _, hb =>
      have := unpack8 b0 (hb b0 (by simp)) rx
      simpa [be_value] using this
  · match tx, hl, hb with
    | b0 :: b1 :: rest, _, hb =>
      have := unpack16 b0 b1 (hb b0 (by simp)) (hb b1 (by simp)) rx
      simpa [be_value] using this
  · match tx, hl, hb with
    | b0 :: b1 :: b2 :: b3 :: rest, _, hb =>
      have := unpack32 b0 b1 b2 b3 (hb b0 (by simp)) (hb b1 (by simp)) (hb b2 (by simp))
        (hb b3 (by simp)) rx
      simpa [be_value] using this

theorem tx_word_none (bits : Nat) (hs : supported bits) :
    tx_word bits none = some (0, none) := by
  rcases hs with h | h | h <;> subst h <;> simp [tx_word, tx_case32, tx_case16, tx_case8, tx_byte]

theorem chunk_succ (bits : Nat) (tx : List Nat) (i : Nat) :
    chunk bits tx (i + 1) = chunk bits (tx.drop (bits / 8)) i := by
  unfold chunk
  rw [List.drop_drop]
  congr 2
  ring

theorem tx_stream_some (bits : Nat) (hs : supported bits) :
    ∀ (k : Nat) (tx : List Nat), (∀ b ∈ tx, b < 256) → k * (bits / 8) ≤ tx.length →
      (tx_stream bits k (some tx)).1 = (List.range k).map (tx_expected bits (some tx)) ∧
      (tx_stream bits k (some tx)).2 = some (tx.drop (k * (bits / 8))) := by
  intro k
  induction k with
  | zero => intro tx _ _; simp [tx_stream]
  | succ k ih =>
    intro tx hb hl
    have hl1 : bits / 8 ≤ tx.length := by
      have : (k + 1) * (bits / 8) = k * (bits / 8) + bits / 8 := by ring
      omega
    have hb2 : ∀ b ∈ tx.drop (bits / 8), b < 256 := fun b h => hb b (List.mem_of_mem_drop h)
    have hl2 : k * (bits / 8) ≤ (tx.drop (bits / 8)).length := by
      rw [List.length_drop]
      have : (k + 1) * (bits / 8) = k * (bits / 8) + bits / 8 := by ring
      omega
    obtain ⟨i1, i2⟩ := ih (tx.drop (bits / 8)) hb2 hl2
    simp only [tx_stream, tx_word_take bits hs tx hb hl1]
    rw [i1, i2, List.drop_drop]
    constructor
    · rw [List.range_succ_eq_map, List.map_cons, List.map_map]
      congr 1
      · simp [tx_expected, chunk]
      · apply List.map_congr_left
        intro i _
        simp [tx_expected, chunk_succ]
    · congr 2
      ring

theorem tx_stream_none (bits : Nat) (hs : supported bits) :
    ∀ (k : Nat), (tx_stream bits k none).1 = (List.range k).map (tx_expected bits none) ∧
      (tx_stream bits k none).2 = none := by
  intro k
  induction k with
  | zero => simp [tx_stream]
  | succ k ih =>
    simp only [tx_stream, tx_word_none bits hs, ih.1, ih.2]
    simp [tx_expected, List.range_succ_eq_map]

theorem rx_stream_append (bits : Nat) :
    ∀ (a b rx : List Nat), (∀ d rx1, ∃ r, rx_store bits d rx1 = some r) →
      rx_stream bits (a ++ b) rx = rx_stream bits b (rx_stream bits a rx) := by
  intro a
  induction a with
  | nil => intro b rx _; rfl
  | cons d a ih =>
    intro b rx h
    obtain ⟨r, hr⟩ := h d rx
    simp only [List.cons_append, rx_stream, hr]
    exact ih b r h

theorem round_trip_stream (bits : Nat) (hs : supported bits) :
    ∀ (k : Nat) (tx : List Nat) (rx : List Nat), (∀ b ∈ tx, b < 256) →
      k * (bits / 8) ≤ tx.length →
      rx_stream bits (tx_stream bits k (some tx)).1 rx = rx ++ tx.take (k * (bits / 8)) := by
  intro k
  induction k with
  | zero => intro tx rx _ _; simp [tx_stream, rx_stream]
  | succ k ih =>
    intro tx rx hb hl
    have hl1 : bits / 8 ≤ tx.length := by
      have : (k + 1) * (bits / 8) = k * (bits / 8) + bits / 8 := by ring
      omega
    have hb2 : ∀ b ∈ tx.drop (bits / 8), b < 256 := fun b h => hb b (List.mem_of_mem_drop h)
    have hl2 : k * (bits / 8) ≤ (tx.drop (bits / 8)).length := by
      rw [List.length_drop]
      have : (k + 1) * (bits / 8) = k * (bits / 8) + bits / 8 := by ring
      omega
    simp only [tx_stream, tx_word_take bits hs tx hb hl1, rx_stream,
      rx_store_take bits hs tx hb hl1 rx]
    rw [ih (tx.drop (bits / 8)) _ hb2 hl2, List.append_assoc]
    congr 1
    have e : (k + 1) * (bits / 8) = bits / 8 + k * (bits / 8) := by ring
    rw [e, List.take_add]

theorem u32_natCast (n : Nat) (h : n < 4294967296) : u32 (n : Int) = n := by
  unfold u32
  omega

theorem xfer_count_eq (bits len : Nat) (hov : len * 8 < 2147483648) :
    xfer_count bits (len : Int) = len * 8 / bits := by
  unfold xfer_count
  by_cases h0 : len = 0
  · subst h0; simp
  · have hne : (len : Int) ≠ 0 := by exact_mod_cast h0
    simp only [hne, ne_eq, not_false_eq_true, if_true]
    have hs : s32 ((len : Int) * 8) = ((len * 8 : Nat) : Int) := by
      unfold s32
      push_cast
      split <;> omega
    rw [hs, ← Int.ofNat_tdiv]
    exact u32_natCast _ (lt_of_le_of_lt (Nat.div_le_self _ _) (by omega))

theorem hw_xfer_returns {σ : Type} (H : Hw σ) (P : Platform) (hf : 0 < P.fifo_size)
    (m : Machine σ) (txp rxp : Option (List Nat)) (len : Int)
    (hb : len = 0 ∨ m.spicc.cur_bits_per_word ≠ 0) :
    ∃ r x1, spicc_hw_xfer H P m txp rxp len = some (r, x1) ∧ Extends is_xfer m x1.m := by
  unfold spicc_hw_xfer
  have hc : ¬ (len ≠ 0 ∧ m.spicc.cur_bits_per_word = 0) := by
    rcases hb with h | h
    · simp [h]
    · simp [h]
  simp only [hc, if_false]
  exact xfer_loop_returns H P hf _ _ _ (le_refl _)

theorem be_value_or (b0 b1 b2 b3 : Nat) (h0 : b0 < 256) (h1 : b1 < 256) (h2 : b2 < 256)
    (h3 : b3 < 256) :
    be_value [b0] = b0 ∧ be_value [b0, b1] = b0 <<< 8 ||| b1 ∧
    be_value [b0, b1, b2, b3] = ((b0 <<< 24 ||| b1 <<< 16) ||| b2 <<< 8) ||| b3 := by
  have p16 := pack16 b0 b1 h0 h1 []
  have p32 := pack32 b0 b1 b2 b3 h0 h1 h2 h3 []
  have e0 : b0 <<< 24 % 4294967296 = b0 <<< 24 := by
    rw [Nat.shiftLeft_eq]; exact Nat.mod_eq_of_lt (by omega)
  have e1 : b1 <<< 16 % 4294967296 = b1 <<< 16 := by
    rw [Nat.shiftLeft_eq]; exact Nat.mod_eq_of_lt (by omega)
  have e2 : ∀ b, b < 256 → b <<< 8 % 4294967296 = b <<< 8 := by
    intro b hb
    rw [Nat.shiftLeft_eq]; exact Nat.mod_eq_of_lt (by omega)
  have e3 : ∀ b, b < 256 → b % 4294967296 = b := fun b hb => Nat.mod_eq_of_lt (by omega)
  simp only [tx_word, tx_case32, tx_case16, tx_case8, tx_byte, Nat.mod_eq_of_lt h0,
    Nat.mod_eq_of_lt h1, Nat.mod_eq_of_lt h2, Nat.mod_eq_of_lt h3, Nat.zero_or, e0, e1,
    e2 b0 h0, e2 b2 h2, e3 b1 h1, e3 b3 h3, Nat.shiftLeft_zero, if_true, Option.some.injEq,
    Prod.mk.injEq, and_true] at p16 p32
  norm_num at p16
  refine ⟨by simp [be_value], ?_, ?_⟩
  · rw [p16]; simp [be_value]
  · rw [p32]; simp [be_value]

/-- C5 (counterexample): a transfer of 2^29 bytes at word size 8 without buffers:
`len * 8` wraps to 0 in `int`, so `spicc_hw_xfer` returns 0 having written no word,
not `len * 8 / 8` words. -/
theorem C5_length_overflow :
    (probe loopback meson master2 []).spicc.cur_bits_per_word = 8 ∧
    (spicc_hw_xfer loopback meson (probe loopback meson master2 []) none none 536870912).map
      (fun r => (r.1, (tx_words r.2.m.trace).length)) = some (0, 0) ∧
    536870912 * 8 / 8 ≠ 0 := by
  decide

/-- C5 (amended): for every hardware, every word size in {8,16,32} and every length
`len` with `len * 8 < 2^31`, the words `spicc_hw_xfer` writes to the TX data port
are, in order, the first `k` expected words: word `i` is the most-significant-byte-
first value of tx bytes `i*(w/8) .. i*(w/8)+w/8-1`, and 0 when no tx buffer is
supplied; `k` is at most `len * 8 / w`, and equals it when the call returns 0.  The
call returns 0 or `-ETIMEDOUT`.  The value of a byte group is `b0`,
`b0<<8 | b1`, `b0<<24 | b1<<16 | b2<<8 | b3`. -/
theorem C5_words_sent {σ : Type} (H : Hw σ) (P : Platform) (m : Machine σ)
    (txp rxp : Option (List Nat)) (len : Nat) (r : Int) (x1 : Xfer σ)
    (hs : supported m.spicc.cur_bits_per_word) (hov : len * 8 < 2147483648)
    (htx : ∀ tx, txp = some tx → (∀ b ∈ tx, b < 256) ∧ len ≤ tx.length)
    (h : spicc_hw_xfer H P m txp rxp (len : Int) = some (r, x1)) :
    (r = 0 ∨ r = -ETIMEDOUT) ∧
    (∃ k, k ≤ len * 8 / m.spicc.cur_bits_per_word ∧
      (r = 0 → k = len * 8 / m.spicc.cur_bits_per_word) ∧
      tx_words x1.m.trace
        = tx_words m.trace ++ (List.range k).map (tx_expected m.spicc.cur_bits_per_word txp)) ∧
    (∀ b0 b1 b2 b3, b0 < 256 → b1 < 256 → b2 < 256 → b3 < 256 →
      be_value [b0] = b0 ∧ be_value [b0, b1] = b0 <<< 8 ||| b1 ∧
      be_value [b0, b1, b2, b3] = ((b0 <<< 24 ||| b1 <<< 16) ||| b2 <<< 8) ||| b3) := by
  unfold spicc_hw_xfer at h
  have hb : m.spicc.cur_bits_per_word ≠ 0 := by
    rcases hs with h | h | h <;> omega
  simp only [hb, and_false, if_false, xfer_count_eq _ _ hov] at h
  obtain ⟨_, hr, k, hk, hk0, hw⟩ := xfer_loop_tx_words H P _ _ _ r x1 hs h
  refine ⟨hr, ⟨k, hk, hk0, ?_⟩, fun b0 b1 b2 b3 h0 h1 h2 h3 => be_value_or b0 b1 b2 b3 h0 h1 h2 h3⟩
  rw [hw]
  congr 1
  cases txp with
  | none => exact (tx_stream_none _ hs k).1
  | some tx =>
    obtain ⟨hb8, hl⟩ := htx tx rfl
    refine (tx_stream_some _ hs k tx hb8 ?_).1
    have h1 := Nat.div_mul_le_self (len * 8) m.spicc.cur_bits_per_word
    have h2 : k * m.spicc.cur_bits_per_word ≤ len * 8 :=
      le_trans (Nat.mul_le_mul_right _ hk) h1
    rcases hs with h | h | h <;> rw [h] at h2 ⊢ <;> omega

/-- C5 (witness): the amended statement for the bytes 0x12 0x34 sent at word size 8
on the loopback hardware. -/
theorem C5_words_sent_witness :
    ∃ r x1, spicc_hw_xfer loopback meson (probe loopback meson master2 []) (some [18, 52]) none
        ((2 : Nat) : Int) = some (r, x1) ∧ (r = 0 ∨ r = -ETIMEDOUT) := by
  obtain ⟨r, x1, h, _⟩ := hw_xfer_returns loopback meson (by decide)
    (probe loopback meson master2 []) (some [18, 52]) none ((2 : Nat) : Int) (Or.inr (by decide))
  exact ⟨r, x1, h, (C5_words_sent loopback meson (probe loopback meson master2 [])
    (some [18, 52]) none 2 r x1 (by decide) (by decide)
    (fun tx htx => by cases htx; exact ⟨by decide, by decide⟩) h).1⟩

/-! ## Loopback hardware -/

theorem loopback_foldl (ws q : List Nat) :
    ws.foldl (fun h d => loopback.txdata_wr d h) q = q ++ ws := by
  induction ws generalizing q with
  | nil => simp
  | cons w ws ih =>
    show List.foldl _ (loopback.txdata_wr w q) ws = _
    rw [ih]
    simp [loopback]

theorem rx_delay_hw_loopback (m : Machine (List Nat)) : (rx_delay loopback m).hw = m.hw := by
  unfold rx_delay
  split <;> rfl

theorem rx_loop_loopback :
    ∀ (n : Nat) (x : Xfer (List Nat)) (ws rest rx : List Nat),
      supported x.m.spicc.cur_bits_per_word → x.m.hw = ws ++ rest → ws.length = n →
      x.rxp = some rx →
      (rx_loop loopback n x).1 = none ∧
      (rx_loop loopback n x).2.rxp = some (rx_stream x.m.spicc.cur_bits_per_word ws rx) ∧
      (rx_loop loopback n x).2.m.hw = rest ∧
      (rx_loop loopback n x).2.txp = x.txp ∧
      (rx_loop loopback n x).2.m.spicc = x.m.spicc := by
  intro n
  induction n with
  | zero =>
    intro x ws rest rx _ hq hl hr
    have : ws = [] := List.length_eq_zero.mp hl
    subst this
    exact ⟨rfl, by simpa [rx_loop, rx_stream] using hr, by simpa [rx_loop] using hq, rfl, rfl⟩
  | succ n ih =>
    intro x ws rest rx hs hq hl hr
    match ws, hl with
    | w :: ws1, hl =>
      have hp : spicc_poll loopback (rd_rx_ready loopback) 100 x.m
          = (100, (rd_rx_ready loopback x.m).2) := poll_ready _ _ _ _ rfl
      have hhw : (rx_delay loopback (rd_rx_ready loopback x.m).2).hw = w :: (ws1 ++ rest) := by
        rw [rx_delay_hw_loopback]
        simpa [rd_rx_ready, loopback] using hq
      obtain ⟨r1, h1⟩ := rx_store_isSome _ hs w rx
      have hd : (rd_rxdata loopback (rx_delay loopback (rd_rx_ready loopback x.m).2)).1 = w := by
        show (loopback.rxdata_rd (rx_delay loopback (rd_rx_ready loopback x.m).2).hw).1 = w
        rw [hhw]; rfl
      have hd2 : (rd_rxdata loopback (rx_delay loopback (rd_rx_ready loopback x.m).2)).2.hw
          = ws1 ++ rest := by
        show (loopback.rxdata_rd (rx_delay loopback (rd_rx_ready loopback x.m).2).hw).2 = _
        rw [hhw]; rfl
      have hd3 : (rd_rxdata loopback (rx_delay loopback (rd_rx_ready loopback x.m).2)).2.spicc
          = x.m.spicc := by simp
      unfold rx_loop
      simp only [hp, hr, hd, hd3, h1]
      simp only [show ((100 : Nat) = 0) = False by simp, if_false]
      have := ih { x with
          m := (rd_rxdata loopback (rx_delay loopback (rd_rx_ready loopback x.m).2)).2
          rxp := some r1 } ws1 rest r1 (by simpa [hd3] using hs) hd2 (by simpa using hl) rfl
      simp only [hd3] at this
      obtain ⟨a, b, c, d, e⟩ := this
      refine ⟨a, ?_, c, d, e⟩
      rw [b]
      simp [rx_stream, h1]

theorem xfer_loop_loopback (P : Platform) (hf : 0 < P.fifo_size) :
    ∀ (fuel count : Nat) (x : Xfer (List Nat)) (rx : List Nat),
      count ≤ fuel → supported x.m.spicc.cur_bits_per_word → x.m.hw = [] →
      x.rxp = some rx →
      ∃ x1, xfer_loop loopback P fuel count x = some (0, x1) ∧
        x1.rxp = some (rx_stream x.m.spicc.cur_bits_per_word
          (tx_stream x.m.spicc.cur_bits_per_word count x.txp).1 rx) := by
  intro fuel
  induction fuel with
  | zero =>
    intro count x rx hc _ _ hr
    have : count = 0 := by omega
    subst this
    exact ⟨x, by simp [xfer_loop], by simpa [tx_stream, rx_stream] using hr⟩
  | succ fuel ih =>
    intro count x rx hc hs hq hr
    cases count with
    | zero => exact ⟨x, by simp [xfer_loop], by simpa [tx_stream, rx_stream] using hr⟩
    | succ count =>
      have hp : spicc_poll loopback (rd_tx_empty loopback) 100 x.m
          = (100, (rd_tx_empty loopback x.m).2) := poll_ready _ _ _ _ rfl
      unfold xfer_loop
      simp only [hp]
      simp only [show ((100 : Nat) = 0) = False by simp, if_false]
      generalize hnum : (if count + 1 > P.fifo_size then P.fifo_size else count + 1) = num
      have hn : 0 < num ∧ num ≤ count + 1 := by
        rw [← hnum]; split <;> omega
      have hs1 : supported (Xfer.mk (rd_tx_empty loopback x.m).2 x.txp
          x.rxp).m.spicc.cur_bits_per_word := hs
      have ht := tx_loop_facts loopback num _ hs1
      split
      · rename_i r2 x2 heq
        rw [heq] at ht
        simp at ht
      · rename_i xt heq
        rw [heq] at ht
        obtain ⟨-, t2, -, t4, t5, t6⟩ := ht
        simp only [rd_tx_empty_spicc] at t2 t4 t5
        have hq1 : xt.m.hw = (tx_stream x.m.spicc.cur_bits_per_word num x.txp).1 ++ [] := by
          rw [t4, loopback_foldl]
          simp [rd_tx_empty, loopback, hq]
        have hst : supported xt.m.spicc.cur_bits_per_word := by rw [t2]; exact hs
        have hrl := rx_loop_loopback num xt _ [] rx hst hq1
          (tx_stream_length _ hs num x.txp) (by rw [t6]; exact hr)
        split
        · rename_i r2 x2 heq2
          rw [heq2] at hrl
          simp at hrl
        · rename_i x2 heq2
          rw [heq2] at hrl
          obtain ⟨-, r2, r3, r4, r5⟩ := hrl
          simp only at r2 r3 r4 r5
          have hsp : x2.m.spicc = x.m.spicc := r5.trans t2
          obtain ⟨x1, e1, e2⟩ := ih (count + 1 - num) x2 _ (by omega)
            (by rw [hsp]; exact hs) r3 r2
          refine ⟨x1, e1, ?_⟩
          rw [e2, hsp, r4, t5, t2]
          have hsplit : count + 1 = num + (count + 1 - num) := by omega
          conv_rhs => rw [hsplit]
          rw [(tx_stream_add _ hs num _ x.txp).1]
          rw [rx_stream_append _ _ _ _ (fun d rx1 => rx_store_isSome _ hs d rx1)]

theorem hw_xfer_zero_count {σ : Type} (H : Hw σ) (P : Platform) (m : Machine σ)
    (txp rxp : Option (List Nat)) (len : Int)
    (hc : xfer_count m.spicc.cur_bits_per_word len = 0) (hb : m.spicc.cur_bits_per_word ≠ 0) :
    spicc_hw_xfer H P m txp rxp len = some (0, ⟨m, txp, rxp⟩) := by
  unfold spicc_hw_xfer
  simp only [hb, and_false, if_false, hc]
  cases m.spicc.cur_bits_per_word <;> rfl

theorem untouched_buffer_differs (n : Nat) (hn : 0 < n) :
    rx_result (some (List.replicate n 0)) (some []) ≠ some (List.replicate n 170) := by
  cases n with
  | zero => omega
  | succ k => simp [rx_result, List.replicate_succ]

/-- C4 (counterexample): a loopback transfer of a pattern of 2^29 bytes 0xAA at word
size 8: `len * 8` wraps to 0 in `int`, so `spicc_hw_xfer` returns 0 without storing
a byte, and a receive buffer that held zeros still differs from the pattern. -/
theorem C4_length_overflow :
    (probe loopback meson master2 []).spicc.cur_bits_per_word = 8 ∧
    (spicc_hw_xfer loopback meson (probe loopback meson master2 [])
        (some (List.replicate 536870912 170)) (some []) 536870912).map
      (fun r => (r.1, r.2.rxp)) = some (0, some []) ∧
    rx_result (some (List.replicate 536870912 0)) (some [])
      ≠ some (List.replicate 536870912 170) := by
  refine ⟨by decide, ?_, untouched_buffer_differs _ (by decide)⟩
  rw [hw_xfer_zero_count _ _ _ _ _ _ (by decide) (by decide)]
  rfl

/-- C4 (amended): for every word size in {8,16,32}, every positive FIFO size and
every tx pattern of bytes whose length `L` is a multiple of `w/8` with
`L * 8 < 2^31`, `spicc_hw_xfer` run on the loopback hardware with an empty FIFO
returns 0, the bytes stored through `rxp` are exactly the pattern, and a receive
buffer of `L` bytes ends equal to the pattern. -/
theorem C4_loopback_round_trip (P : Platform) (hf : 0 < P.fifo_size)
    (m : Machine (List Nat)) (hq : m.hw = []) (hs : supported m.spicc.cur_bits_per_word)
    (tx : List Nat) (hb : ∀ b ∈ tx, b < 256) (hov : tx.length * 8 < 2147483648)
    (hdiv : m.spicc.cur_bits_per_word / 8 ∣ tx.length) :
    ∃ x1, spicc_hw_xfer loopback P m (some tx) (some []) (tx.length : Int) = some (0, x1) ∧
      x1.rxp = some tx ∧
      ∀ buf : List Nat, buf.length = tx.length → rx_result (some buf) x1.rxp = some tx := by
  have hb0 : m.spicc.cur_bits_per_word ≠ 0 := by
    rcases hs with h | h | h <;> omega
  have hcnt : tx.length * 8 / m.spicc.cur_bits_per_word * (m.spicc.cur_bits_per_word / 8)
      = tx.length := by
    obtain ⟨c, hc⟩ := hdiv
    rcases hs with h | h | h <;> rw [h] at hc ⊢ <;> omega
  obtain ⟨x1, e1, e2⟩ := xfer_loop_loopback P hf (tx.length * 8 / m.spicc.cur_bits_per_word)
    (tx.length * 8 / m.spicc.cur_bits_per_word) ⟨m, some tx, some []⟩ [] (le_refl _) hs hq rfl
  have hrx : x1.rxp = some tx := by
    rw [e2]
    simp only
    rw [round_trip_stream _ hs _ tx [] hb (by rw [hcnt]), hcnt]
    simp
  refine ⟨x1, ?_, hrx, ?_⟩
  · unfold spicc_hw_xfer
    simp only [hb0, and_false, if_false, xfer_count_eq _ _ hov]
    exact e1
  · intro buf hl
    rw [hrx]
    simp [rx_result, hl]

/-- C4 (witness): the amended statement for the pattern 0x12 0x34 0x56 at word size 8
after `spicc_probe`. -/
theorem C4_loopback_round_trip_witness :
    ∃ x1, spicc_hw_xfer loopback meson (probe loopback meson master2 []) (some [18, 52, 86])
        (some []) (([18, 52, 86] : List Nat).length : Int) = some (0, x1) ∧
      x1.rxp = some [18, 52, 86] := by
  obtain ⟨x1, h1, h2, _⟩ := C4_loopback_round_trip meson (by decide)
    (probe loopback meson master2 []) (by decide) (by decide) [18, 52, 86] (by decide)
    (by decide) (by decide)
  exact ⟨x1, h1, h2⟩

/-! ## Device setup -/

/-- C8: for every device whose word size is not 8, 16 or 32, `spicc_setup` returns
`-EINVAL` and leaves the machine (current speed, mode and word size, every register,
the hardware and the trace of actions) exactly as it was: nothing is written. -/
theorem C8_setup_rejects_word_size {σ : Type} (H : Hw σ) (P : Platform) (m : Machine σ)
    (spi : spi_device) (hw : ¬ supported spi.bits_per_word) :
    spicc_setup H P (some m) spi = (-EINVAL, some m) := by
  unfold spicc_setup
  have : spi.bits_per_word ≠ 8 ∧ spi.bits_per_word ≠ 16 ∧ spi.bits_per_word ≠ 32 := by
    unfold supported at hw
    omega
  simp [this]

/-- C8 (witness): a device asking for 12-bit words is rejected after `spicc_probe`. -/
theorem C8_setup_rejects_word_size_witness :
    spicc_setup stuck meson (some (probe stuck meson master2 ())) ⟨1000000, 0, 0, 12, 0⟩
      = (-EINVAL, some (probe stuck meson master2 ())) :=
  C8_setup_rejects_word_size stuck meson (probe stuck meson master2 ()) ⟨1000000, 0, 0, 12, 0⟩
    (by decide)

/-! ## Message processing: frame and trace -/

theorem runs_refl {σ : Type} (p : Event → Prop) (m : Machine σ) : Runs p m m :=
  ⟨rfl, rfl, rfl, rfl, [], by simp, by simp⟩

theorem runs_trans {σ : Type} {p : Event → Prop} {a b c : Machine σ}
    (h1 : Runs p a b) (h2 : Runs p b c) : Runs p a c := by
  obtain ⟨q1, b1, m1, s1, e1, t1, p1⟩ := h1
  obtain ⟨q2, b2, m2, s2, e2, t2, p2⟩ := h2
  refine ⟨q2.trans q1, b2.trans b1, m2.trans m1, s2.trans s1, e1 ++ e2,
    by rw [t2, t1, List.append_assoc], ?_⟩
  intro e he
  rcases List.mem_append.mp he with h | h
  · exact p1 e h
  · exact p2 e h

theorem runs_mono {σ : Type} {p q : Event → Prop} {a b : Machine σ}
    (h : ∀ e, p e → q e) (h1 : Runs p a b) : Runs q a b := by
  obtain ⟨q1, b1, m1, s1, e1, t1, p1⟩ := h1
  exact ⟨q1, b1, m1, s1, e1, t1, fun e he => h e (p1 e he)⟩

theorem runs_of_extends {σ : Type} {p q : Event → Prop} {a b : Machine σ}
    (h : ∀ e, p e → q e) (h1 : Extends p a b) : Runs q a b := by
  obtain ⟨s1, e1, t1, p1⟩ := h1
  exact ⟨by rw [s1], by rw [s1], by rw [s1], by rw [s1], e1, t1, fun e he => h e (p1 e he)⟩

theorem is_loop_of_is_xfer (e : Event) (h : is_xfer e) : is_loop e := by
  cases e <;> simp [is_xfer, is_loop] at h ⊢

theorem is_body_of_is_loop (e : Event) (h : is_loop e) : is_body e := by
  cases e <;> simp [is_loop, is_body] at h ⊢

theorem is_body_of_is_reprog (e : Event) (h : is_reprog e) : is_body e := by
  cases e <;> simp [is_reprog, is_body] at h ⊢

theorem is_body_of_is_cs (e : Event) (h : is_cs e) : is_body e := by
  cases e <;> simp [is_cs, is_body] at h ⊢

theorem wr_conreg_runs {σ : Type} (p : Event → Prop) (f : ConField) (v : Nat) (m : Machine σ)
    (h : p (.conreg f v)) : Runs p m (wr_conreg f v m) :=
  ⟨rfl, rfl, rfl, rfl, [.conreg f v], rfl, by simpa using h⟩

theorem emit_runs {σ : Type} (p : Event → Prop) (e : Event) (m : Machine σ)
    (h : p e) : Runs p m (emit e m) :=
  ⟨rfl, rfl, rfl, rfl, [e], rfl, by simpa using h⟩

theorem udelay_runs {σ : Type} (H : Hw σ) (n : Nat) (m : Machine σ) :
    Runs is_loop m (udelay H n m) :=
  ⟨rfl, rfl, rfl, rfl, [.udelay n], rfl, by simp [is_loop]⟩

theorem set_clk_runs {σ : Type} (p : Event → Prop) (hp : ∀ v, p (.conreg .data_rate_div v))
    (P : Platform) (speed : Int) (m : Machine σ) :
    Runs p m (spicc_set_clk P speed m) :=
  ⟨rfl, rfl, rfl, rfl, [.conreg .data_rate_div (spicc_clk_div P.sys_clk_rate speed)], rfl,
    by simpa using hp _⟩

theorem set_mode_runs {σ : Type} (mode : Nat) (m : Machine σ) :
    Runs is_reprog m (spicc_set_mode mode m) := by
  unfold spicc_set_mode
  simp only
  split
  · exact ⟨rfl, rfl, rfl, rfl, _, by simp [emit, wr_conreg, List.append_assoc]; rfl,
      by simp [is_reprog]⟩
  · exact ⟨rfl, rfl, rfl, rfl, _, by simp [emit, wr_conreg, List.append_assoc]; rfl,
      by simp [is_reprog]⟩

theorem chip_select_runs {σ : Type} (mem : Nat → spi_device) (select : Bool) (m : Machine σ) :
    Runs is_cs m (spicc_chip_select mem select m) := by
  unfold spicc_chip_select
  simp only
  split
  · exact runs_refl _ _
  · split
    · exact emit_runs _ _ _ (by simp [is_cs])
    · split
      · split
        · exact emit_runs _ _ _ (by simp [is_cs])
        · exact runs_trans (runs_trans (wr_conreg_runs _ _ _ _ (by simp [is_cs]))
            (wr_conreg_runs _ _ _ _ (by simp [is_cs]))) (wr_conreg_runs _ _ _ _ (by simp [is_cs]))
      · exact runs_refl _ _

theorem chip_select_trace {σ : Type} (mem : Nat → spi_device) (select : Bool) (m : Machine σ) :
    (spicc_chip_select mem select m).trace
      = m.trace ++ chip_select_actions mem select m.spicc.spi m.spicc.master := by
  unfold chip_select_actions spicc_chip_select spicc_zero
  simp only
  split
  · simp
  · split
    · simp [emit]
    · split
      · split
        · simp [emit]
        · simp [emit, wr_conreg]
      · simp


theorem hw_xfer_runs {σ : Type} (H : Hw σ) (P : Platform) (hf : 0 < P.fifo_size)
    (m : Machine σ) (txp rxp : Option (List Nat)) (len : Int)
    (hb : m.spicc.cur_bits_per_word ≠ 0) :
    ∃ r x1, spicc_hw_xfer H P m txp rxp len = some (r, x1) ∧ Runs is_loop m x1.m ∧
      x1.m.spicc = m.spicc := by
  obtain ⟨r, x1, h, e⟩ := hw_xfer_returns H P hf m txp rxp len (Or.inr hb)
  exact ⟨r, x1, h, runs_of_extends is_loop_of_is_xfer e, e.1⟩

theorem transfers_loop_runs {σ : Type} (H : Hw σ) (P : Platform) (hf : 0 < P.fifo_size)
    (spi : spi_device) :
    ∀ (ts : List spi_transfer) (m : Machine σ) (al : Nat), m.spicc.cur_bits_per_word ≠ 0 →
      ∃ m3 al3 ts3, transfers_loop H P spi ts m al = some (m3, al3, ts3) ∧
        Runs is_loop m m3 ∧ m3.spicc.regs.conreg.enable = m.spicc.regs.conreg.enable := by
  intro ts
  induction ts with
  | nil => intro m al _; exact ⟨m, al, [], rfl, runs_refl _ _, rfl⟩
  | cons t ts ih =>
    intro m al hb
    unfold transfers_loop
    simp only
    generalize hm1 : (if spi.max_speed_hz ≠ t.speed_hz ∧ t.speed_hz ≠ 0
      then spicc_set_clk P (s32 t.speed_hz) m else m) = m1
    have hr1 : Runs is_loop m m1 ∧ m1.spicc.regs.conreg.enable = m.spicc.regs.conreg.enable := by
      rw [← hm1]; split
      · exact ⟨set_clk_runs _ (by simp [is_loop]) _ _ _, rfl⟩
      · exact ⟨runs_refl _ _, rfl⟩
    have hb1 : m1.spicc.cur_bits_per_word ≠ 0 := by rw [hr1.1.2.1]; exact hb
    obtain ⟨r, x1, hx, hr2, hs2⟩ := hw_xfer_runs H P hf m1 t.tx_buf
      (t.rx_buf.map (fun _ => [])) (s32 t.len) hb1
    rw [hx]
    simp only
    have hre : Runs is_loop x1.m (emit (.xfer_return r) x1.m) :=
      emit_runs _ _ _ (by simp [is_loop])
    split
    · exact ⟨_, _, _, rfl, runs_trans hr1.1 (runs_trans hr2 hre), by
        show x1.m.spicc.regs.conreg.enable = _
        rw [hs2]; exact hr1.2⟩
    · generalize hm2 : (if t.delay_usecs ≠ 0 then udelay H t.delay_usecs
        (emit (.xfer_return r) x1.m) else emit (.xfer_return r) x1.m) = m2
      have hr3 : Runs is_loop x1.m m2 ∧ m2.spicc = x1.m.spicc := by
        rw [← hm2]; split
        · exact ⟨runs_trans hre (udelay_runs _ _ _), rfl⟩
        · exact ⟨hre, rfl⟩
      have hb2 : m2.spicc.cur_bits_per_word ≠ 0 := by
        rw [hr3.1.2.1, hr2.2.1]; exact hb1
      obtain ⟨m3, al3, ts3, h3, hr4, he4⟩ := ih m2 ((al + t.len) % 4294967296) hb2
      rw [h3]
      refine ⟨_, _, _, rfl, runs_trans hr1.1 (runs_trans hr2 (runs_trans hr3.1 hr4)), ?_⟩
      rw [he4, hr3.2, hs2]; exact hr1.2

theorem msg_begin_trace {σ : Type} (P : Platform) (mem : Nat → spi_device) (m : Machine σ)
    (msg : spi_message) :
    ∃ reprog, (∀ e ∈ reprog, is_reprog e) ∧ (m.spicc.spi = msg.spi → reprog = []) ∧
      (msg_begin P mem m msg).trace = m.trace ++ [.clk_gate_on] ++ reprog
        ++ chip_select_actions mem true msg.spi m.spicc.master ++ [.conreg .enable 1] ∧
      (msg_begin P mem m msg).spicc.msg_queue = m.spicc.msg_queue ∧
      (msg_begin P mem m msg).spicc.cur_bits_per_word = m.spicc.cur_bits_per_word ∧
      (msg_begin P mem m msg).spicc.master = m.spicc.master ∧
      (msg_begin P mem m msg).spicc.spi = msg.spi ∧
      (msg_begin P mem m msg).spicc.regs.conreg.enable = 1 := by
  unfold msg_begin
  simp only
  generalize hm1 : (if (emit Event.clk_gate_on m).spicc.spi ≠ msg.spi then
      spicc_set_mode (mem msg.spi).mode
        (spicc_set_clk P (s32 (mem msg.spi).max_speed_hz)
          { emit Event.clk_gate_on m with
            spicc := { (emit Event.clk_gate_on m).spicc with spi := msg.spi } })
    else emit Event.clk_gate_on m) = m1
  have h1 : ∃ reprog, (∀ e ∈ reprog, is_reprog e) ∧ (m.spicc.spi = msg.spi → reprog = []) ∧
      m1.trace = m.trace ++ [.clk_gate_on] ++ reprog ∧
      m1.spicc.msg_queue = m.spicc.msg_queue ∧
      m1.spicc.cur_bits_per_word = m.spicc.cur_bits_per_word ∧
      m1.spicc.master = m.spicc.master ∧ m1.spicc.spi = msg.spi := by
    rw [← hm1]
    split
    · rename_i hne
      obtain ⟨q, b, ma, sp, evs, ht, hp⟩ :=
        runs_trans (set_clk_runs is_reprog (by simp [is_reprog]) P
          (s32 (mem msg.spi).max_speed_hz)
          ({ emit Event.clk_gate_on m with
            spicc := { (emit Event.clk_gate_on m).spicc with spi := msg.spi } } : Machine σ))
          (set_mode_runs (mem msg.spi).mode _)
      refine ⟨evs, hp, ?_, ?_, q, b, ma, sp⟩
      · intro he; exact absurd he hne
      · rw [ht]; rfl
    · rename_i he
      refine ⟨[], by simp, fun _ => rfl, by simp, rfl, rfl, rfl, ?_⟩
      simpa using he
  obtain ⟨reprog, hp, hnil, ht, hq, hb, hma, hsp⟩ := h1
  obtain ⟨q2, b2, ma2, sp2, _, _, _⟩ := chip_select_runs mem true m1
  have hct := chip_select_trace mem true m1
  refine ⟨reprog, hp, hnil, ?_, ?_, ?_, ?_, ?_, ?_⟩
  · show (spicc_chip_select mem true m1).trace ++ [Event.conreg ConField.enable 1] = _
    rw [hct, ht, hsp, hma]
  · show (spicc_chip_select mem true m1).spicc.msg_queue = _
    rw [q2, hq]
  · show (spicc_chip_select mem true m1).spicc.cur_bits_per_word = _
    rw [b2, hb]
  · show (spicc_chip_select mem true m1).spicc.master = _
    rw [ma2, hma]
  · show (spicc_chip_select mem true m1).spicc.spi = _
    rw [sp2, hsp]
  · simp [wr_conreg, ConReg.write]


theorem chip_select_enable {σ : Type} (mem : Nat → spi_device) (select : Bool) (m : Machine σ) :
    (spicc_chip_select mem select m).spicc.regs.conreg.enable = m.spicc.regs.conreg.enable := by
  unfold spicc_chip_select
  simp only
  split
  · rfl
  · split
    · rfl
    · split
      · split
        · rfl
        · simp [wr_conreg, ConReg.write]
      · rfl

/-- What `spicc_handle_one_msg` does, for every hardware and message: it returns, and
its actions are, in order: clock gate on; the reprogramming of clock and mode (none
when the target device is the active one); the chip-select actions of the select;
`enable = 1`; the actions of the transfer loop; `enable = 0`; the chip-select
actions of the deselect; clock gate off; the callback if the context is not NULL. -/
theorem handle_one_msg_trace {σ : Type} (H : Hw σ) (P : Platform) (hf : 0 < P.fifo_size)
    (mem : Nat → spi_device) (m : Machine σ) (msg : spi_message)
    (hb : m.spicc.cur_bits_per_word ≠ 0) :
    ∃ m1 msg1 reprog xfers, spicc_handle_one_msg H P mem m msg = some (m1, msg1) ∧
      (∀ e ∈ reprog, is_reprog e) ∧ (m.spicc.spi = msg.spi → reprog = []) ∧
      (∀ e ∈ xfers, is_loop e) ∧
      m1.trace = m.trace ++ [.clk_gate_on] ++ reprog
        ++ chip_select_actions mem true msg.spi m.spicc.master ++ [.conreg .enable 1]
        ++ xfers ++ [.conreg .enable 0]
        ++ chip_select_actions mem false msg.spi m.spicc.master ++ [.clk_gate_off]
        ++ callback_actions msg ∧
      m1.spicc.msg_queue = m.spicc.msg_queue ∧
      m1.spicc.cur_bits_per_word = m.spicc.cur_bits_per_word ∧
      m1.spicc.master = m.spicc.master ∧
      m1.spicc.spi = msg.spi ∧
      m1.spicc.regs.conreg.enable = 0 ∧
      msg1.spi = msg.spi ∧ msg1.context = msg.context ∧ msg1.status = 0 := by
  obtain ⟨reprog, hp, hnil, ht0, hq0, hb0, hma0, hsp0, _⟩ := msg_begin_trace P mem m msg
  obtain ⟨m3, al3, ts3, h3, ⟨q3, b3, ma3, sp3, xfers, ht3, hp3⟩, _⟩ :=
    transfers_loop_runs H P hf (mem msg.spi) msg.transfers
      (msg_begin P mem m msg) msg.actual_length (by rw [hb0]; exact hb)
  obtain ⟨q4, b4, ma4, sp4, _, _, _⟩ := chip_select_runs mem false (wr_conreg .enable 0 m3)
  have hct := chip_select_trace mem false (wr_conreg .enable 0 m3)
  have hen := chip_select_enable mem false (wr_conreg .enable 0 m3)
  have hsp3 : (wr_conreg ConField.enable 0 m3).spicc.spi = msg.spi := by
    show m3.spicc.spi = _
    rw [sp3, hsp0]
  have hma3 : (wr_conreg ConField.enable 0 m3).spicc.master = m.spicc.master := by
    show m3.spicc.master = _
    rw [ma3, hma0]
  have hcl : (msg_cleanup mem m3).trace = m.trace ++ [.clk_gate_on] ++ reprog
        ++ chip_select_actions mem true msg.spi m.spicc.master ++ [.conreg .enable 1]
        ++ xfers ++ [.conreg .enable 0]
        ++ chip_select_actions mem false msg.spi m.spicc.master ++ [.clk_gate_off] := by
    show (spicc_chip_select mem false (wr_conreg .enable 0 m3)).trace ++ [Event.clk_gate_off] = _
    rw [hct, hsp3, hma3]
    show m3.trace ++ [Event.conreg ConField.enable 0] ++ _ ++ _ = _
    rw [ht3, ht0]
  have hsc : (msg_cleanup mem m3).spicc = (spicc_chip_select mem false
      (wr_conreg .enable 0 m3)).spicc := rfl
  have hfin : ∀ k : Machine σ, (msg_complete msg k).spicc = k.spicc ∧
      (msg_complete msg k).trace = k.trace ++ callback_actions msg := by
    intro k
    unfold msg_complete callback_actions
    split <;> simp
  unfold spicc_handle_one_msg
  simp only [h3]
  refine ⟨_, _, reprog, xfers, rfl, hp, hnil, hp3, ?_, ?_, ?_, ?_, ?_, ?_, rfl, rfl, rfl⟩
  · rw [(hfin _).2, hcl]
  · rw [(hfin _).1, hsc, q4]; show m3.spicc.msg_queue = _; rw [q3, hq0]
  · rw [(hfin _).1, hsc, b4]; show m3.spicc.cur_bits_per_word = _; rw [b3, hb0]
  · rw [(hfin _).1, hsc, ma4]; exact hma3
  · rw [(hfin _).1, hsc, sp4]; exact hsp3
  · rw [(hfin _).1, hsc, hen]; simp [wr_conreg, ConReg.write]

theorem completions_append (a b : List Event) :
    completions (a ++ b) = completions a + completions b := by
  induction a with
  | nil => simp [completions]
  | cons e a ih => cases e <;> simp [completions, ih]; omega

theorem completions_body (evs : List Event) (h : ∀ e ∈ evs, is_body e) : completions evs = 0 := by
  induction evs with
  | nil => rfl
  | cons e evs ih =>
    have he := h e (by simp)
    have ht := ih (fun e he => h e (by simp [he]))
    cases e <;> simp [completions, is_body, ht] at he ⊢

theorem chip_select_actions_cs (mem : Nat → spi_device) (select : Bool) (spi : Nat)
    (master : spi_master) : ∀ e ∈ chip_select_actions mem select spi master, is_cs e := by
  obtain ⟨_, _, _, _, evs, ht, hp⟩ := chip_select_runs mem select
    (⟨{ spicc_zero master with spi := spi }, (), []⟩ : Machine Unit)
  unfold chip_select_actions
  rw [ht]
  simpa using hp

theorem completions_callback (msg : spi_message) :
    completions (callback_actions msg) = if msg.context ≠ 0 then 1 else 0 := by
  unfold callback_actions
  split <;> simp [completions]


/-! ## Completion callback -/

set_option maxRecDepth 100000 in
/-- C10 (counterexample): a message whose context is NULL is processed without any
invocation of its completion callback. -/
theorem C10_null_context_no_callback :
    msg_no_context.context = 0 ∧
    (spicc_handle_one_msg loopback meson mem2 (probe loopback meson master2 [])
        msg_no_context).map (fun r => (completions r.1.trace, r.2.actual_length))
      = some (0, 1) := by
  decide

/-- C10 (amended): for every hardware, message and outcome of its transfers,
`spicc_handle_one_msg` returns and the actions it appends to the trace end with
`enable = 0`, the chip-select actions of the deselect, clock gate off and then the
callback actions: one invocation of the completion callback, as the very last
action, when the context is not NULL, and none when it is NULL.  No other
invocation occurs, so the callback is invoked exactly once for a non-NULL context
and never for a NULL one, and the enable bit is 0 at the return. -/
theorem C10_callback_after_cleanup {σ : Type} (H : Hw σ) (P : Platform)
    (hf : 0 < P.fifo_size) (mem : Nat → spi_device) (m : Machine σ) (msg : spi_message)
    (hb : m.spicc.cur_bits_per_word ≠ 0) :
    ∃ m1 msg1 before, spicc_handle_one_msg H P mem m msg = some (m1, msg1) ∧
      m1.trace = m.trace ++ before ++ [.conreg .enable 0]
        ++ chip_select_actions mem false msg.spi m.spicc.master ++ [.clk_gate_off]
        ++ callback_actions msg ∧
      completions before = 0 ∧
      completions (chip_select_actions mem false msg.spi m.spicc.master) = 0 ∧
      callback_actions msg = (if msg.context ≠ 0 then [.complete msg.context] else []) ∧
      completions m1.trace = completions m.trace + (if msg.context ≠ 0 then 1 else 0) ∧
      m1.spicc.regs.conreg.enable = 0 := by
  obtain ⟨m1, msg1, reprog, xfers, h, hp, _, hx, ht, _, _, _, _, hen, _, _, _⟩ :=
    handle_one_msg_trace H P hf mem m msg hb
  have hcs1 := completions_body _ (fun e he =>
    is_body_of_is_cs e (chip_select_actions_cs mem true msg.spi m.spicc.master e he))
  have hcs0 := completions_body _ (fun e he =>
    is_body_of_is_cs e (chip_select_actions_cs mem false msg.spi m.spicc.master e he))
  have hre := completions_body reprog (fun e he => is_body_of_is_reprog e (hp e he))
  have hxf := completions_body xfers (fun e he => is_body_of_is_loop e (hx e he))
  have hbefore : completions ([Event.clk_gate_on] ++ reprog
      ++ chip_select_actions mem true msg.spi m.spicc.master ++ [Event.conreg .enable 1]
      ++ xfers) = 0 := by
    simp [completions_append, hcs1, hre, hxf, completions]
  refine ⟨m1, msg1, [.clk_gate_on] ++ reprog
      ++ chip_select_actions mem true msg.spi m.spicc.master ++ [.conreg .enable 1] ++ xfers,
    h, ?_, hbefore, hcs0, rfl, ?_, hen⟩
  · rw [ht]; simp only [List.append_assoc]
  · rw [ht]
    simp only [completions_append, hcs1, hcs0, hre, hxf, completions_callback]
    simp [completions]

/-- C10 (witness): the amended statement for the two-byte sample message on the
loopback hardware after `spicc_probe`. -/
theorem C10_callback_after_cleanup_witness :
    ∃ m1 msg1, spicc_handle_one_msg loopback meson mem2 (probe loopback meson master2 [])
        msg_two_bytes = some (m1, msg1) ∧
      completions m1.trace = completions (probe loopback meson master2 []).trace + 1 ∧
      m1.spicc.regs.conreg.enable = 0 := by
  obtain ⟨m1, msg1, _, h, _, _, _, _, hc, he⟩ := C10_callback_after_cleanup loopback meson
    (by decide) mem2 (probe loopback meson master2 []) msg_two_bytes (by decide)
  exact ⟨m1, msg1, h, hc, he⟩


/-! ## The message queue -/

theorem serial_append (a c : List Event) :
    ∀ b, serial b (a ++ c) = (serial b a).bind (fun b1 => serial b1 c) := by
  induction a with
  | nil => intro b; simp [serial]
  | cons e a ih =>
    intro b
    cases b <;> cases e <;> simp [serial, ih]

theorem serial_body (evs : List Event) (h : ∀ e ∈ evs, is_body e) :
    serial true evs = some true := by
  induction evs with
  | nil => rfl
  | cons e evs ih =>
    have he := h e (by simp)
    have ht := ih (fun e he => h e (by simp [he]))
    cases e <;> simp [serial, is_body, ht] at he ⊢

theorem serial_callback (msg : spi_message) :
    serial false (callback_actions msg) = some false := by
  unfold callback_actions
  split <;> simp [serial]

theorem gate_ons_append (a b : List Event) : gate_ons (a ++ b) = gate_ons a + gate_ons b := by
  induction a with
  | nil => simp [gate_ons]
  | cons e a ih => cases e <;> simp [gate_ons, ih]; omega

theorem gate_ons_body (evs : List Event) (h : ∀ e ∈ evs, is_body e) : gate_ons evs = 0 := by
  induction evs with
  | nil => rfl
  | cons e evs ih =>
    have he := h e (by simp)
    have ht := ih (fun e he => h e (by simp [he]))
    cases e <;> simp [gate_ons, is_body, ht] at he ⊢

theorem gate_ons_callback (msg : spi_message) : gate_ons (callback_actions msg) = 0 := by
  unfold callback_actions
  split <;> simp [gate_ons]

/-- One `spicc_handle_one_msg` call, seen by the queue: it returns, keeps the queue
and the word size, and appends one processing bracket to the trace. -/
theorem handle_one_msg_serial {σ : Type} (H : Hw σ) (P : Platform) (hf : 0 < P.fifo_size)
    (mem : Nat → spi_device) (m : Machine σ) (msg : spi_message)
    (hb : m.spicc.cur_bits_per_word ≠ 0) :
    ∃ m1 msg1 evs, spicc_handle_one_msg H P mem m msg = some (m1, msg1) ∧
      m1.spicc.msg_queue = m.spicc.msg_queue ∧
      m1.spicc.cur_bits_per_word = m.spicc.cur_bits_per_word ∧
      m1.trace = m.trace ++ evs ∧ serial false evs = some false ∧ gate_ons evs = 1 ∧
      msg1.spi = msg.spi ∧ msg1.context = msg.context := by
  obtain ⟨m1, msg1, reprog, xfers, h, hp, _, hx, ht, hq, hbw, _, _, _, h1, h2, _⟩ :=
    handle_one_msg_trace H P hf mem m msg hb
  have hbody : ∀ e ∈ reprog ++ chip_select_actions mem true msg.spi m.spicc.master
      ++ [Event.conreg .enable 1] ++ xfers ++ [Event.conreg .enable 0]
      ++ chip_select_actions mem false msg.spi m.spicc.master, is_body e := by
    intro e he
    simp only [List.mem_append, List.mem_singleton] at he
    rcases he with ((((he | he) | he) | he) | he) | he
    · exact is_body_of_is_reprog e (hp e he)
    · exact is_body_of_is_cs e (chip_select_actions_cs _ _ _ _ e he)
    · subst he; simp [is_body]
    · exact is_body_of_is_loop e (hx e he)
    · subst he; simp [is_body]
    · exact is_body_of_is_cs e (chip_select_actions_cs _ _ _ _ e he)
  refine ⟨m1, msg1, Event.clk_gate_on :: ((reprog
      ++ chip_select_actions mem true msg.spi m.spicc.master
      ++ [Event.conreg .enable 1] ++ xfers ++ [Event.conreg .enable 0]
      ++ chip_select_actions mem false msg.spi m.spicc.master)
      ++ (Event.clk_gate_off :: callback_actions msg)), h, hq, hbw, ?_, ?_, ?_, h1, h2⟩
  · rw [ht]; simp only [List.append_assoc, List.singleton_append, List.cons_append,
      List.nil_append]
  · show serial true _ = _
    rw [serial_append, serial_body _ hbody]
    show serial false (callback_actions msg) = _
    exact serial_callback msg
  · show gate_ons _ + 1 = 1
    rw [gate_ons_append, gate_ons_body _ hbody]
    show 0 + gate_ons (callback_actions msg) + 1 = 1
    rw [gate_ons_callback]


theorem submit_all_spec {σ : Type} :
    ∀ (msgs : List spi_message) (m : Machine σ),
      (submit_all m msgs).spicc.msg_queue = m.spicc.msg_queue ++ msgs.map queued ∧
      (submit_all m msgs).spicc.cur_bits_per_word = m.spicc.cur_bits_per_word ∧
      ∃ evs, (submit_all m msgs).trace = m.trace ++ evs ∧ (∀ b, serial b evs = some b) ∧
        gate_ons evs = 0 := by
  intro msgs
  induction msgs with
  | nil => intro m; exact ⟨by simp [submit_all], rfl, [], by simp [submit_all], fun b => by cases b <;> rfl, rfl⟩
  | cons a l ih =>
    intro m
    obtain ⟨h1, h2, evs, h3, h4, h5⟩ := ih (spicc_transfer m a).2
    have e : submit_all m (a :: l) = submit_all (spicc_transfer m a).2 l := rfl
    rw [e]
    refine ⟨?_, ?_, Event.queue_work :: evs, ?_, ?_, ?_⟩
    · rw [h1]; simp [spicc_transfer, queued]
    · rw [h2]; rfl
    · rw [h3]; simp [spicc_transfer]
    · intro b; cases b <;> simp [serial, h4]
    · simp [gate_ons, h5]

theorem work_loop_spec {σ : Type} (H : Hw σ) (P : Platform) (hf : 0 < P.fifo_size)
    (mem : Nat → spi_device) :
    ∀ (fuel : Nat) (arrivals : List (List spi_message)) (m : Machine σ)
      (done : List spi_message),
      m.spicc.cur_bits_per_word ≠ 0 →
      m.spicc.msg_queue.length + arrivals.flatten.length ≤ fuel →
      ∃ m1 handled evs, work_loop H P mem fuel arrivals m done = some (m1, done ++ handled) ∧
        m1.spicc.msg_queue = [] ∧
        List.Forall₂ (handled_from H P mem)
          (m.spicc.msg_queue ++ (arrivals.take handled.length).flatten.map queued) handled ∧
        m1.trace = m.trace ++ evs ∧ serial false evs = some false ∧
        gate_ons evs = handled.length := by
  intro fuel
  induction fuel with
  | zero =>
    intro arrivals m done _ hl
    have hq : m.spicc.msg_queue = [] := List.length_eq_zero.mp (by omega)
    refine ⟨m, [], [], ?_, hq, ?_, by simp, rfl, rfl⟩
    · unfold work_loop; rw [hq]; simp
    · rw [hq]; simp
  | succ fuel ih =>
    intro arrivals m done hb hl
    cases hq : m.spicc.msg_queue with
    | nil =>
      refine ⟨m, [], [], ?_, hq, ?_, by simp, rfl, rfl⟩
      · unfold work_loop; rw [hq]; simp
      · simp
    | cons msg rest =>
      obtain ⟨s1, s2, evs0, s3, s4, s5⟩ := submit_all_spec (arrivals.headD [])
        ({ m with spicc := { m.spicc with msg_queue := rest } } : Machine σ)
      obtain ⟨m2, msg1, evs1, h1, q1, b1, t1, r1, g1, p1, c1⟩ := handle_one_msg_serial H P hf mem
        (submit_all ({ m with spicc := { m.spicc with msg_queue := rest } } : Machine σ)
          (arrivals.headD [])) msg (by rw [s2]; exact hb)
      have hlen : m2.spicc.msg_queue.length + arrivals.tail.flatten.length ≤ fuel := by
        rw [q1, s1]
        simp only [List.length_append, List.length_map]
        rw [hq] at hl
        cases arrivals with
        | nil => simp at hl ⊢; omega
        | cons a l => simp at hl ⊢; omega
      obtain ⟨m3, handled, evs2, h3, q3, f3, t3, r3, g3⟩ := ih arrivals.tail m2 (done ++ [msg1])
        (by rw [b1, s2]; exact hb) hlen
      refine ⟨m3, msg1 :: handled, evs0 ++ evs1 ++ evs2, ?_, q3, ?_, ?_, ?_, ?_⟩
      · unfold work_loop
        rw [hq]
        simp only [h1, h3, List.append_assoc, List.singleton_append]
      · rw [q1, s1] at f3
        simp only at f3
        have hm : handled_from H P mem msg msg1 := ⟨p1, c1, _, _, h1⟩
        cases arrivals with
        | nil =>
          simp only [List.headD_nil, List.map_nil, List.append_nil, List.tail_nil,
            List.take_nil, List.flatten_nil] at f3 ⊢
          exact List.Forall₂.cons hm f3
        | cons a l =>
          simp only [List.headD_cons, List.tail_cons] at f3
          simp only [List.length_cons, List.take_succ_cons, List.flatten_cons, List.map_append,
            List.cons_append]
          refine List.Forall₂.cons hm ?_
          rw [← List.append_assoc]
          exact f3
      · rw [t3, t1, s3]; simp only [List.append_assoc]
      · rw [serial_append, serial_append, s4 false, Option.some_bind, r1, Option.some_bind, r3]
      · rw [gate_ons_append, gate_ons_append, s5, g1, g3, List.length_cons]; omega


/-- C9: `spicc_transfer` returns 0 and appends the message, with `actual_length` 0
and status `-EINPROGRESS`, at the tail of the queue.  `spicc_work`, for every
hardware and every finite schedule of submissions arriving while the lock is
released, returns with an empty queue; the messages it handled are, in order and
one for one, the results of `spicc_handle_one_msg` on the messages of the queue
followed by the submissions that arrived during its iterations; and the actions
it performed pass the one-at-a-time check with exactly one processing bracket per
handled message. -/
theorem C9_fifo_one_at_a_time {σ : Type} (H : Hw σ) (P : Platform) (hf : 0 < P.fifo_size)
    (mem : Nat → spi_device) (m : Machine σ) (hb : m.spicc.cur_bits_per_word ≠ 0)
    (msg : spi_message) (arrivals : List (List spi_message)) :
    (spicc_transfer m msg).1 = 0 ∧
    (spicc_transfer m msg).2.spicc.msg_queue = m.spicc.msg_queue ++ [queued msg] ∧
    (queued msg).actual_length = 0 ∧ (queued msg).status = -EINPROGRESS ∧
    spicc_work H P mem m = spicc_work_with H P mem [] m ∧
    ∃ m1 handled evs, spicc_work_with H P mem arrivals m = some (m1, handled) ∧
      m1.spicc.msg_queue = [] ∧
      List.Forall₂ (handled_from H P mem)
        (m.spicc.msg_queue ++ (arrivals.take handled.length).flatten.map queued) handled ∧
      m1.trace = m.trace ++ evs ∧ serial false evs = some false ∧
      gate_ons evs = handled.length := by
  refine ⟨rfl, rfl, rfl, rfl, ?_, ?_⟩
  · simp [spicc_work, spicc_work_with]
  · obtain ⟨m1, handled, evs, h, rest⟩ := work_loop_spec H P hf mem
      (m.spicc.msg_queue.length + arrivals.flatten.length) arrivals m [] hb (le_refl _)
    exact ⟨m1, handled, evs, by simpa [spicc_work_with] using h, rest⟩

/-- C9 (witness): two queued messages and one that arrives while the first is handled,
on the loopback hardware. -/
theorem C9_fifo_one_at_a_time_witness :
    ∃ m1 handled, spicc_work_with loopback meson mem2 [[msg_two_bytes]] two_queued
        = some (m1, handled) ∧ m1.spicc.msg_queue = [] := by
  obtain ⟨m1, handled, _, h, hq, _⟩ := (C9_fifo_one_at_a_time loopback meson (by decide) mem2
    two_queued (by decide) msg_two_bytes [[msg_two_bytes]]).2.2.2.2.2
  exact ⟨m1, handled, h, hq⟩


/-! ## Transfer lengths -/

theorem set_clk_hw {σ : Type} (P : Platform) (speed : Int) (m : Machine σ) :
    (spicc_set_clk P speed m).hw = m.hw := rfl

theorem chip_select_actions_gpio (mem : Nat → spi_device) (select : Bool) (spi : Nat)
    (master : spi_master) (hn : (mem spi).mode &&& SPI_NO_CS = 0) (hg : (mem spi).cs_gpio > 0) :
    chip_select_actions mem select spi master
      = [.gpio_out (mem spi).cs_gpio
          (if (mem spi).mode &&& SPI_CS_HIGH ≠ 0 then select else !select)] := by
  unfold chip_select_actions spicc_chip_select spicc_zero
  simp [hn, hg, emit]

/-- C12: for every hardware behaviour and every message, `spicc_handle_one_msg`
returns with the enable bit 0, and the last actions it performed are, after
everything the transfers did: the write `enable = 0`, the actions of
`spicc_chip_select(spicc, 0)` (for a device with its own select line: that line
driven to the inactive level), clock gate off, and the callback. -/
theorem C12_cleanup_always_runs {σ : Type} (H : Hw σ) (P : Platform) (hf : 0 < P.fifo_size)
    (mem : Nat → spi_device) (m : Machine σ) (msg : spi_message)
    (hb : m.spicc.cur_bits_per_word ≠ 0) :
    ∃ m1 msg1 before, spicc_handle_one_msg H P mem m msg = some (m1, msg1) ∧
      m1.spicc.regs.conreg.enable = 0 ∧
      m1.trace = m.trace ++ before ++ [.conreg .enable 0]
        ++ chip_select_actions mem false msg.spi m.spicc.master ++ [.clk_gate_off]
        ++ callback_actions msg ∧
      (∀ e ∈ chip_select_actions mem false msg.spi m.spicc.master, is_cs e) ∧
      ((mem msg.spi).mode &&& SPI_NO_CS = 0 → (mem msg.spi).cs_gpio > 0 →
        chip_select_actions mem false msg.spi m.spicc.master
          = [.gpio_out (mem msg.spi).cs_gpio
              (if (mem msg.spi).mode &&& SPI_CS_HIGH ≠ 0 then false else true)]) := by
  obtain ⟨m1, msg1, reprog, xfers, h, _, _, _, ht, _, _, _, _, hen, _, _, _⟩ :=
    handle_one_msg_trace H P hf mem m msg hb
  refine ⟨m1, msg1, [.clk_gate_on] ++ reprog
      ++ chip_select_actions mem true msg.spi m.spicc.master ++ [.conreg .enable 1] ++ xfers,
    h, hen, ?_, chip_select_actions_cs _ _ _ _, ?_⟩
  · rw [ht]; simp only [List.append_assoc]
  · intro hn hg
    rw [chip_select_actions_gpio mem false msg.spi m.spicc.master hn hg]
    simp

/-- C12 (witness): the statement on hardware on which the first transfer of the
two-byte sample message times out. -/
theorem C12_cleanup_always_runs_witness :
    ∃ m1 msg1, spicc_handle_one_msg (slow 110) meson mem2 (probe (slow 110) meson master2 0)
        msg_two_bytes = some (m1, msg1) ∧ m1.spicc.regs.conreg.enable = 0 := by
  obtain ⟨m1, msg1, _, h, he, _⟩ := C12_cleanup_always_runs (slow 110) meson (by decide) mem2
    (probe (slow 110) meson master2 0) msg_two_bytes (by decide)
  exact ⟨m1, msg1, h, he⟩


/-! ## Bytes counted and chip select per message -/

theorem returns_append (a b : List Event) : returns (a ++ b) = returns a ++ returns b := by
  induction a with
  | nil => rfl
  | cons e a ih => cases e <;> simp [returns, ih]

theorem returns_xfer (evs : List Event) (h : ∀ e ∈ evs, is_xfer e) : returns evs = [] := by
  induction evs with
  | nil => rfl
  | cons e evs ih =>
    have he := h e (by simp)
    have ht := ih (fun e he => h e (by simp [he]))
    cases e <;> simp [returns, is_xfer, ht] at he ⊢

theorem len_sum_zero (ts : List spi_transfer) : len_sum ts 0 = 0 := by
  simp [len_sum]

theorem len_sum_succ (t : spi_transfer) (ts : List spi_transfer) (k : Nat) :
    len_sum (t :: ts) (k + 1) = t.len + len_sum ts k := by
  simp [len_sum]

/-- The transfer loop, for every hardware: it returns; the values returned by its
`spicc_hw_xfer` calls are non-negative except possibly the last, after which no
further call is made; and the resulting `actual_length` is the start value plus
the lengths of the transfers completed before the first failure, modulo 2^32. -/
theorem transfers_loop_results {σ : Type} (H : Hw σ) (P : Platform) (hf : 0 < P.fifo_size)
    (spi : spi_device) :
    ∀ (ts : List spi_transfer) (m : Machine σ) (al : Nat), m.spicc.cur_bits_per_word ≠ 0 →
      al < 4294967296 →
      ∃ m3 al3 ts3 evs, transfers_loop H P spi ts m al = some (m3, al3, ts3) ∧
        m3.trace = m.trace ++ evs ∧
        al3 = (al + len_sum ts (successes (returns evs))) % 4294967296 ∧
        ((successes (returns evs) = (returns evs).length ∧ (returns evs).length = ts.length) ∨
          (successes (returns evs) + 1 = (returns evs).length ∧
            (returns evs).length ≤ ts.length)) ∧
        (∀ f v, Event.conreg f v ∈ evs → ∃ t ∈ ts,
          spi.max_speed_hz ≠ t.speed_hz ∧ t.speed_hz ≠ 0 ∧ f = .data_rate_div ∧
            v = spicc_clk_div P.sys_clk_rate (s32 t.speed_hz)) := by
  intro ts
  induction ts with
  | nil =>
    intro m al _ hal
    refine ⟨m, al, [], [], rfl, by simp, ?_, Or.inl ⟨rfl, rfl⟩, by simp⟩
    simp only [returns, successes, len_sum_zero]
    omega
  | cons t ts ih =>
    intro m al hb hal
    unfold transfers_loop
    simp only
    generalize hm1 : (if spi.max_speed_hz ≠ t.speed_hz ∧ t.speed_hz ≠ 0
      then spicc_set_clk P (s32 t.speed_hz) m else m) = m1
    have hr1 : ∃ e1, m1.trace = m.trace ++ e1 ∧ returns e1 = [] ∧
        m1.spicc.cur_bits_per_word = m.spicc.cur_bits_per_word ∧
        (∀ f v, Event.conreg f v ∈ e1 → spi.max_speed_hz ≠ t.speed_hz ∧ t.speed_hz ≠ 0 ∧
          f = .data_rate_div ∧ v = spicc_clk_div P.sys_clk_rate (s32 t.speed_hz)) := by
      rw [← hm1]; split
      · rename_i hc
        refine ⟨[.conreg .data_rate_div _], rfl, rfl, rfl, ?_⟩
        intro f v hv
        simp only [List.mem_singleton, Event.conreg.injEq] at hv
        exact ⟨hc.1, hc.2, hv.1, hv.2⟩
      · exact ⟨[], by simp, rfl, rfl, by simp⟩
    obtain ⟨e1, t1, r1, b1, d1⟩ := hr1
    have hb1 : m1.spicc.cur_bits_per_word ≠ 0 := by rw [b1]; exact hb
    obtain ⟨r, x1, hx, ⟨hs2, e2, t2, p2⟩⟩ := hw_xfer_returns H P hf m1 t.tx_buf
      (t.rx_buf.map (fun _ => [])) (s32 t.len) (Or.inr hb1)
    have r2 : returns e2 = [] := returns_xfer e2 p2
    have d2 : ∀ f v, Event.conreg f v ∉ e2 := by
      intro f v hv
      have := p2 _ hv
      simp [is_xfer] at this
    rw [hx]
    simp only
    split
    · rename_i hneg
      refine ⟨_, _, _, e1 ++ e2 ++ [.xfer_return r], rfl, ?_, ?_, ?_, ?_⟩
      · simp only [emit_trace, t2, t1, List.append_assoc]
      · simp only [returns_append, r1, r2, returns, List.nil_append, successes, hneg, if_true,
          len_sum_zero]
        omega
      · refine Or.inr ⟨?_, ?_⟩
        · simp [returns_append, r1, r2, returns, successes, hneg]
        · simp [returns_append, r1, r2, returns]
      · intro f v hv
        simp only [List.mem_append, List.mem_singleton] at hv
        rcases hv with (hv | hv) | hv
        · exact ⟨t, by simp, d1 f v hv⟩
        · exact absurd hv (d2 f v)
        · cases hv
    · rename_i hpos
      generalize hm2 : (if t.delay_usecs ≠ 0 then udelay H t.delay_usecs
        (emit (.xfer_return r) x1.m) else emit (.xfer_return r) x1.m) = m2
      have hr3 : ∃ e3, m2.trace = x1.m.trace ++ [.xfer_return r] ++ e3 ∧ returns e3 = [] ∧
          m2.spicc = x1.m.spicc ∧ (∀ f v, Event.conreg f v ∉ e3) := by
        rw [← hm2]; split
        · exact ⟨[.udelay _], rfl, rfl, rfl, by simp⟩
        · exact ⟨[], by simp, rfl, rfl, by simp⟩
      obtain ⟨e3, t3, r3, s3, d3⟩ := hr3
      have hb2 : m2.spicc.cur_bits_per_word ≠ 0 := by rw [s3, hs2]; exact hb1
      obtain ⟨m3, al3, ts3, e4, h4, t4, a4, c4, d4⟩ := ih m2 ((al + t.len) % 4294967296) hb2
        (Nat.mod_lt _ (by norm_num))
      rw [h4]
      refine ⟨_, _, _, e1 ++ e2 ++ [.xfer_return r] ++ e3 ++ e4, rfl, ?_, ?_, ?_, ?_⟩
      · simp only [t4, t3, t2, t1, List.append_assoc]
      · have hret : returns (e1 ++ e2 ++ [Event.xfer_return r] ++ e3 ++ e4) = r :: returns e4 := by
          simp [returns_append, r1, r2, r3, returns]
        rw [hret, a4]
        simp only [successes, hpos, if_false, len_sum_succ]
        omega
      · have hret : returns (e1 ++ e2 ++ [Event.xfer_return r] ++ e3 ++ e4) = r :: returns e4 := by
          simp [returns_append, r1, r2, r3, returns]
        rw [hret]
        simp only [successes, hpos, if_false, List.length_cons]
        rcases c4 with ⟨c1, c2⟩ | ⟨c1, c2⟩
        · exact Or.inl ⟨by omega, by omega⟩
        · exact Or.inr ⟨by omega, by omega⟩
      · intro f v hv
        simp only [List.mem_append, List.mem_singleton] at hv
        rcases hv with (((hv | hv) | hv) | hv) | hv
        · exact ⟨t, by simp, d1 f v hv⟩
        · exact absurd hv (d2 f v)
        · cases hv
        · exact absurd hv (d3 f v)
        · obtain ⟨t4, ht4, hd⟩ := d4 f v hv
          exact ⟨t4, by simp [ht4], hd⟩

theorem handle_one_msg_results {σ : Type} (H : Hw σ) (P : Platform) (hf : 0 < P.fifo_size)
    (mem : Nat → spi_device) (m : Machine σ) (msg : spi_message)
    (hb : m.spicc.cur_bits_per_word ≠ 0) (hal : msg.actual_length < 4294967296) :
    ∃ m1 msg1 reprog xfers, spicc_handle_one_msg H P mem m msg = some (m1, msg1) ∧
      (∀ e ∈ reprog, is_reprog e) ∧ (∀ e ∈ xfers, is_loop e) ∧
      m1.trace = m.trace ++ [.clk_gate_on] ++ reprog
        ++ chip_select_actions mem true msg.spi m.spicc.master ++ [.conreg .enable 1]
        ++ xfers ++ [.conreg .enable 0]
        ++ chip_select_actions mem false msg.spi m.spicc.master ++ [.clk_gate_off]
        ++ callback_actions msg ∧
      msg1.actual_length
        = (msg.actual_length + len_sum msg.transfers (successes (returns xfers))) % 4294967296 ∧
      ((successes (returns xfers) = (returns xfers).length ∧
          (returns xfers).length = msg.transfers.length) ∨
        (successes (returns xfers) + 1 = (returns xfers).length ∧
          (returns xfers).length ≤ msg.transfers.length)) ∧
      msg1.status = 0 ∧ m1.spicc.regs.conreg.enable = 0 ∧
      (∀ f v, Event.conreg f v ∈ xfers → ∃ t ∈ msg.transfers,
        (mem msg.spi).max_speed_hz ≠ t.speed_hz ∧ t.speed_hz ≠ 0 ∧ f = .data_rate_div ∧
          v = spicc_clk_div P.sys_clk_rate (s32 t.speed_hz)) := by
  obtain ⟨reprog, hp, _, ht0, _, hb0, hma0, hsp0, _⟩ := msg_begin_trace P mem m msg
  obtain ⟨m3, al3, ts3, evs, h3, t3, a3, c3, d3⟩ := transfers_loop_results H P hf (mem msg.spi)
    msg.transfers (msg_begin P mem m msg) msg.actual_length (by rw [hb0]; exact hb) hal
  obtain ⟨m3r, al3r, ts3r, h3r, ⟨_, _, ma3, sp3, xfers, ht3, hp3⟩, _⟩ :=
    transfers_loop_runs H P hf (mem msg.spi) msg.transfers
      (msg_begin P mem m msg) msg.actual_length (by rw [hb0]; exact hb)
  rw [h3] at h3r
  simp only [Option.some.injEq, Prod.mk.injEq] at h3r
  obtain ⟨rfl, _, _⟩ := h3r
  have hev : evs = xfers := by
    rw [t3] at ht3
    exact List.append_cancel_left ht3
  subst hev
  have h1 : ∀ k : Machine σ, (msg_complete msg k).trace = k.trace ++ callback_actions msg := by
    intro k
    unfold msg_complete callback_actions
    split <;> simp
  unfold spicc_handle_one_msg
  simp only [h3]
  have h2 : ∀ k : Machine σ, (msg_complete msg k).spicc = k.spicc := by
    intro k
    unfold msg_complete
    split <;> rfl
  refine ⟨_, _, reprog, evs, rfl, hp, hp3, ?_, a3, c3, rfl, ?_, d3⟩
  · rw [h1]
    show (spicc_chip_select mem false (wr_conreg .enable 0 m3)).trace ++ [Event.clk_gate_off]
      ++ _ = _
    rw [chip_select_trace]
    show m3.trace ++ [Event.conreg ConField.enable 0]
      ++ chip_select_actions mem false m3.spicc.spi m3.spicc.master ++ _ ++ _ = _
    rw [t3, ht0, sp3, hsp0, ma3, hma0]
  · rw [h2]
    show (spicc_chip_select mem false (wr_conreg .enable 0 m3)).spicc.regs.conreg.enable = 0
    rw [chip_select_enable]
    simp [wr_conreg, ConReg.write]

theorem cs_part_append (a b : List Event) : cs_part (a ++ b) = cs_part a ++ cs_part b := by
  induction a with
  | nil => rfl
  | cons e a ih =>
    cases e with
    | conreg f v => cases f <;> simp [cs_part, ih]
    | _ => simp [cs_part, ih]

theorem cs_part_cs (evs : List Event) (h : ∀ e ∈ evs, is_cs e) : cs_part evs = evs := by
  induction evs with
  | nil => rfl
  | cons e evs ih =>
    have he := h e (by simp)
    have ht := ih (fun e he => h e (by simp [he]))
    cases e with
    | conreg f v => cases f <;> simp [cs_part, is_cs, ht] at he ⊢
    | _ => simp [cs_part, is_cs, ht] at he ⊢

theorem cs_part_none (evs : List Event) (h : ∀ e ∈ evs, ¬ is_cs e) : cs_part evs = [] := by
  induction evs with
  | nil => rfl
  | cons e evs ih =>
    have he := h e (by simp)
    have ht := ih (fun e he => h e (by simp [he]))
    cases e with
    | conreg f v => cases f <;> simp [cs_part, is_cs, ht] at he ⊢
    | _ => simp [cs_part, is_cs, ht] at he ⊢

theorem not_cs_of_reprog (e : Event) (h : is_reprog e) : ¬ is_cs e := by
  cases e with
  | conreg f v => cases f <;> simp [is_reprog, is_cs] at h ⊢
  | _ => simp [is_reprog, is_cs] at h ⊢

theorem not_cs_of_loop (e : Event) (h : is_loop e) : ¬ is_cs e := by
  cases e with
  | conreg f v => cases f <;> simp [is_loop, is_cs] at h ⊢
  | _ => simp [is_loop, is_cs] at h ⊢

theorem cs_part_callback (msg : spi_message) : cs_part (callback_actions msg) = [] := by
  unfold callback_actions
  split <;> rfl

theorem returns_callback (msg : spi_message) : returns (callback_actions msg) = [] := by
  unfold callback_actions
  split <;> rfl

theorem returns_reprog (evs : List Event) (h : ∀ e ∈ evs, is_reprog e) : returns evs = [] := by
  induction evs with
  | nil => rfl
  | cons e evs ih =>
    have he := h e (by simp)
    have ht := ih (fun e he => h e (by simp [he]))
    cases e <;> simp [returns, is_reprog, ht] at he ⊢

theorem returns_cs (evs : List Event) (h : ∀ e ∈ evs, is_cs e) : returns evs = [] := by
  induction evs with
  | nil => rfl
  | cons e evs ih =>
    have he := h e (by simp)
    have ht := ih (fun e he => h e (by simp [he]))
    cases e <;> simp [returns, is_cs, ht] at he ⊢

set_option maxRecDepth 100000 in
/-- C13 (counterexample): a message of two transfers of 2^31 bytes each without
buffers, on the loopback hardware.  Both `spicc_hw_xfer` calls return 0, so both
transfers completed successfully, and the final `actual_length` is 0, while the
sum of the two lengths is 4294967296: the field is 32 bits wide and the addition
wraps. -/
theorem C13_actual_length_wraps :
    ((spicc_handle_one_msg loopback meson mem2 (probe loopback meson master2 []) msg_huge).map
      (fun r => (returns r.1.trace, r.2.actual_length, r.2.status)))
      = some ([0, 0], 0, 0) ∧
    len_sum msg_huge.transfers 2 = 4294967296 := by
  decide

/-- C13: for every hardware behaviour and every message submitted through
`spicc_transfer` (so processed with `actual_length` 0), `spicc_handle_one_msg`
returns, and with `evs` the actions of the call: its chip-select actions are
exactly those of one `spicc_chip_select(spicc, 1)` followed by those of one
`spicc_chip_select(spicc, 0)`; the `spicc_hw_xfer` calls either all returned a
non-negative value, one per transfer, or all but the last did and no call followed
the failure; and the final `actual_length` is the sum of the lengths of the
transfers completed before the first failure, modulo 2^32. -/
theorem C13_actual_length {σ : Type} (H : Hw σ) (P : Platform) (hf : 0 < P.fifo_size)
    (mem : Nat → spi_device) (m : Machine σ) (msg : spi_message)
    (hb : m.spicc.cur_bits_per_word ≠ 0) :
    ∃ m1 msg1 evs, spicc_handle_one_msg H P mem m (queued msg) = some (m1, msg1) ∧
      m1.trace = m.trace ++ evs ∧
      cs_part evs = chip_select_actions mem true msg.spi m.spicc.master
        ++ chip_select_actions mem false msg.spi m.spicc.master ∧
      ((successes (returns evs) = (returns evs).length ∧
          (returns evs).length = msg.transfers.length) ∨
        (successes (returns evs) + 1 = (returns evs).length ∧
          (returns evs).length ≤ msg.transfers.length)) ∧
      msg1.actual_length = len_sum msg.transfers (successes (returns evs)) % 4294967296 := by
  obtain ⟨m1, msg1, reprog, xfers, hh, hp, hx, ht, ha, hc, _, _, _⟩ :=
    handle_one_msg_results H P hf mem m (queued msg) hb (by simp [queued])
  have hsel := chip_select_actions_cs mem true msg.spi m.spicc.master
  have hdes := chip_select_actions_cs mem false msg.spi m.spicc.master
  have hspi : (queued msg).spi = msg.spi := rfl
  have htr : (queued msg).transfers = msg.transfers := rfl
  have hal : (queued msg).actual_length = 0 := rfl
  rw [hspi] at ht
  rw [htr] at ha hc
  rw [hal, Nat.zero_add] at ha
  have hret : returns ([Event.clk_gate_on] ++ reprog
      ++ chip_select_actions mem true msg.spi m.spicc.master ++ [.conreg .enable 1]
      ++ xfers ++ [.conreg .enable 0]
      ++ chip_select_actions mem false msg.spi m.spicc.master ++ [.clk_gate_off]
      ++ callback_actions (queued msg)) = returns xfers := by
    simp [returns_append, returns_reprog reprog hp, returns_cs _ hsel, returns_cs _ hdes,
      returns_callback, returns]
  refine ⟨m1, msg1, [.clk_gate_on] ++ reprog
      ++ chip_select_actions mem true msg.spi m.spicc.master ++ [.conreg .enable 1]
      ++ xfers ++ [.conreg .enable 0]
      ++ chip_select_actions mem false msg.spi m.spicc.master ++ [.clk_gate_off]
      ++ callback_actions (queued msg), hh, ?_, ?_, ?_, ?_⟩
  · rw [ht]; simp only [List.append_assoc]
  · simp [cs_part_append, cs_part_cs _ hsel, cs_part_cs _ hdes, cs_part_callback,
      cs_part_none reprog (fun e he => not_cs_of_reprog e (hp e he)),
      cs_part_none xfers (fun e he => not_cs_of_loop e (hx e he)), cs_part]
  · rw [hret]; exact hc
  · rw [hret]; exact ha

set_option maxRecDepth 100000 in
/-- C13 (witness): the statement for the scenario message, transfers of 4 and of 8
bytes at word size 8 on the loopback hardware; there both transfers succeed, the
final `actual_length` is 12, the status is 0, and the enable bit is 0. -/
theorem C13_actual_length_witness :
    (∃ m1 msg1 evs, spicc_handle_one_msg loopback meson mem2 (probe loopback meson master2 [])
        (queued msg_scenario) = some (m1, msg1) ∧
      m1.trace = (probe loopback meson master2 []).trace ++ evs ∧
      cs_part evs = chip_select_actions mem2 true msg_scenario.spi
          (probe loopback meson master2 []).spicc.master
        ++ chip_select_actions mem2 false msg_scenario.spi
          (probe loopback meson master2 []).spicc.master ∧
      ((successes (returns evs) = (returns evs).length ∧
          (returns evs).length = msg_scenario.transfers.length) ∨
        (successes (returns evs) + 1 = (returns evs).length ∧
          (returns evs).length ≤ msg_scenario.transfers.length)) ∧
      msg1.actual_length
        = len_sum msg_scenario.transfers (successes (returns evs)) % 4294967296) ∧
    ((spicc_handle_one_msg loopback meson mem2 (probe loopback meson master2 [])
        msg_scenario).map
      (fun r => (returns r.1.trace, r.2.actual_length, r.2.status,
        r.1.spicc.regs.conreg.enable))) = some ([0, 0], 12, 0, 0) :=
  ⟨C13_actual_length loopback meson (by decide) mem2 (probe loopback meson master2 [])
    msg_scenario (by decide), by decide⟩


/-! ## The divider as a function of the requested rate -/

theorem ulong_s32 (r : Nat) (h : r < 4294967296) : ulong (s32 (r : Int)) = r := by
  unfold ulong ULONG_MOD s32
  split <;> omega

theorem set_clk_loop_anti (a b : Nat) (h : a ≤ b) :
    ∀ (n div mid : Nat), set_clk_loop b n div mid ≤ set_clk_loop a n div mid := by
  intro n
  induction n with
  | zero => intro div mid; simp [set_clk_loop]
  | succ n ih =>
    intro div mid
    unfold set_clk_loop
    by_cases ha : a ≥ mid
    · have hb : b ≥ mid := by omega
      simp [ha, hb]
    · by_cases hb : b ≥ mid
      · simp only [ha, hb, if_true, if_false]
        have := (set_clk_loop_spec a n (div + 1) (mid >>> 1)).1
        omega
      · simp only [ha, hb, if_false]
        exact ih (div + 1) (mid >>> 1)

/-- C14: for every source clock rate and all requested rates `r1 ≤ r2` (values
of the 32-bit rate fields, handed to `spicc_set_clk` as its `int` argument), the
divider code chosen for `r2` is not larger than the one chosen for `r1`, and the
achieved rate `sys_clk_rate >> (div + 2)` for `r2` is not lower than the one for
`r1`. -/
theorem C14_divider_monotone (S r1 r2 : Nat) (h12 : r1 ≤ r2) (h2 : r2 < 4294967296) :
    spicc_clk_div S (s32 r2) ≤ spicc_clk_div S (s32 r1) ∧
    actual_speed S (spicc_clk_div S (s32 r1)) ≤ actual_speed S (spicc_clk_div S (s32 r2)) := by
  have hd : spicc_clk_div S (s32 r2) ≤ spicc_clk_div S (s32 r1) := by
    unfold spicc_clk_div
    rw [ulong_s32 r1 (by omega), ulong_s32 r2 h2]
    exact set_clk_loop_anti r1 r2 h12 _ _ _
  exact ⟨hd, actual_speed_anti S hd⟩

/-- C14 (witness): 1 MHz and 10 MHz at the 159.375 MHz source clock: codes 5 and 2. -/
theorem C14_divider_monotone_witness :
    spicc_clk_div 159375000 (s32 (10000000 : Nat)) ≤ spicc_clk_div 159375000 (s32 (1000000 : Nat)) ∧
    actual_speed 159375000 (spicc_clk_div 159375000 (s32 (1000000 : Nat)))
      ≤ actual_speed 159375000 (spicc_clk_div 159375000 (s32 (10000000 : Nat))) :=
  C14_divider_monotone 159375000 1000000 10000000 (by decide) (by decide)

/-- C15 (counterexample): with the source clock at 40,000,000 Hz and 50,000,000 Hz
requested, the achieved rate of the chosen code, `sys_clk_rate >> (div + 2)`, is
10,000,000 Hz, which is 29,843,750 Hz away from 39,843,750 Hz. -/
theorem C15_achieved_rate_is_ten_mhz :
    actual_speed 40000000 (spicc_clk_div 40000000 50000000) = 10000000 ∧
    actual_speed 40000000 (spicc_clk_div 40000000 50000000) + 29843750 = 39843750 := by
  decide

/-- C15 (amended): with the source clock at 40,000,000 Hz and 50,000,000 Hz
requested, `spicc_set_clk` (which returns nothing and has no error path) writes
divider code 0 and records the requested rate; the achieved rate for that code is
10,000,000 Hz and does not exceed the requested rate.  The rate 39,843,750 Hz is the
one code 0 gives at the source clock 159,375,000 Hz. -/
theorem C15_fastest_code {σ : Type} (fifo pio : Nat) (m : Machine σ) :
    spicc_clk_div 40000000 50000000 = 0 ∧
    (spicc_set_clk ⟨40000000, fifo, pio⟩ 50000000 m).spicc.regs.conreg.data_rate_div = 0 ∧
    (spicc_set_clk ⟨40000000, fifo, pio⟩ 50000000 m).spicc.cur_speed = 50000000 ∧
    (spicc_set_clk ⟨40000000, fifo, pio⟩ 50000000 m).trace
      = m.trace ++ [.conreg .data_rate_div 0] ∧
    actual_speed 40000000 0 = 10000000 ∧
    actual_speed 40000000 0 ≤ 50000000 ∧
    actual_speed 159375000 (spicc_clk_div 159375000 50000000) = 39843750 := by
  have h : spicc_clk_div 40000000 50000000 = 0 := by decide
  refine ⟨h, ?_, rfl, ?_, by decide, by decide, by decide⟩
  · show (m.spicc.regs.conreg.write .data_rate_div (spicc_clk_div 40000000 50000000)).data_rate_div
      = 0
    rw [h]; rfl
  · show m.trace ++ [Event.conreg .data_rate_div (spicc_clk_div 40000000 50000000)] = _
    rw [h]

/-- C19: `spicc_set_clk` is a total function without an error result.  For every
source clock rate `S` with `S * 3 < 2^32` and every requested rate `r` (a value
of the 32-bit rate fields, handed over as the `int` argument), the divider code
it writes is in 0..7; it is the smallest `d` in 0..6 with
`r ≥ ((S * 3) >> 4) >> d` when such a `d` exists; and it is 7 for every `r`
below the last threshold `((S * 3) >> 4) >> 6`. -/
theorem C19_divider_code {σ : Type} (P : Platform) (r : Nat) (m : Machine σ)
    (hS : P.sys_clk_rate * 3 < 4294967296) (hr : r < 4294967296) :
    (spicc_set_clk P (s32 r) m).spicc.regs.conreg.data_rate_div
      = spicc_clk_div P.sys_clk_rate (s32 r) ∧
    spicc_clk_div P.sys_clk_rate (s32 r) ≤ 7 ∧
    (∀ d, d ≤ 6 → ((P.sys_clk_rate * 3) >>> 4) >>> d ≤ r →
      spicc_clk_div P.sys_clk_rate (s32 r) ≤ d ∧
      ((P.sys_clk_rate * 3) >>> 4) >>> spicc_clk_div P.sys_clk_rate (s32 r) ≤ r ∧
      ∀ k, k < spicc_clk_div P.sys_clk_rate (s32 r) → r < ((P.sys_clk_rate * 3) >>> 4) >>> k) ∧
    (r < ((P.sys_clk_rate * 3) >>> 4) >>> 6 → spicc_clk_div P.sys_clk_rate (s32 r) = 7) := by
  have hdef : spicc_clk_div P.sys_clk_rate (s32 r)
      = set_clk_loop r 7 0 ((P.sys_clk_rate * 3) >>> 4) := by
    unfold spicc_clk_div
    rw [ulong_s32 r hr, Nat.mod_eq_of_lt (show P.sys_clk_rate * 3 < ULONG_MOD from hS)]
  obtain ⟨_, h2, h3, h4⟩ := set_clk_loop_spec r 7 0 ((P.sys_clk_rate * 3) >>> 4)
  rw [hdef]
  refine ⟨?_, by omega, ?_, ?_⟩
  · show (m.spicc.regs.conreg.write .data_rate_div
      (spicc_clk_div P.sys_clk_rate (s32 r))).data_rate_div = _
    rw [hdef]; rfl
  · intro d hd hle
    have hlt : set_clk_loop r 7 0 ((P.sys_clk_rate * 3) >>> 4) ≤ d := by
      by_contra hc
      have := h3 d (by omega)
      omega
    refine ⟨hlt, ?_, ?_⟩
    · have := h4 (by omega)
      simpa using this
    · intro k hk
      exact h3 k (by omega)
  · intro hlast
    by_contra hc
    have hlt : set_clk_loop r 7 0 ((P.sys_clk_rate * 3) >>> 4) < 0 + 7 := by omega
    have h5 := h4 hlt
    simp only [Nat.sub_zero] at h5
    generalize set_clk_loop r 7 0 ((P.sys_clk_rate * 3) >>> 4) = c at hlt h5
    generalize (P.sys_clk_rate * 3) >>> 4 = mid at hlast h5
    have hmono : mid >>> 6 ≤ mid >>> c := by
      rw [Nat.shiftRight_eq_div_pow, Nat.shiftRight_eq_div_pow]
      have hp : 2 ^ c ≤ 2 ^ 6 := Nat.pow_le_pow_right (by norm_num) (by omega)
      have hpos : 0 < 2 ^ c := Nat.pow_pos (by norm_num)
      exact Nat.div_le_div_left hp hpos
    omega

/-- C19 (witness): 100 kHz at the 159.375 MHz source clock is below the last
threshold 466,918 and gets code 7; 1 MHz gets code 5. -/
theorem C19_divider_code_witness :
    spicc_clk_div meson.sys_clk_rate (s32 (100000 : Nat)) = 7 ∧
    spicc_clk_div meson.sys_clk_rate (s32 (1000000 : Nat)) ≤ 5 :=
  ⟨(C19_divider_code meson 100000 (probe loopback meson master2 []) (by decide) (by decide)).2.2.2
      (by decide),
    ((C19_divider_code meson 1000000 (probe loopback meson master2 []) (by decide)
      (by decide)).2.2.1 5 (by decide) (by decide)).1⟩


/-! ## Chip select paths -/

/-- C17 (counterexample): a device without `SPI_NO_CS`, with `cs_gpio = 0` and chip
select index 0 below the channel count 2, on a master whose `cs_gpios[0]` is 5:
`spicc_chip_select(spicc, 1)` drives GPIO 5 low and writes no register field.  And
for a device with `SPI_NO_CS`, neither a line is driven nor a field written. -/
theorem C17_master_line_driven :
    dev8.mode &&& SPI_NO_CS = 0 ∧ dev8.cs_gpio ≤ 0 ∧
    dev8.chip_select < master_gpio.num_chipselect ∧
    chip_select_actions (fun _ => dev8) true 1 master_gpio = [.gpio_out 5 false] ∧
    (spicc_chip_select (fun _ => dev8) true (probe loopback meson master_gpio [])).spicc.regs
      = (probe loopback meson master_gpio []).spicc.regs ∧
    chip_select_actions (fun _ => dev_nocs) true 1 master_gpio = [] := by
  decide

/-- C17 (amended): for a device without `SPI_NO_CS`, with `cs_gpio ≤ 0` and a chip
select index below the channel count, `spicc_chip_select` looks at the master's
`cs_gpios[index]`: when that is not positive it writes the index, polarity and
control fields of the control register and drives no line; when it is positive it
drives that line and writes no field.  For every device the actions never contain
both a line and a field write; a device with `SPI_NO_CS` gets neither, and so does
a device without `SPI_NO_CS`, with `cs_gpio ≤ 0` and a chip select index that is
not below the channel count: for it the call changes nothing. -/
theorem C17_select_paths {σ : Type} (mem : Nat → spi_device) (select : Bool) (m : Machine σ) :
    ((mem m.spicc.spi).mode &&& SPI_NO_CS = 0 → (mem m.spicc.spi).cs_gpio ≤ 0 →
      (mem m.spicc.spi).chip_select < m.spicc.master.num_chipselect →
      (m.spicc.master.cs_gpios.getD (mem m.spicc.spi).chip_select 0 ≤ 0 →
        spicc_chip_select mem select m
          = wr_conreg .ss_ctl (decide ((mem m.spicc.spi).mode &&& SPI_CS_HIGH ≠ 0)).toNat
              (wr_conreg .ss_pol (decide ((mem m.spicc.spi).mode &&& SPI_CS_HIGH ≠ 0)).toNat
                (wr_conreg .chip_select (mem m.spicc.spi).chip_select m)) ∧
        chip_select_actions mem select m.spicc.spi m.spicc.master
          = [.conreg .chip_select (mem m.spicc.spi).chip_select,
             .conreg .ss_pol (decide ((mem m.spicc.spi).mode &&& SPI_CS_HIGH ≠ 0)).toNat,
             .conreg .ss_ctl (decide ((mem m.spicc.spi).mode &&& SPI_CS_HIGH ≠ 0)).toNat]) ∧
      (m.spicc.master.cs_gpios.getD (mem m.spicc.spi).chip_select 0 > 0 →
        spicc_chip_select mem select m
          = emit (.gpio_out (m.spicc.master.cs_gpios.getD (mem m.spicc.spi).chip_select 0)
              (if (mem m.spicc.spi).mode &&& SPI_CS_HIGH ≠ 0 then select else !select)) m)) ∧
    (spicc_chip_select mem select m).trace
      = m.trace ++ chip_select_actions mem select m.spicc.spi m.spicc.master ∧
    ¬ (drives_line (chip_select_actions mem select m.spicc.spi m.spicc.master) = true ∧
      programs_select (chip_select_actions mem select m.spicc.spi m.spicc.master) = true) ∧
    ((mem m.spicc.spi).mode &&& SPI_NO_CS ≠ 0 →
      chip_select_actions mem select m.spicc.spi m.spicc.master = []) ∧
    ((mem m.spicc.spi).mode &&& SPI_NO_CS = 0 → (mem m.spicc.spi).cs_gpio ≤ 0 →
      ¬ (mem m.spicc.spi).chip_select < m.spicc.master.num_chipselect →
      spicc_chip_select mem select m = m ∧
      chip_select_actions mem select m.spicc.spi m.spicc.master = []) := by
  refine ⟨?_, chip_select_trace mem select m, ?_, ?_, ?_⟩
  · intro hn hg hi
    have hg1 : ¬ (mem m.spicc.spi).cs_gpio > 0 := by omega
    refine ⟨?_, ?_⟩
    · intro hm
      rw [List.getD_eq_getElem?_getD] at hm
      have hm1 : ¬ 0 < m.spicc.master.cs_gpios[(mem m.spicc.spi).chip_select]?.getD 0 := by
        omega
      refine ⟨?_, ?_⟩
      · unfold spicc_chip_select
        simp [hn, hg1, hi, hm1]
      · unfold chip_select_actions spicc_chip_select spicc_zero
        simp [hn, hg1, hi, hm1, wr_conreg, emit]
    · intro hm
      rw [gt_iff_lt, List.getD_eq_getElem?_getD] at hm
      unfold spicc_chip_select
      simp [hn, hg1, hi, hm]
  · unfold chip_select_actions spicc_chip_select spicc_zero
    simp only
    split
    · simp [drives_line]
    · split
      · simp [emit, drives_line, programs_select]
      · split
        · split
          · simp [emit, drives_line, programs_select]
          · simp [wr_conreg, emit, drives_line, programs_select]
        · simp [drives_line]
  · intro hn
    unfold chip_select_actions spicc_chip_select spicc_zero
    simp [hn]
  · intro hn hg hi
    have hg1 : ¬ (mem m.spicc.spi).cs_gpio > 0 := by omega
    refine ⟨?_, ?_⟩
    · unfold spicc_chip_select
      simp [hn, hg1, hi]
    · unfold chip_select_actions spicc_chip_select spicc_zero
      simp [hn, hg1, hi]

/-- C17 (witness): the 8-bit sample device on the sample master without select GPIOs
takes the register path; on the master with GPIO 5 for channel 0 it takes the
line path; the device with chip select index 5 on a master with two channels takes
neither. -/
theorem C17_select_paths_witness :
    chip_select_actions mem2 true 1 master2
      = [.conreg .chip_select 0, .conreg .ss_pol 0, .conreg .ss_ctl 0] ∧
    spicc_chip_select mem2 true
        (⟨{ spicc_zero master_gpio with spi := 1 }, (), []⟩ : Machine Unit)
      = emit (.gpio_out 5 false) ⟨{ spicc_zero master_gpio with spi := 1 }, (), []⟩ ∧
    spicc_chip_select (fun _ => dev_far) true (probe loopback meson master_gpio [])
      = probe loopback meson master_gpio [] :=
  ⟨(((C17_select_paths mem2 true
      (⟨{ spicc_zero master2 with spi := 1 }, (), []⟩ : Machine Unit)).1
      (by decide) (by decide) (by decide)).1 (by decide)).2,
   ((C17_select_paths mem2 true
      (⟨{ spicc_zero master_gpio with spi := 1 }, (), []⟩ : Machine Unit)).1
      (by decide) (by decide) (by decide)).2 (by decide),
   ((C17_select_paths (fun _ => dev_far) true (probe loopback meson master_gpio [])).2.2.2.2
      (by decide) (by decide) (by decide)).1⟩

/-- C18: for a device with `SPI_NO_CS`, `spicc_chip_select` changes nothing: no line
is driven and no register written.  For any other device with its own select line
(`cs_gpio > 0`), `spicc_chip_select(spicc, select)` drives that line to the level
(device is active-low) XOR `select` and changes nothing else, so the register
fields are as before. -/
theorem C18_no_cs_and_own_line {σ : Type} (mem : Nat → spi_device) (select : Bool)
    (m : Machine σ) :
    ((mem m.spicc.spi).mode &&& SPI_NO_CS ≠ 0 → spicc_chip_select mem select m = m) ∧
    ((mem m.spicc.spi).mode &&& SPI_NO_CS = 0 → (mem m.spicc.spi).cs_gpio > 0 →
      spicc_chip_select mem select m
        = emit (.gpio_out (mem m.spicc.spi).cs_gpio
            (Bool.xor (decide ((mem m.spicc.spi).mode &&& SPI_CS_HIGH = 0)) select)) m ∧
      (spicc_chip_select mem select m).spicc = m.spicc ∧
      (spicc_chip_select mem select m).hw = m.hw) := by
  refine ⟨?_, ?_⟩
  · intro hn
    unfold spicc_chip_select
    simp [hn]
  · intro hn hg
    have h : spicc_chip_select mem select m
        = emit (.gpio_out (mem m.spicc.spi).cs_gpio
            (Bool.xor (decide ((mem m.spicc.spi).mode &&& SPI_CS_HIGH = 0)) select)) m := by
      unfold spicc_chip_select
      simp only [hn, hg, ne_eq, not_true_eq_false, if_false, if_true]
      by_cases hp : (mem m.spicc.spi).mode &&& SPI_CS_HIGH = 0 <;> cases select <;> simp [hp]
    refine ⟨h, ?_, ?_⟩
    · rw [h]; rfl
    · rw [h]; rfl

/-- C18 (witness): a `SPI_NO_CS` device is left alone; the active-low device on GPIO
17 gets the line low when selected and high when deselected. -/
theorem C18_no_cs_and_own_line_witness :
    spicc_chip_select (fun _ => dev_nocs) true (probe loopback meson master2 [])
      = probe loopback meson master2 [] ∧
    spicc_chip_select (fun _ => dev_gpio) true (probe loopback meson master2 [])
      = emit (.gpio_out 17 false) (probe loopback meson master2 []) ∧
    spicc_chip_select (fun _ => dev_gpio) false (probe loopback meson master2 [])
      = emit (.gpio_out 17 true) (probe loopback meson master2 []) :=
  ⟨(C18_no_cs_and_own_line (fun _ => dev_nocs) true (probe loopback meson master2 [])).1
      (by decide),
   ((C18_no_cs_and_own_line (fun _ => dev_gpio) true (probe loopback meson master2 [])).2
      (by decide) (by decide)).1,
   ((C18_no_cs_and_own_line (fun _ => dev_gpio) false (probe loopback meson master2 [])).2
      (by decide) (by decide)).1⟩


/-! ## The current word size is always supported -/

theorem hw_init_bits {σ : Type} (H : Hw σ) (P : Platform) (m : Machine σ) :
    (spicc_hw_init H P m).spicc.cur_bits_per_word = 8 := by
  unfold spicc_hw_init spicc_set_clk spicc_set_mode
  simp only
  split <;> rfl

theorem setup_bits {σ : Type} (H : Hw σ) (P : Platform) (m m1 : Machine σ) (spi : spi_device)
    (r : Int) (hs : supported m.spicc.cur_bits_per_word)
    (h : spicc_setup H P (some m) spi = (r, some m1)) :
    supported m1.spicc.cur_bits_per_word := by
  unfold spicc_setup at h
  simp only at h
  split at h
  · simp only [Prod.mk.injEq, Option.some.injEq] at h
    rw [← h.2]; exact hs
  · rename_i hv
    have hsup : supported spi.bits_per_word := by
      unfold supported
      by_contra hc
      exact hv ⟨fun e => hc (Or.inl e), fun e => hc (Or.inr (Or.inl e)),
        fun e => hc (Or.inr (Or.inr e))⟩
    split at h
    · simp only [Prod.mk.injEq, Option.some.injEq] at h
      rw [← h.2]
      exact hsup
    · simp only [Prod.mk.injEq, Option.some.injEq] at h
      rw [← h.2]; exact hs

theorem supported_ne_zero (bits : Nat) (h : supported bits) : bits ≠ 0 := by
  rcases h with h | h | h <;> omega

theorem work_loop_bits {σ : Type} (H : Hw σ) (P : Platform) (hf : 0 < P.fifo_size)
    (mem : Nat → spi_device) :
    ∀ (fuel : Nat) (arrivals : List (List spi_message)) (m : Machine σ)
      (done : List spi_message) (m1 : Machine σ) (handled : List spi_message),
      m.spicc.cur_bits_per_word ≠ 0 →
      work_loop H P mem fuel arrivals m done = some (m1, handled) →
      m1.spicc.cur_bits_per_word = m.spicc.cur_bits_per_word := by
  intro fuel
  induction fuel with
  | zero =>
    intro arrivals m done m1 handled _ h
    unfold work_loop at h
    cases hq : m.spicc.msg_queue with
    | nil =>
      rw [hq] at h
      simp only [Option.some.injEq, Prod.mk.injEq] at h
      rw [← h.1]
    | cons a l =>
      rw [hq] at h
      simp at h
  | succ fuel ih =>
    intro arrivals m done m1 handled hb h
    unfold work_loop at h
    cases hq : m.spicc.msg_queue with
    | nil =>
      rw [hq] at h
      simp only [Option.some.injEq, Prod.mk.injEq] at h
      rw [← h.1]
    | cons msg rest =>
      rw [hq] at h
      obtain ⟨_, s2, _⟩ := submit_all_spec (arrivals.headD [])
        ({ m with spicc := { m.spicc with msg_queue := rest } } : Machine σ)
      obtain ⟨m2, msg1, _, h1, _, b1, _⟩ := handle_one_msg_serial H P hf mem
        (submit_all ({ m with spicc := { m.spicc with msg_queue := rest } } : Machine σ)
          (arrivals.headD [])) msg (by rw [s2]; exact hb)
      simp only [h1] at h
      have := ih arrivals.tail m2 (done ++ [msg1]) m1 handled (by rw [b1, s2]; exact hb) h
      rw [this, b1, s2]

theorem reachable_supported {σ : Type} (H : Hw σ) (P : Platform) (hf : 0 < P.fifo_size)
    (mem : Nat → spi_device) (m : Machine σ) (h : Reachable H P mem m) :
    supported m.spicc.cur_bits_per_word := by
  induction h with
  | hw_init m => rw [hw_init_bits]; exact Or.inl rfl
  | setup m m1 spi r _ hs ih => exact setup_bits H P m m1 spi r ih hs
  | transfer m msg _ ih => exact ih
  | handle_one_msg m m1 msg msg1 _ hh ih =>
    obtain ⟨m2, msg2, _, h1, _, b1, _⟩ := handle_one_msg_serial H P hf mem m msg
      (supported_ne_zero _ ih)
    rw [h1] at hh
    simp only [Option.some.injEq, Prod.mk.injEq] at hh
    rw [← hh.1, b1]; exact ih
  | work m m1 arrivals handled _ hw ih =>
    have := work_loop_bits H P hf mem _ arrivals m [] m1 handled (supported_ne_zero _ ih) hw
    rw [this]; exact ih

/-- C20: `cur_bits_per_word` is 8 after `spicc_hw_init`, and in every state reached
from there by `spicc_setup` (accepted or rejected), `spicc_transfer`,
`spicc_handle_one_msg` and `spicc_work` calls it is one of 8, 16, 32.  So in every
reachable state the divisor of the word count in `spicc_hw_xfer` is not zero, and
every `spicc_hw_xfer` call returns, with 0 or `-ETIMEDOUT`: never the -1 of the
two `default:` labels. -/
theorem C20_word_size_supported {σ : Type} (H : Hw σ) (P : Platform) (hf : 0 < P.fifo_size)
    (mem : Nat → spi_device) (m : Machine σ) (h : Reachable H P mem m) :
    (∀ m0 : Machine σ, (spicc_hw_init H P m0).spicc.cur_bits_per_word = 8) ∧
    supported m.spicc.cur_bits_per_word ∧
    m.spicc.cur_bits_per_word ≠ 0 ∧
    ∀ (txp rxp : Option (List Nat)) (len : Int),
      ∃ r x, spicc_hw_xfer H P m txp rxp len = some (r, x) ∧ (r = 0 ∨ r = -ETIMEDOUT) ∧
        r ≠ -1 := by
  have hs := reachable_supported H P hf mem m h
  refine ⟨hw_init_bits H P, hs, supported_ne_zero _ hs, ?_⟩
  intro txp rxp len
  obtain ⟨r, x, hx, _⟩ := hw_xfer_returns H P hf m txp rxp len (Or.inr (supported_ne_zero _ hs))
  have hx2 := hx
  unfold spicc_hw_xfer at hx2
  simp only [supported_ne_zero _ hs, and_false, if_false] at hx2
  obtain ⟨_, hr, _⟩ := xfer_loop_tx_words H P _ _ ⟨m, txp, rxp⟩ r x hs hx2
  refine ⟨r, x, hx, hr, ?_⟩
  rcases hr with hr | hr <;> rw [hr] <;> decide

/-- C20 (witness): the state after `spicc_hw_init`, a rejected `spicc_setup` (word
size 12) and a submission. -/
theorem C20_word_size_supported_witness :
    supported (spicc_transfer (probe loopback meson master2 []) msg_two_bytes).2.spicc.cur_bits_per_word ∧
    ∃ r x, spicc_hw_xfer loopback meson
        (spicc_transfer (probe loopback meson master2 []) msg_two_bytes).2 (some [1]) none 1
          = some (r, x) ∧ (r = 0 ∨ r = -ETIMEDOUT) ∧ r ≠ -1 :=
  have h := C20_word_size_supported loopback meson (by decide) mem2
    (spicc_transfer (probe loopback meson master2 []) msg_two_bytes).2
    (Reachable.transfer _ msg_two_bytes
      (Reachable.setup (probe loopback meson master2 []) (probe loopback meson master2 [])
        ⟨1000000, 0, 0, 12, 0⟩ (-EINVAL) (Reachable.hw_init _) (by simp [spicc_setup])))
  ⟨h.2.1, h.2.2.2 (some [1]) none 1⟩


/-! ## Register programming and the enable bit -/

theorem unguarded_quiet_append (l l2 : List Event) (h : ∀ e ∈ l, keeps_enable e) :
    ∀ en, unguarded en (l ++ l2) = unguarded en l ++ unguarded en l2 := by
  induction l with
  | nil => intro en; simp [unguarded]
  | cons e l ih =>
    intro en
    have he := h e (by simp)
    have ht := ih (fun e he => h e (by simp [he]))
    cases e with
    | conreg f v =>
      cases f <;> simp [unguarded, keeps_enable, guarded_field, ht] at he ⊢
      all_goals split <;> simp
    | _ => simp [unguarded, ht]

theorem unguarded_zero (l : List Event) (h : ∀ e ∈ l, keeps_enable e) : unguarded 0 l = [] := by
  induction l with
  | nil => rfl
  | cons e l ih =>
    have he := h e (by simp)
    have ht := ih (fun e he => h e (by simp [he]))
    cases e with
    | conreg f v => cases f <;> simp [unguarded, keeps_enable, ht] at he ⊢
    | _ => simp [unguarded, ht]

theorem unguarded_mem : ∀ (l : List Event) (en : Nat) (e : Event), e ∈ unguarded en l →
    ∃ f v, e = .conreg f v ∧ Event.conreg f v ∈ l := by
  intro l
  induction l with
  | nil => intro en e h; simp [unguarded] at h
  | cons a l ih =>
    intro en e h
    have hrec : ∀ en1, e ∈ unguarded en1 l → ∃ f v, e = .conreg f v ∧
        Event.conreg f v ∈ a :: l := by
      intro en1 h1
      obtain ⟨f, v, h2, h3⟩ := ih en1 e h1
      exact ⟨f, v, h2, by simp [h3]⟩
    cases a with
    | conreg f v =>
      unfold unguarded at h
      split at h
      · exact hrec _ h
      · split at h
        · simp only [List.mem_cons] at h
          rcases h with h | h
          · exact ⟨f, v, h, by simp⟩
          · exact hrec _ h
        · exact hrec _ h
    | _ =>
      unfold unguarded at h
      exact hrec _ h

theorem keeps_enable_of_reprog (e : Event) (h : is_reprog e) : keeps_enable e := by
  cases e with
  | conreg f v => cases f <;> simp [is_reprog, keeps_enable] at h ⊢
  | _ => simp [keeps_enable]

theorem keeps_enable_of_cs (e : Event) (h : is_cs e) : keeps_enable e := by
  cases e with
  | conreg f v => cases f <;> simp [is_cs, keeps_enable] at h ⊢
  | _ => simp [keeps_enable]

theorem keeps_enable_of_loop (e : Event) (h : is_loop e) : keeps_enable e := by
  cases e with
  | conreg f v => cases f <;> simp [is_loop, keeps_enable] at h ⊢
  | _ => simp [keeps_enable]

theorem keeps_enable_callback (msg : spi_message) :
    ∀ e ∈ callback_actions msg, keeps_enable e := by
  unfold callback_actions
  split <;> simp [keeps_enable]

theorem hw_init_unguarded {σ : Type} (H : Hw σ) (P : Platform) (k : Machine σ) :
    ∃ evs, (spicc_hw_init H P k).trace = k.trace ++ evs ∧ (∀ en, unguarded en evs = []) ∧
      (spicc_hw_init H P k).spicc.regs.conreg.enable = 0 := by
  refine ⟨[.clk_gate_on, .udelay 10, .testreg (k.spicc.regs.testreg ||| (1 <<< 24)),
    .conreg .enable 0, .conreg .mode 1, .conreg .xch 0, .conreg .smc P.smc_pio,
    .conreg .bits_per_word 7, .conreg .clk_pha 0, .conreg .clk_pol 0, .conreg .drctl 0,
    .pad .PULL_UP_EN_REG4 1 10 1, .pad .PULL_UP_REG4 0 10 1, .pad .PULL_UP_EN_REG4 1 8 1,
    .pad .PULL_UP_REG4 0 8 1, .conreg .data_rate_div (spicc_clk_div P.sys_clk_rate 3000000),
    .conreg .ss_ctl 1, .conreg .ss_pol 0], ?_, ?_, ?_⟩
  · simp [spicc_hw_init, spicc_set_clk, spicc_set_mode, wr_conreg, emit, udelay, SPI_MODE_0,
      SPI_CPOL, SPI_CPHA]
  · intro en
    simp [unguarded, guarded_field]
  · simp [spicc_hw_init, spicc_set_clk, spicc_set_mode, wr_conreg, emit, udelay, SPI_MODE_0,
      SPI_CPOL, SPI_CPHA, ConReg.write]

theorem setup_unguarded {σ : Type} (H : Hw σ) (P : Platform) (k k1 : Machine σ)
    (spi : spi_device) (r : Int) (h : spicc_setup H P (some k) spi = (r, some k1)) :
    ∃ evs, k1.trace = k.trace ++ evs ∧ ∀ en, unguarded en evs = [] := by
  unfold spicc_setup at h
  simp only at h
  split at h
  · simp only [Prod.mk.injEq, Option.some.injEq] at h
    exact ⟨[], by rw [← h.2]; simp, fun _ => rfl⟩
  · split at h
    · simp only [Prod.mk.injEq, Option.some.injEq] at h
      obtain ⟨_, _, _, _, mevs, hm, hp⟩ := set_mode_runs spi.mode
        (spicc_set_clk P (s32 spi.max_speed_hz) (wr_conreg .enable 0
          (udelay H 10 (emit .clk_gate_on k))))
      refine ⟨[.clk_gate_on, .udelay 10, .conreg .enable 0,
        .conreg .data_rate_div (spicc_clk_div P.sys_clk_rate (s32 spi.max_speed_hz))] ++ mevs
        ++ [.conreg .bits_per_word (spi.bits_per_word - 1), .conreg .enable 1, .clk_gate_off],
        ?_, ?_⟩
      · rw [← h.2]
        show (spicc_set_mode spi.mode _).trace ++ _ ++ _ ++ _ = _
        rw [hm]
        simp [spicc_set_clk, wr_conreg, emit, udelay]
      · intro en
        have hq : ∀ e ∈ mevs, keeps_enable e := fun e he => keeps_enable_of_reprog e (hp e he)
        have e1 : ∀ rest, unguarded en ([.clk_gate_on, .udelay 10, .conreg .enable 0,
            .conreg .data_rate_div (spicc_clk_div P.sys_clk_rate (s32 spi.max_speed_hz))]
              ++ rest) = unguarded 0 rest := by
          intro rest
          simp [unguarded, guarded_field]
        rw [List.append_assoc, e1, unguarded_quiet_append mevs _ hq, unguarded_zero mevs hq]
        simp [unguarded, guarded_field]
    · simp only [Prod.mk.injEq, Option.some.injEq] at h
      exact ⟨[], by rw [← h.2]; simp, fun _ => rfl⟩

set_option maxRecDepth 100000 in
/-- C16 (code at the failing input): `spicc_hw_init`, then `spicc_setup` of the 8-bit
device at address 1, leave the enable bit 1 and no active device; processing the
two-byte sample message for that device then runs the device switch
(`spicc_set_clk`, `spicc_set_mode`) before `enable = 1` is written again, so that
the divider, phase and polarity fields are written while the enable bit is 1.  A
second instance: after `spicc_hw_init` alone, the message whose second transfer
asks for 10 MHz writes the divider field (code 2) inside the transfer loop,
between `enable = 1` and `enable = 0`. -/
theorem C16_programmed_while_enabled :
    after_one_setup.map (fun m => (m.spicc.regs.conreg.enable, m.spicc.spi)) = some (1, 0) ∧
    after_one_setup.bind (fun m =>
      (spicc_handle_one_msg loopback meson mem2 m msg_two_bytes).map
        (fun r => unguarded 0 r.1.trace))
      = some [.conreg .data_rate_div 5, .conreg .clk_pha 0, .conreg .clk_pol 0] ∧
    (spicc_handle_one_msg loopback meson mem2 (probe loopback meson master2 []) msg_override).map
      (fun r => unguarded 0 r.1.trace) = some [.conreg .data_rate_div 2] := by
  decide

/-- Where the driver does keep register programming and the enable bit apart:
`spicc_hw_init` and `spicc_setup` write the rate, phase, polarity
and word-size fields only after writing `enable = 0`, whatever the enable bit was
before.  `spicc_handle_one_msg`, entered with the enable bit 0, returns with the
enable bit 0, and the only writes to those fields it makes while the bit is not 0
are the divider writes of transfers that override the rate (`speed_hz` non-zero
and different from the device's nominal rate); a message without such a transfer
causes none. -/
theorem programming_and_enable {σ : Type} (H : Hw σ) (P : Platform) (hf : 0 < P.fifo_size)
    (mem : Nat → spi_device) (m : Machine σ) (msg : spi_message)
    (hb : m.spicc.cur_bits_per_word ≠ 0) (he : m.spicc.regs.conreg.enable = 0)
    (hal : msg.actual_length < 4294967296) :
    (∀ k : Machine σ, ∃ evs, (spicc_hw_init H P k).trace = k.trace ++ evs ∧
      unguarded k.spicc.regs.conreg.enable evs = [] ∧
      (spicc_hw_init H P k).spicc.regs.conreg.enable = 0) ∧
    (∀ (k k1 : Machine σ) (spi : spi_device) (r : Int),
      spicc_setup H P (some k) spi = (r, some k1) →
      ∃ evs, k1.trace = k.trace ++ evs ∧ unguarded k.spicc.regs.conreg.enable evs = []) ∧
    ∃ m1 msg1 evs, spicc_handle_one_msg H P mem m msg = some (m1, msg1) ∧
      m1.trace = m.trace ++ evs ∧ m1.spicc.regs.conreg.enable = 0 ∧
      (∀ e ∈ unguarded m.spicc.regs.conreg.enable evs, ∃ t ∈ msg.transfers,
        (mem msg.spi).max_speed_hz ≠ t.speed_hz ∧ t.speed_hz ≠ 0 ∧
        e = .conreg .data_rate_div (spicc_clk_div P.sys_clk_rate (s32 t.speed_hz))) ∧
      ((∀ t ∈ msg.transfers, t.speed_hz = 0 ∨ t.speed_hz = (mem msg.spi).max_speed_hz) →
        unguarded m.spicc.regs.conreg.enable evs = []) := by
  refine ⟨?_, ?_, ?_⟩
  · intro k
    obtain ⟨evs, h1, h2, h3⟩ := hw_init_unguarded H P k
    exact ⟨evs, h1, h2 _, h3⟩
  · intro k k1 spi r h
    obtain ⟨evs, h1, h2⟩ := setup_unguarded H P k k1 spi r h
    exact ⟨evs, h1, h2 _⟩
  · obtain ⟨m1, msg1, reprog, xfers, hh, hp, hx, ht, _, _, _, hen, hd⟩ :=
      handle_one_msg_results H P hf mem m msg hb hal
    have hsel := chip_select_actions_cs mem true msg.spi m.spicc.master
    have hdes := chip_select_actions_cs mem false msg.spi m.spicc.master
    have hq1 : ∀ e ∈ [Event.clk_gate_on] ++ reprog
        ++ chip_select_actions mem true msg.spi m.spicc.master, keeps_enable e := by
      intro e h
      simp only [List.mem_append, List.mem_singleton] at h
      rcases h with (h | h) | h
      · rw [h]; trivial
      · exact keeps_enable_of_reprog e (hp e h)
      · exact keeps_enable_of_cs e (hsel e h)
    have hq2 : ∀ e ∈ xfers, keeps_enable e := fun e h => keeps_enable_of_loop e (hx e h)
    have hq3 : ∀ e ∈ chip_select_actions mem false msg.spi m.spicc.master
        ++ [Event.clk_gate_off] ++ callback_actions msg, keeps_enable e := by
      intro e h
      simp only [List.mem_append, List.mem_singleton] at h
      rcases h with (h | h) | h
      · exact keeps_enable_of_cs e (hdes e h)
      · rw [h]; trivial
      · exact keeps_enable_callback msg e h
    have hsplit : [Event.clk_gate_on] ++ reprog
        ++ chip_select_actions mem true msg.spi m.spicc.master ++ [.conreg .enable 1]
        ++ xfers ++ [.conreg .enable 0]
        ++ chip_select_actions mem false msg.spi m.spicc.master ++ [.clk_gate_off]
        ++ callback_actions msg
        = ([Event.clk_gate_on] ++ reprog ++ chip_select_actions mem true msg.spi m.spicc.master)
          ++ (Event.conreg .enable 1 :: (xfers ++ (Event.conreg .enable 0 ::
            (chip_select_actions mem false msg.spi m.spicc.master ++ [.clk_gate_off]
              ++ callback_actions msg)))) := by
      simp only [List.append_assoc, List.singleton_append, List.cons_append, List.nil_append]
    have hun : unguarded 0 ([Event.clk_gate_on] ++ reprog
        ++ chip_select_actions mem true msg.spi m.spicc.master ++ [.conreg .enable 1]
        ++ xfers ++ [.conreg .enable 0]
        ++ chip_select_actions mem false msg.spi m.spicc.master ++ [.clk_gate_off]
        ++ callback_actions msg) = unguarded 1 xfers := by
      rw [hsplit, unguarded_quiet_append _ _ hq1, unguarded_zero _ hq1, List.nil_append]
      have e1 : ∀ en v rest, unguarded en (Event.conreg .enable v :: rest) = unguarded v rest := by
        intro en v rest
        simp [unguarded]
      rw [e1, unguarded_quiet_append _ _ hq2, e1, unguarded_zero _ hq3, List.append_nil]
    have hmem : ∀ e ∈ unguarded 1 xfers, ∃ t ∈ msg.transfers,
        (mem msg.spi).max_speed_hz ≠ t.speed_hz ∧ t.speed_hz ≠ 0 ∧
        e = .conreg .data_rate_div (spicc_clk_div P.sys_clk_rate (s32 t.speed_hz)) := by
      intro e h
      obtain ⟨f, v, h1, h2⟩ := unguarded_mem xfers 1 e h
      obtain ⟨t, ht1, ht2, ht3, ht4, ht5⟩ := hd f v h2
      exact ⟨t, ht1, ht2, ht3, by rw [h1, ht4, ht5]⟩
    refine ⟨m1, msg1, [Event.clk_gate_on] ++ reprog
        ++ chip_select_actions mem true msg.spi m.spicc.master ++ [.conreg .enable 1]
        ++ xfers ++ [.conreg .enable 0]
        ++ chip_select_actions mem false msg.spi m.spicc.master ++ [.clk_gate_off]
        ++ callback_actions msg, hh, by rw [ht]; simp only [List.append_assoc], hen, ?_, ?_⟩
    · rw [he, hun]
      exact hmem
    · intro hno
      rw [he, hun]
      apply List.eq_nil_iff_forall_not_mem.mpr
      intro e h
      obtain ⟨t, ht1, ht2, ht3, _⟩ := hmem e h
      rcases hno t ht1 with h0 | h0
      · exact ht3 h0
      · exact ht2 h0.symm

/-- The statement of `programming_and_enable` for the two-byte sample message, which
has no overriding transfer, after `spicc_hw_init`. -/
theorem programming_and_enable_at_probe :
    ∃ m1 msg1 evs, spicc_handle_one_msg loopback meson mem2 (probe loopback meson master2 [])
        msg_two_bytes = some (m1, msg1) ∧
      m1.trace = (probe loopback meson master2 []).trace ++ evs ∧
      m1.spicc.regs.conreg.enable = 0 ∧
      unguarded (probe loopback meson master2 []).spicc.regs.conreg.enable evs = [] := by
  obtain ⟨m1, msg1, evs, h1, h2, h3, _, h5⟩ :=
    (programming_and_enable loopback meson (by decide) mem2
      (probe loopback meson master2 []) msg_two_bytes (by decide) (by decide) (by decide)).2.2
  exact ⟨m1, msg1, evs, h1, h2, h3, h5 (by decide)⟩


/-! ## The exact timeout condition -/

theorem late_scan_append (a b : List Event) :
    ∀ c, late_scan c (a ++ b) = (late_scan c a).bind (fun c1 => late_scan c1 b) := by
  induction a with
  | nil => intro c; rfl
  | cons e a ih =>
    intro c
    cases e with
    | tx_empty v =>
      cases v
      · simp [late_scan, ih]
      · by_cases hc : c = 100 <;> simp [late_scan, ih, hc]
    | rx_ready v =>
      cases v
      · simp [late_scan, ih]
      · by_cases hc : c = 100 <;> simp [late_scan, ih, hc]
    | _ => simp [late_scan, ih]

theorem poll_exact {σ : Type} (H : Hw σ) (rd : Machine σ → Bool × Machine σ)
    (ev : Bool → Event) (hrd : ∀ m, (rd m).2.trace = m.trace ++ [ev (rd m).1])
    (hev : ev true ≠ ev false) :
    ∀ (n : Nat) (m : Machine σ),
      (spicc_poll H rd n m).1 = 0 ↔ (spicc_poll H rd n m).2.trace = m.trace ++ late_poll ev n := by
  intro n
  induction n with
  | zero =>
    intro m
    unfold spicc_poll
    split
    · rename_i hv
      simp [late_poll, hrd, hv]
    · rename_i hv
      have hv1 : (rd m).1 = false := by simpa using hv
      simp [late_poll, hrd, hv1, hev.symm]
  | succ n ih =>
    intro m
    unfold spicc_poll
    split
    · rename_i hv
      simp only [hrd, hv, late_poll, List.replicate_succ, List.flatten_cons, List.cons_append,
        List.nil_append, List.append_cancel_left_eq, List.cons.injEq]
      constructor
      · intro h; omega
      · intro h; exact absurd h.1 hev
    · rename_i hv
      have hv1 : (rd m).1 = false := by simpa using hv
      rw [ih (udelay H 1 (rd m).2)]
      have ht : (udelay H 1 (rd m).2).trace = m.trace ++ [ev false, .udelay 1] := by
        show (rd m).2.trace ++ [Event.udelay 1] = _
        rw [hrd, hv1]; simp
      rw [ht]
      have hl : late_poll ev (n + 1) = [ev false, .udelay 1] ++ late_poll ev n := by
        simp [late_poll, List.replicate_succ]
      rw [hl, List.append_assoc]

theorem poll_scan {σ : Type} (H : Hw σ) (rd : Machine σ → Bool × Machine σ)
    (ev : Bool → Event) (hrd : ∀ m, (rd m).2.trace = m.trace ++ [ev (rd m).1])
    (hsc : ∀ c v es, late_scan c (ev v :: es)
      = if v then (if c = 100 then none else late_scan 0 es) else late_scan (c + 1) es) :
    ∀ (n : Nat) (m : Machine σ) (c : Nat), c + n = 100 →
      ∃ evs, (spicc_poll H rd n m).2.trace = m.trace ++ evs ∧
        ((spicc_poll H rd n m).1 = 0 → late_scan c evs = none) ∧
        ((spicc_poll H rd n m).1 ≠ 0 → ∃ c1, late_scan c evs = some c1) := by
  intro n
  induction n with
  | zero =>
    intro m c hc
    unfold spicc_poll
    split
    · rename_i hv
      refine ⟨[ev true], by rw [hrd, hv], ?_, ?_⟩
      · intro _; rw [hsc]; simp; omega
      · intro h; exact absurd rfl h
    · rename_i hv
      have hv1 : (rd m).1 = false := by simpa using hv
      refine ⟨[ev false], by rw [hrd, hv1], ?_, ?_⟩
      · intro h; simp at h
      · intro _; exact ⟨c + 1, by rw [hsc]; simp [late_scan]⟩
  | succ n ih =>
    intro m c hc
    unfold spicc_poll
    split
    · rename_i hv
      refine ⟨[ev true], by rw [hrd, hv], ?_, ?_⟩
      · intro h; simp at h
      · intro _
        refine ⟨0, ?_⟩
        rw [hsc]
        have : c ≠ 100 := by omega
        simp [this, late_scan]
    · rename_i hv
      have hv1 : (rd m).1 = false := by simpa using hv
      obtain ⟨evs, h1, h2, h3⟩ := ih (udelay H 1 (rd m).2) (c + 1) (by omega)
      have ht : (udelay H 1 (rd m).2).trace = m.trace ++ [ev false, .udelay 1] := by
        show (rd m).2.trace ++ [Event.udelay 1] = _
        rw [hrd, hv1]; simp
      have hs : late_scan c (ev false :: .udelay 1 :: evs) = late_scan (c + 1) evs := by
        rw [hsc]; simp [late_scan]
      refine ⟨ev false :: .udelay 1 :: evs, ?_, ?_, ?_⟩
      · rw [h1, ht]; simp
      · intro h; rw [hs]; exact h2 h
      · intro h; rw [hs]; exact h3 h

theorem tx_loop_scan {σ : Type} (H : Hw σ) :
    ∀ (n : Nat) (x : Xfer σ) (c : Nat),
      ∃ evs, (tx_loop H n x).2.m.trace = x.m.trace ++ evs ∧
        ((tx_loop H n x).1 = none → late_scan c evs = some (if n = 0 then c else 0)) ∧
        (∀ r, (tx_loop H n x).1 = some r → r = -1 ∧ ∃ c1, late_scan c evs = some c1) := by
  intro n
  induction n with
  | zero =>
    intro x c
    exact ⟨[], by simp [tx_loop], fun _ => rfl, fun r h => by simp [tx_loop] at h⟩
  | succ n ih =>
    intro x c
    unfold tx_loop
    split
    · exact ⟨[], by simp, fun h => by simp at h,
        fun r h => ⟨by simp at h; exact h.symm, c, rfl⟩⟩
    · rename_i dat txp _
      obtain ⟨evs, h1, h2, h3⟩ := ih { x with m := wr_txdata H dat x.m, txp := txp } 0
      have hs : ∀ k, late_scan k (Event.txdata dat :: evs) = late_scan 0 evs := by
        intro k; simp [late_scan]
      refine ⟨.txdata dat :: evs, ?_, ?_, ?_⟩
      · rw [h1]
        show x.m.trace ++ [Event.txdata dat] ++ evs = _
        simp
      · intro h
        rw [hs, h2 h]
        simp
      · intro r h
        obtain ⟨hr, c1, hc⟩ := h3 r h
        exact ⟨hr, c1, by rw [hs]; exact hc⟩

theorem rx_loop_scan {σ : Type} (H : Hw σ) :
    ∀ (n : Nat) (x : Xfer σ),
      ∃ evs, (rx_loop H n x).2.m.trace = x.m.trace ++ evs ∧
        ((rx_loop H n x).1 = none → late_scan 0 evs = some 0) ∧
        (∀ r, (rx_loop H n x).1 = some r → (r = -ETIMEDOUT ↔ late_scan 0 evs = none)) := by
  intro n
  induction n with
  | zero =>
    intro x
    exact ⟨[], by simp [rx_loop], fun _ => rfl, fun r h => by simp [rx_loop] at h⟩
  | succ n ih =>
    intro x
    obtain ⟨pevs, p1, p2, p3⟩ := poll_scan H (rd_rx_ready H) Event.rx_ready (fun _ => rfl)
      (fun _ _ _ => rfl) 100 x.m 0 (by omega)
    have hdelay : ∃ d0, (rx_delay H (spicc_poll H (rd_rx_ready H) 100 x.m).2).trace
        = (spicc_poll H (rd_rx_ready H) 100 x.m).2.trace ++ d0 ∧
        ∀ k, late_scan k d0 = some k := by
      unfold rx_delay
      split
      · exact ⟨[.udelay _], rfl, fun k => rfl⟩
      · exact ⟨[], by simp, fun k => rfl⟩
    obtain ⟨d0, hd0, hd1⟩ := hdelay
    have hd : ∃ devs, (rd_rxdata H (rx_delay H (spicc_poll H (rd_rx_ready H) 100 x.m).2)).2.trace
        = (spicc_poll H (rd_rx_ready H) 100 x.m).2.trace ++ devs ∧
        ∀ k, late_scan k devs = some 0 := by
      refine ⟨d0 ++ [.rxdata (rd_rxdata H
        (rx_delay H (spicc_poll H (rd_rx_ready H) 100 x.m).2)).1], ?_, ?_⟩
      · show (rx_delay H _).trace ++ [_] = _
        rw [hd0, List.append_assoc]
        rfl
      · intro k
        rw [late_scan_append, hd1, Option.some_bind]
        rfl
    obtain ⟨devs, d1, d2⟩ := hd
    unfold rx_loop
    simp only
    split
    · rename_i h0
      refine ⟨pevs, p1, fun h => by simp at h, ?_⟩
      intro r h
      simp only [Option.some.injEq] at h
      rw [← h]
      simp [p2 h0]
    · rename_i h0
      obtain ⟨c1, hc1⟩ := p3 h0
      have hscan : ∀ rest, late_scan 0 (pevs ++ devs ++ rest) = late_scan 0 rest := by
        intro rest
        rw [List.append_assoc, late_scan_append, hc1, Option.some_bind, late_scan_append, d2,
          Option.some_bind]
      split
      · obtain ⟨evs, h1, h2, h3⟩ := ih
          { x with m := (rd_rxdata H (rx_delay H (spicc_poll H (rd_rx_ready H) 100 x.m).2)).2 }
        refine ⟨pevs ++ devs ++ evs, ?_, ?_, ?_⟩
        · rw [h1]; show (rd_rxdata H _).2.trace ++ evs = _
          rw [d1, p1]; simp
        · intro h; rw [hscan]; exact h2 h
        · intro r h; rw [hscan]; exact h3 r h
      · split
        · refine ⟨pevs ++ devs, ?_, fun h => by simp at h, ?_⟩
          · show (rd_rxdata H _).2.trace = _
            rw [d1, p1]; simp
          · intro r h
            simp only [Option.some.injEq] at h
            rw [← h]
            have := hscan []
            simp only [List.append_nil] at this
            rw [this]
            simp [late_scan, ETIMEDOUT]
        · rename_i rx1 _
          obtain ⟨evs, h1, h2, h3⟩ := ih
            { x with m := (rd_rxdata H (rx_delay H (spicc_poll H (rd_rx_ready H) 100 x.m).2)).2,
                     rxp := some rx1 }
          refine ⟨pevs ++ devs ++ evs, ?_, ?_, ?_⟩
          · rw [h1]; show (rd_rxdata H _).2.trace ++ evs = _
            rw [d1, p1]; simp
          · intro h; rw [hscan]; exact h2 h
          · intro r h; rw [hscan]; exact h3 r h

theorem xfer_loop_scan {σ : Type} (H : Hw σ) (P : Platform) (hf : 0 < P.fifo_size) :
    ∀ (fuel count : Nat) (x : Xfer σ) (r : Int) (x1 : Xfer σ),
      xfer_loop H P fuel count x = some (r, x1) →
      ∃ evs, x1.m.trace = x.m.trace ++ evs ∧ (r = -ETIMEDOUT ↔ late_scan 0 evs = none) := by
  intro fuel
  induction fuel with
  | zero =>
    intro count x r x1 h
    cases count with
    | zero =>
      simp [xfer_loop] at h
      obtain ⟨rfl, rfl⟩ := h
      exact ⟨[], by simp, by simp [late_scan, ETIMEDOUT]⟩
    | succ c => simp [xfer_loop] at h
  | succ fuel ih =>
    intro count x r x1 h
    cases count with
    | zero =>
      simp [xfer_loop] at h
      obtain ⟨rfl, rfl⟩ := h
      exact ⟨[], by simp, by simp [late_scan, ETIMEDOUT]⟩
    | succ count =>
      obtain ⟨pevs, p1, p2, p3⟩ := poll_scan H (rd_tx_empty H) Event.tx_empty (fun _ => rfl)
        (fun _ _ _ => rfl) 100 x.m 0 (by omega)
      unfold xfer_loop at h
      simp only at h
      generalize hnum : (if count + 1 > P.fifo_size then P.fifo_size else count + 1) = num at h
      have hn : num ≠ 0 := by
        rw [← hnum]; split <;> omega
      split at h
      · rename_i h0
        simp only [Option.some.injEq, Prod.mk.injEq] at h
        obtain ⟨rfl, rfl⟩ := h
        exact ⟨pevs, p1, by simp [p2 h0]⟩
      · rename_i h0
        obtain ⟨c1, hc1⟩ := p3 h0
        obtain ⟨tevs, t1, t2, t3⟩ := tx_loop_scan H num
          { x with m := (spicc_poll H (rd_tx_empty H) 100 x.m).2 } c1
        split at h
        · rename_i r2 x2 heq
          simp only [Option.some.injEq, Prod.mk.injEq] at h
          obtain ⟨rfl, rfl⟩ := h
          rw [heq] at t1 t3
          obtain ⟨hr, c2, hc2⟩ := t3 r2 rfl
          refine ⟨pevs ++ tevs, ?_, ?_⟩
          · rw [t1]; show (spicc_poll H (rd_tx_empty H) 100 x.m).2.trace ++ tevs = _
            rw [p1]; simp
          · rw [late_scan_append, hc1, Option.some_bind, hc2, hr]
            simp [ETIMEDOUT]
        · rename_i xt heq
          rw [heq] at t1 t2
          have ht2 : late_scan c1 tevs = some 0 := by
            rw [t2 rfl]; simp [hn]
          have hxt : xt.m.trace = x.m.trace ++ pevs ++ tevs := by
            rw [t1]; show (spicc_poll H (rd_tx_empty H) 100 x.m).2.trace ++ tevs = _
            rw [p1]
          obtain ⟨revs, r1, r2, r3⟩ := rx_loop_scan H num xt
          have hscan : ∀ rest, late_scan 0 (pevs ++ tevs ++ rest) = late_scan 0 rest := by
            intro rest
            rw [List.append_assoc, late_scan_append, hc1, Option.some_bind, late_scan_append,
              ht2, Option.some_bind]
          split at h
          · rename_i r4 x4 heq2
            simp only [Option.some.injEq, Prod.mk.injEq] at h
            obtain ⟨rfl, rfl⟩ := h
            rw [heq2] at r1 r3
            refine ⟨pevs ++ tevs ++ revs, ?_, ?_⟩
            · rw [r1, hxt]; simp
            · rw [hscan]; exact r3 r4 rfl
          · rename_i x4 heq2
            rw [heq2] at r1 r2
            obtain ⟨evs, e1, e2⟩ := ih _ x4 r x1 h
            refine ⟨pevs ++ tevs ++ (revs ++ evs), ?_, ?_⟩
            · rw [e1, r1, hxt]; simp
            · rw [hscan, late_scan_append, r2 rfl, Option.some_bind]; exact e2

/-- C21: the exact timeout condition of `spicc_hw_xfer`, with `retry` a 32-bit
unsigned value.  A poll started with `retry = 100` ends with `retry == 0`, the
condition of the timeout branch, if and only if its reads of the flag are 100
reads that find it not set, each followed by `udelay(1)`, and a 101st read that
finds it set; this holds for the TX-empty and for the RX-ready poll.  For every
hardware behaviour the call returns, and it returns `-ETIMEDOUT` if and only if
some poll among its actions has that shape. -/
theorem C21_timeout_condition {σ : Type} (H : Hw σ) (P : Platform) (hf : 0 < P.fifo_size)
    (m : Machine σ) (txp rxp : Option (List Nat)) (len : Int)
    (hb : len = 0 ∨ m.spicc.cur_bits_per_word ≠ 0) :
    (∀ k : Machine σ, (spicc_poll H (rd_tx_empty H) 100 k).1 = 0 ↔
      (spicc_poll H (rd_tx_empty H) 100 k).2.trace = k.trace ++ late_poll Event.tx_empty 100) ∧
    (∀ k : Machine σ, (spicc_poll H (rd_rx_ready H) 100 k).1 = 0 ↔
      (spicc_poll H (rd_rx_ready H) 100 k).2.trace = k.trace ++ late_poll Event.rx_ready 100) ∧
    ∃ r x evs, spicc_hw_xfer H P m txp rxp len = some (r, x) ∧
      x.m.trace = m.trace ++ evs ∧ (r = -ETIMEDOUT ↔ late_ready evs = true) := by
  refine ⟨poll_exact H (rd_tx_empty H) Event.tx_empty (fun _ => rfl) (by simp) 100,
    poll_exact H (rd_rx_ready H) Event.rx_ready (fun _ => rfl) (by simp) 100, ?_⟩
  obtain ⟨r, x, hx, _⟩ := hw_xfer_returns H P hf m txp rxp len hb
  have hx2 := hx
  unfold spicc_hw_xfer at hx2
  have hc : ¬ (len ≠ 0 ∧ m.spicc.cur_bits_per_word = 0) := by
    rcases hb with h | h
    · simp [h]
    · simp [h]
  simp only [hc, if_false] at hx2
  obtain ⟨evs, h1, h2⟩ := xfer_loop_scan H P hf _ _ ⟨m, txp, rxp⟩ r x hx2
  refine ⟨r, x, evs, hx, h1, ?_⟩
  rw [h2]
  unfold late_ready
  cases late_scan 0 evs <;> simp

set_option maxRecDepth 100000 in
/-- C21 (witness): the statement for a one-byte transfer on hardware whose flags
read as set once 110 microseconds have passed, 10 of which pass in
`spicc_hw_init`.  There the TX-empty flag is found
not set by 100 reads and set by the 101st, and the call returns `-ETIMEDOUT`
although the flag did become ready. -/
theorem C21_timeout_condition_witness :
    (∃ r x evs, spicc_hw_xfer (slow 110) meson (probe (slow 110) meson master2 0)
        (some [18]) (some []) 1 = some (r, x) ∧
      x.m.trace = (probe (slow 110) meson master2 0).trace ++ evs ∧
      (r = -ETIMEDOUT ↔ late_ready evs = true)) ∧
    (spicc_hw_xfer (slow 110) meson (probe (slow 110) meson master2 0)
        (some [18]) (some []) 1).map
      (fun r => (r.1, r.2.m.trace.drop (probe (slow 110) meson master2 0).trace.length))
      = some (-ETIMEDOUT, late_poll Event.tx_empty 100) :=
  ⟨(C21_timeout_condition (slow 110) meson (by decide) (probe (slow 110) meson master2 0)
      (some [18]) (some []) 1 (Or.inr (by decide))).2.2, by decide⟩

end Spicc
